import Mathlib

/-!
Verification development for the repository-statistics engine
(`src/generate/templates/manual/repository/statistics.cc` together with the
worker pool of `src/generate/templates/manual/include/work_pool.h`).

The C++ code is shallowly embedded as pure Lean functions:

* object identifiers (20-byte `git_oid` raw strings used as hashmap keys) are
  modelled as `Nat`; only decidable equality of keys is ever used by the code;
* the four `unordered_map`s of `OdbObjectsInfo` are modelled as association
  lists (`List (Oid × α)`) in insertion order; `emplace` inserts only when the
  key is absent, exactly like `std::unordered_map::emplace`;
* `size_t` accumulators (sizes, counts) are modelled as `Nat`; the claims under
  study never exercise 64-bit wraparound, so no `% 2^64` is threaded through;
* `uint32_t` quantities whose wraparound is semantically load-bearing are
  modelled faithfully: the `--child->parentsLeft` decrement of
  `CommitsGraph::CalculateMaxDepth` wraps at zero, the `maxDepth` level counter
  and the tag `depth` arithmetic reduce modulo `2^32`;
* the object database (`git_object_lookup` / `git_odb_read`) is a function
  `Oid → Option ObjData`; `none` models a failed lookup of a pending work item;
* while-loops / recursions whose termination the C++ does not make structural
  (`CalculateMaxDepth`'s peeling loop, the recursive tree roll-up) take a fuel
  argument; the callers pass a fuel that is proved sufficient under the claims'
  well-formedness hypotheses, and fuel exhaustion models the divergence the C++
  exhibits on (impossible-for-git) cyclic inputs.
-/

abbrev Oid := Nat

/-- `2^32`, the modulus of `uint32_t` arithmetic. -/
def U32 : Nat := 4294967296

/-- The subset of `git_object_t` values the engine distinguishes
(`GIT_OBJECT_COMMIT/TREE/BLOB/TAG`, everything else is `invalid`/other). -/
inductive ObjType where
  | commit | tree | blob | tag | invalid
deriving DecidableEq, Repr

/-- The filemodes `WorkerStoreOdbData::thisTreeDataAndStats` compares against
(`GIT_FILEMODE_COMMIT`, `GIT_FILEMODE_LINK`) plus the remaining modes. -/
inductive Filemode where
  | blobMode | blobExecutable | link | treeMode | commitMode
deriving DecidableEq, Repr

/-- One `git_tree_entry`: its name length (`strlen(git_tree_entry_name)`),
filemode, target type and target oid. -/
structure TreeEntry where
  nameLen : Nat
  mode : Filemode
  etype : ObjType
  eoid : Oid
deriving DecidableEq, Repr

/-- The information `WorkerStoreOdbData::Execute` reads from one object of the
object database: variant tag, serialized size (`git_odb_object_size` /
`git_blob_rawsize`) and the typed accessors used by each case. -/
inductive ObjData where
  | commit (size : Nat) (treeOid : Oid) (parents : List Oid)
  | tree (size : Nat) (entries : List TreeEntry)
  | blob (size : Nat)
  | tag (targetOid : Oid) (targetType : ObjType)
  | other
deriving DecidableEq, Repr

/-- An object database together with lookup: `none` models a failing
`git_object_lookup`/`git_odb_read` for that oid. -/
abbrev Odb := Oid → Option ObjData

/- ----------------------------------------------------------------
Association-list maps, mirroring the `std::unordered_map`s keyed by oid.
`emplaceA` is `emplace` (no overwrite), `updateA` is mutation through an
iterator of an existing entry.
---------------------------------------------------------------- -/

def lookupA {α : Type} : List (Oid × α) → Oid → Option α
  | [], _ => none
  | (k, v) :: r, o => if o = k then some v else lookupA r o

/-- `map.emplace(k, v)`: insert iff absent; second component is
`emplace(...).second` (whether a new entry was created). -/
def emplaceA {α : Type} (m : List (Oid × α)) (k : Oid) (v : α) :
    List (Oid × α) × Bool :=
  match lookupA m k with
  | some _ => (m, false)
  | none => (m ++ [(k, v)], true)

/-- In-place mutation of the entry at `k` (no-op when absent). -/
def updateA {α : Type} (m : List (Oid × α)) (k : Oid) (f : α → α) :
    List (Oid × α) :=
  m.map fun e => if e.1 = k then (e.1, f e.2) else e

/- ----------------------------------------------------------------
CommitsGraph (statistics.cc lines 1-128)
---------------------------------------------------------------- -/

/-- `CommitsGraphNode`: children pointers (modelled by oid, the arena key) and
the `uint32_t parentsLeft` counter. -/
structure CommitsGraphNode where
  children : List Oid := []
  parentsLeft : Nat := 0
deriving Repr

/-- `CommitsGraph`: arena map `m_mapOidNode` plus `m_roots`. -/
structure CommitsGraph where
  mapOidNode : List (Oid × CommitsGraphNode) := []
  roots : List Oid := []

namespace CommitsGraph

/-- `CommitsGraph::addParentNode`: get-or-create the parent's node, then append
the child to its children list. -/
def addParentNode (ns : List (Oid × CommitsGraphNode)) (oidParent child : Oid) :
    List (Oid × CommitsGraphNode) :=
  let ns1 := match lookupA ns oidParent with
    | some _ => ns
    | none => ns ++ [(oidParent, {})]
  updateA ns1 oidParent fun n => { n with children := n.children ++ [child] }

/-- `CommitsGraph::AddNode`.  `numParents` is
`static_cast<uint32_t>(git_commit_parentcount(commit))`, hence the `% U32`;
the parent loop runs `numParents` times reading `git_commit_parent_id(i)`. -/
def AddNode (g : CommitsGraph) (oid : Oid) (parents : List Oid) : CommitsGraph :=
  let np := parents.length % U32
  let nodes1 := match lookupA g.mapOidNode oid with
    | some _ => updateA g.mapOidNode oid fun n => { n with parentsLeft := np }
    | none => g.mapOidNode ++ [(oid, { parentsLeft := np })]
  let roots1 := if np = 0 then g.roots ++ [oid] else g.roots
  let nodes2 := (parents.take np).foldl (fun ns p => addParentNode ns p oid) nodes1
  { mapOidNode := nodes2, roots := roots1 }

/-- Children list of a node (empty for absent nodes, which never occurs for
oids reachable from the frontier). -/
def chl (g : CommitsGraph) (o : Oid) : List Oid :=
  ((lookupA g.mapOidNode o).map CommitsGraphNode.children).getD []

/-- `parentsLeft` of a node. -/
def plOf (g : CommitsGraph) (o : Oid) : Nat :=
  ((lookupA g.mapOidNode o).map CommitsGraphNode.parentsLeft).getD 0

/-- `std::set` insertion: membership-deduplicating append. -/
def insDedup (l : List Oid) (x : Oid) : List Oid :=
  if x ∈ l then l else l ++ [x]

/-- `--child->parentsLeft` on a `uint32_t`: wraps to `2^32 - 1` at zero. -/
def decWrap (w : Nat) : Nat := if w = 0 then U32 - 1 else w - 1

/-- One child visit of the inner loops of `CalculateMaxDepth`: decrement the
child's `parentsLeft`; when it reaches zero insert it into the next level. -/
def peelVisit (st : (Oid → Nat) × List Oid) (c : Oid) : (Oid → Nat) × List Oid :=
  let old := st.1 c
  ((fun o => if o = c then decWrap old else st.1 o),
   if decWrap old = 0 then insDedup st.2 c else st.2)

/-- One iteration of the while-loop: visit every child of every frontier node
(the nested for-loops, flattened), starting from an empty next-level set. -/
def levelStep (ch : Oid → List Oid) (pl : Oid → Nat) (frontier : List Oid) :
    (Oid → Nat) × List Oid :=
  (frontier.flatMap ch).foldl peelVisit (pl, [])

/-- The while-loop of `CalculateMaxDepth`, fuelled.  `(1 + _) % U32` is the
`++maxDepth` increment of the `uint32_t` level counter.  The C++ loop has no
fuel; the fuel passed by `CalculateMaxDepth` is proved sufficient whenever the
graph is a DAG, the only case the loop terminates on. -/
def peel (ch : Oid → List Oid) : Nat → (Oid → Nat) → List Oid → Nat
  | 0, _, _ => 0
  | fuel + 1, pl, frontier =>
    if frontier = [] then 0
    else
      let st := levelStep ch pl frontier
      (1 + peel ch fuel st.1 st.2) % U32

/-- `CommitsGraph::CalculateMaxDepth`: seed the frontier with the deduplicated
roots and peel level by level. -/
def CalculateMaxDepth (g : CommitsGraph) : Nat :=
  peel (chl g) (g.mapOidNode.length + 1) (plOf g) (g.roots.foldl insDedup [])

end CommitsGraph

/- ----------------------------------------------------------------
TreeStatistics / OdbObjectsInfo (statistics.cc lines 130-257)
---------------------------------------------------------------- -/

/-- `struct TreeStatistics`. -/
structure TreeStatistics where
  numDirectories : Nat := 0
  maxPathDepth : Nat := 0
  maxPathLength : Nat := 0
  numFiles : Nat := 0
  totalFileSize : Nat := 0
  numSymlinks : Nat := 0
  numSubmodules : Nat := 0
deriving DecidableEq, Repr

/-- `OdbObjectsInfo::TreeDataAndStats`. -/
structure TreeDataAndStats where
  entryBlobs : List Oid := []
  entryTreesNameLen : List (Oid × Nat) := []
  stats : TreeStatistics := {}
  statsDone : Bool := false
deriving DecidableEq, Repr

/-- `OdbObjectsInfo::TagData`; `depth = 0` is `kUnsetDepth`. -/
structure TagData where
  oidTarget : Oid
  typeTarget : ObjType
  depth : Nat := 0
deriving DecidableEq, Repr

/-- `OdbObjectsInfo`: the four category tables and their scalars.  The graph
lives next to the commits map as in the source. -/
structure OdbObjectsInfo where
  commitsInfo : List (Oid × Oid) := []       -- oid → root tree oid
  graph : CommitsGraph := {}
  commitsTotalSize : Nat := 0
  commitsMaxSize : Nat := 0
  commitsMaxParents : Nat := 0
  treesInfo : List (Oid × TreeDataAndStats) := []
  treesTotalSize : Nat := 0
  treesTotalEntries : Nat := 0
  treesMaxEntries : Nat := 0
  blobsInfo : List (Oid × Nat) := []
  blobsTotalSize : Nat := 0
  blobsMaxSize : Nat := 0
  tagsInfo : List (Oid × TagData) := []

/-- `struct Statistics`, flattened into one record (the nested anonymous
structs of the source become field prefixes). -/
structure Statistics where
  commitsCount : Nat := 0
  commitsSize : Nat := 0
  treesCount : Nat := 0
  treesSize : Nat := 0
  treesEntries : Nat := 0
  blobsCount : Nat := 0
  blobsSize : Nat := 0
  annotatedTagsCount : Nat := 0
  referencesCount : Nat := 0
  biggestCommitsMaxSize : Nat := 0
  biggestCommitsMaxParents : Nat := 0
  biggestTreesMaxEntries : Nat := 0
  biggestBlobsMaxSize : Nat := 0
  maxDepth : Nat := 0
  maxTagDepth : Nat := 0
  biggestCheckouts : TreeStatistics := {}
deriving DecidableEq, Repr

/- ----------------------------------------------------------------
WorkerStoreOdbData (statistics.cc lines 293-564)
---------------------------------------------------------------- -/

namespace WorkerStoreOdbData

/-- `WorkerStoreOdbData::thisTreeDataAndStats`: one pass over the entries,
building the partial statistics and the two per-entry lists.  Submodule
entries (`GIT_OBJECT_COMMIT` with `GIT_FILEMODE_COMMIT`) only bump
`numSubmodules`; blob entries with `GIT_FILEMODE_LINK` only bump
`numSymlinks`; other blob entries are recorded with their name length;
sub-tree entries are recorded as (oid, name length). -/
def thisTreeDataAndStats (entries : List TreeEntry) : TreeDataAndStats :=
  entries.foldl
    (fun tds te =>
      match te.etype with
      | ObjType.commit =>
        if te.mode = Filemode.commitMode then
          { tds with stats := { tds.stats with
              numSubmodules := tds.stats.numSubmodules + 1 } }
        else tds
      | ObjType.blob =>
        if te.mode = Filemode.link then
          { tds with stats := { tds.stats with
              numSymlinks := tds.stats.numSymlinks + 1 } }
        else
          { tds with
            entryBlobs := tds.entryBlobs ++ [te.eoid],
            stats := { tds.stats with
              numFiles := tds.stats.numFiles + 1,
              maxPathLength := max tds.stats.maxPathLength te.nameLen } }
      | ObjType.tree =>
        { tds with entryTreesNameLen := tds.entryTreesNameLen ++ [(te.eoid, te.nameLen)] }
      | _ => tds)
    {}

/-- `WorkerStoreOdbData::Execute` for one work item.  `none` models
`return false` (a failed `git_object_lookup` or `git_odb_read`); in every
failing path of the source the accumulator is untouched. -/
def Execute (odb : Odb) (st : OdbObjectsInfo) (oid : Oid) : Option OdbObjectsInfo :=
  match odb oid with
  | none => none
  | some (ObjData.commit size treeOid parents) =>
    match emplaceA st.commitsInfo oid treeOid with
    | (m', true) =>
      some { st with
        commitsInfo := m',
        commitsTotalSize := st.commitsTotalSize + size,
        commitsMaxSize := max st.commitsMaxSize size,
        commitsMaxParents := max st.commitsMaxParents parents.length,
        graph := st.graph.AddNode oid parents }
    | (_, false) => some st
  | some (ObjData.tree size entries) =>
    -- do not count empty trees
    if entries.length = 0 then some st
    else
      match emplaceA st.treesInfo oid (thisTreeDataAndStats entries) with
      | (m', true) =>
        some { st with
          treesInfo := m',
          treesTotalSize := st.treesTotalSize + size,
          treesTotalEntries := st.treesTotalEntries + entries.length,
          treesMaxEntries := max st.treesMaxEntries entries.length }
      | (_, false) => some st
  | some (ObjData.blob size) =>
    match emplaceA st.blobsInfo oid size with
    | (m', true) =>
      some { st with
        blobsInfo := m',
        blobsTotalSize := st.blobsTotalSize + size,
        blobsMaxSize := max st.blobsMaxSize size }
    | (_, false) => some st
  | some (ObjData.tag targetOid targetType) =>
    some { st with
      tagsInfo := (emplaceA st.tagsInfo oid
        { oidTarget := targetOid, typeTarget := targetType, depth := 0 }).1 }
  | some ObjData.other => some st

end WorkerStoreOdbData

/- ----------------------------------------------------------------
RepoAnalysis (statistics.cc lines 600-935)
---------------------------------------------------------------- -/

namespace RepoAnalysis

/-- The libgit2 codes the engine produces. -/
def GIT_OK : Int := 0
def GIT_EUSER : Int := -7

/-- The blob loop of `calculateTreeStatistics`: look every entry blob up in the
blobs table, summing sizes; a missing blob aborts the roll-up. -/
def sumBlobSizes (blobs : List (Oid × Nat)) : List Oid → Option Nat
  | [] => some 0
  | b :: r =>
    match lookupA blobs b with
    | none => none
    | some sz => (sumBlobSizes blobs r).map (sz + ·)

/-- The sub-tree loop of `calculateTreeStatistics`, parameterised by the
recursive roll-up (`calculateTreeStatistics` at the next fuel level):
recursively roll up each child, then accumulate its cumulative statistics
into the parent's. -/
def rollSubtrees
    (f : List (Oid × TreeDataAndStats) → Oid →
      Except Unit (List (Oid × TreeDataAndStats) × TreeDataAndStats)) :
    List (Oid × Nat) → List (Oid × TreeDataAndStats) → TreeStatistics →
    Except Unit (List (Oid × TreeDataAndStats) × TreeStatistics)
  | [], trees, s => .ok (trees, s)
  | (c, nl) :: rest, trees, s =>
    match f trees c with
    | .error e => .error e
    | .ok (trees', dc) =>
      rollSubtrees f rest trees'
        { numDirectories := s.numDirectories + dc.stats.numDirectories,
          maxPathDepth := max s.maxPathDepth (dc.stats.maxPathDepth + 1),
          maxPathLength := max s.maxPathLength (nl + 1 + dc.stats.maxPathLength),
          numFiles := s.numFiles + dc.stats.numFiles,
          totalFileSize := s.totalFileSize + dc.stats.totalFileSize,
          numSymlinks := s.numSymlinks + dc.stats.numSymlinks,
          numSubmodules := s.numSubmodules + dc.stats.numSubmodules }

/-- `RepoAnalysis::calculateTreeStatistics`: memoized recursive roll-up of one
tree.  Returns the updated trees table together with the rolled-up entry (the
returned iterator); `.error ()` is the `treesInfo.info.end()` escape.  The
source mutates the entry in place through the iterator; since the entry is
only re-read on cyclic inputs (where the source recursion diverges, modelled
by fuel exhaustion), writing the finished entry back once at the end is
observationally the same.  The fuel bounds the recursion depth, which on an
acyclic table never exceeds the table size. -/
def calculateTreeStatistics (blobs : List (Oid × Nat)) :
    Nat → List (Oid × TreeDataAndStats) → Oid →
    Except Unit (List (Oid × TreeDataAndStats) × TreeDataAndStats)
  | 0, _, _ => .error ()
  | fuel + 1, trees, oidTree =>
    match lookupA trees oidTree with
    | none => .error ()
    | some d =>
      -- prune recursivity
      if d.statsDone then .ok (trees, d)
      else
        -- ++numDirectories; ++maxPathDepth
        let s0 := { d.stats with
          numDirectories := d.stats.numDirectories + 1,
          maxPathDepth := d.stats.maxPathDepth + 1 }
        -- totalFileSize from the blobs table; missing blob aborts
        match sumBlobSizes blobs d.entryBlobs with
        | none => .error ()
        | some bs =>
          let s1 := { s0 with totalFileSize := s0.totalFileSize + bs }
          match rollSubtrees (calculateTreeStatistics blobs fuel)
              d.entryTreesNameLen trees s1 with
          | .error e => .error e
          | .ok (trees', s2) =>
            let dDone := { d with stats := s2, statsDone := true }
            .ok (updateA trees' oidTree (fun _ => dDone), dDone)

/-- `RepoAnalysis::calculateBiggestCheckouts`: roll up every commit's root
tree and take the component-wise maximum.  Iterates the commits table,
threading the mutating trees table; a failed roll-up returns `GIT_EUSER`. -/
def calculateBiggestCheckouts (blobs : List (Oid × Nat))
    (treesLen : Nat) :
    List (Oid × Oid) → List (Oid × TreeDataAndStats) → TreeStatistics →
    Except Unit (List (Oid × TreeDataAndStats) × TreeStatistics)
  | [], trees, bc => .ok (trees, bc)
  | (_, commitOidTree) :: rest, trees, bc =>
    match calculateTreeStatistics blobs (treesLen + 1) trees commitOidTree with
    | .error e => .error e
    | .ok (trees', d) =>
      calculateBiggestCheckouts blobs treesLen rest trees'
        { numDirectories := max bc.numDirectories d.stats.numDirectories,
          totalFileSize := max bc.totalFileSize d.stats.totalFileSize,
          maxPathDepth := max bc.maxPathDepth d.stats.maxPathDepth,
          numFiles := max bc.numFiles d.stats.numFiles,
          maxPathLength := max bc.maxPathLength d.stats.maxPathLength,
          numSymlinks := max bc.numSymlinks d.stats.numSymlinks,
          numSubmodules := max bc.numSubmodules d.stats.numSubmodules }

/-- `RepoAnalysis::calculateTagDepth`: memoized recursive resolution of one
tag's chain depth.  The entry's depth is set to 1 in the table *before*
recursing (the memo that prunes revisits), then the chained tag's resolved
depth is added.  `uint32_t` arithmetic reduces mod `U32`.  Each recursive call
crosses an entry whose depth was just set from 0 to nonzero, so recursion
depth is bounded by the table size; `calculateMaxTagDepth` passes that fuel. -/
def calculateTagDepth :
    Nat → List (Oid × TagData) → Oid →
    Except Unit (List (Oid × TagData) × TagData)
  | 0, _, _ => .error ()
  | fuel + 1, tags, oidTag =>
    match lookupA tags oidTag with
    | none => .error ()
    | some td =>
      -- prune recursivity (kUnsetDepth = 0)
      if td.depth ≠ 0 then .ok (tags, td)
      else
        let td1 := { td with depth := (td.depth + 1) % U32 }
        let tags1 := updateA tags oidTag fun _ => td1
        if td.typeTarget = ObjType.tag then
          match calculateTagDepth fuel tags1 td.oidTarget with
          | .error e => .error e
          | .ok (tags2, chained) =>
            let td2 := { td1 with depth := (td1.depth + chained.depth) % U32 }
            .ok (updateA tags2 oidTag fun _ => td2, td2)
        else .ok (tags1, td1)

/-- `RepoAnalysis::calculateMaxTagDepth`: resolve every tag in the table,
taking the maximum depth; a failed resolution returns `GIT_EUSER`. -/
def calculateMaxTagDepthGo (tagsLen : Nat) :
    List Oid → List (Oid × TagData) → Nat →
    Except Unit (List (Oid × TagData) × Nat)
  | [], tags, mtd => .ok (tags, mtd)
  | k :: rest, tags, mtd =>
    match calculateTagDepth (tagsLen + 1) tags k with
    | .error e => .error e
    | .ok (tags', td) =>
      calculateMaxTagDepthGo tagsLen rest tags' (max mtd td.depth)

def calculateMaxTagDepth (tags : List (Oid × TagData)) :
    Except Unit (List (Oid × TagData) × Nat) :=
  calculateMaxTagDepthGo tags.length (tags.map Prod.fst) tags 0

/-- The worker phase of `RepoAnalysis::analyzeObjects`: every enumerated oid
becomes a work item executed by `WorkerStoreOdbData::Execute`.  When a
handler fails, `WorkerPool::DoWork` (work_pool.h lines 143-160) merely
returns from the worker's loop — nothing is recorded anywhere — while the
remaining workers keep draining the queue until `Shutdown`; so a failing
item contributes nothing to the accumulator and no error surfaces. -/
def workerPhase (odb : Odb) (oids : List Oid) : OdbObjectsInfo :=
  oids.foldl (fun st o => (WorkerStoreOdbData.Execute odb st o).getD st) {}

/-- `RepoAnalysis::analyzeObjects` after the pool drains: biggest checkouts,
max tag depth, then the commit-graph max depth.  The internal error checks are
correctly parenthesised in the source and return the real `GIT_EUSER`. -/
def analyzeObjects (odb : Odb) (oids : List Oid) :
    Except Int (OdbObjectsInfo × TreeStatistics × Nat × Nat) :=
  let st := workerPhase odb oids
  match calculateBiggestCheckouts st.blobsInfo st.treesInfo.length
      st.commitsInfo st.treesInfo {} with
  | .error _ => .error GIT_EUSER
  | .ok (trees', bc) =>
    match calculateMaxTagDepth st.tagsInfo with
    | .error _ => .error GIT_EUSER
    | .ok (tags', mtd) =>
      .ok ({ st with treesInfo := trees', tagsInfo := tags' }, bc, mtd,
           st.graph.CalculateMaxDepth)

/-- `RepoAnalysis::fillOutStatistics` plus the fields `analyzeObjects` and
`analyzeReferences` wrote into `m_statistics` along the way. -/
def fillOutStatistics (st : OdbObjectsInfo) (bc : TreeStatistics)
    (mtd md numRefs : Nat) : Statistics :=
  { commitsCount := st.commitsInfo.length,
    commitsSize := st.commitsTotalSize,
    treesCount := st.treesInfo.length,
    treesSize := st.treesTotalSize,
    treesEntries := st.treesTotalEntries,
    blobsCount := st.blobsInfo.length,
    blobsSize := st.blobsTotalSize,
    annotatedTagsCount := st.tagsInfo.length,
    referencesCount := numRefs,
    biggestCommitsMaxSize := st.commitsMaxSize,
    biggestCommitsMaxParents := st.commitsMaxParents,
    biggestTreesMaxEntries := st.treesMaxEntries,
    biggestBlobsMaxSize := st.blobsMaxSize,
    maxDepth := md,
    maxTagDepth := mtd,
    biggestCheckouts := bc }

/-- `RepoAnalysis::Analyze`.  The source line is
`if ((errorCode = analyzeObjects() != GIT_OK)) return errorCode;` — the
missing inner parentheses assign the *comparison result* (0 or 1) to
`errorCode`, so a failing `analyzeObjects` makes `Analyze` return 1, not the
error code the step produced.  (`analyzeReferences` only counts the reference
names, supplied here as `numRefs`.) -/
def Analyze (odb : Odb) (oids : List Oid) (numRefs : Nat) :
    Int × Option Statistics :=
  match analyzeObjects odb oids with
  | .error e =>
    -- errorCode = (analyzeObjects() != GIT_OK)
    (if e ≠ GIT_OK then (1 : Int) else 0, none)
  | .ok (st, bc, mtd, md) =>
    (GIT_OK, some (fillOutStatistics st bc mtd md numRefs))

end RepoAnalysis

/-- `GitRepository::statistics`: `StatisticsWorker::Execute` runs `Analyze`;
`HandleOKCallback` delivers the report exactly when the error code is
`GIT_OK`, otherwise the error code is surfaced. -/
def statisticsModel (odb : Odb) (oids : List Oid) (numRefs : Nat) :
    Except Int Statistics :=
  match RepoAnalysis.Analyze odb oids numRefs with
  | (e, some s) => if e = RepoAnalysis.GIT_OK then .ok s else .error e
  | (e, none) => .error e

/- ----------------------------------------------------------------
Association-list lemma kit
---------------------------------------------------------------- -/

theorem lookupA_append {α : Type} (m1 m2 : List (Oid × α)) (k : Oid) :
    lookupA (m1 ++ m2) k =
      match lookupA m1 k with
      | some v => some v
      | none => lookupA m2 k := by
  induction m1 with
  | nil => simp [lookupA]
  | cons e r ih =>
    obtain ⟨a, v⟩ := e
    by_cases h : k = a <;> simp [lookupA, h, ih]

theorem lookupA_singleton_self {α : Type} (k : Oid) (v : α) :
    lookupA [(k, v)] k = some v := by simp [lookupA]

theorem lookupA_insert_self {α : Type} (m : List (Oid × α)) (k : Oid) (v : α)
    (h : lookupA m k = none) : lookupA (m ++ [(k, v)]) k = some v := by
  rw [lookupA_append, h]; simp [lookupA]

theorem lookupA_insert_other {α : Type} (m : List (Oid × α)) (k o : Oid) (v : α)
    (h : o ≠ k) : lookupA (m ++ [(k, v)]) o = lookupA m o := by
  rw [lookupA_append]
  cases hm : lookupA m o <;> simp [lookupA, h]

theorem updateA_cons_self {α : Type} (a : Oid) (v : α) (r : List (Oid × α))
    (f : α → α) :
    updateA ((a, v) :: r) a f = (a, f v) :: updateA r a f := by
  simp [updateA]

theorem updateA_cons_other {α : Type} (a : Oid) (v : α) (r : List (Oid × α))
    (k : Oid) (f : α → α) (h : a ≠ k) :
    updateA ((a, v) :: r) k f = (a, v) :: updateA r k f := by
  simp [updateA, h]

theorem lookupA_updateA {α : Type} (m : List (Oid × α)) (k o : Oid) (f : α → α) :
    lookupA (updateA m k f) o =
      if o = k then (lookupA m k).map f else lookupA m o := by
  induction m with
  | nil => by_cases h : o = k <;> simp [lookupA, updateA, h]
  | cons e r ih =>
    obtain ⟨a, v⟩ := e
    by_cases hak : a = k
    · subst hak
      rw [updateA_cons_self]
      by_cases hoa : o = a <;> simp [lookupA, hoa, ih]
    · rw [updateA_cons_other a v r k f hak]
      have hka : ¬k = a := fun h => hak h.symm
      by_cases hoa : o = a
      · subst hoa; simp [lookupA, hak, hka]
      · simp [lookupA, hoa, hka, ih]

theorem updateA_map_fst {α : Type} (m : List (Oid × α)) (k : Oid) (f : α → α) :
    (updateA m k f).map Prod.fst = m.map Prod.fst := by
  induction m with
  | nil => rfl
  | cons e r ih =>
    by_cases h : e.1 = k <;> simp [updateA, h] at ih ⊢ <;> exact ih

theorem mem_keys_iff_lookupA_isSome {α : Type} (m : List (Oid × α)) (k : Oid) :
    k ∈ m.map Prod.fst ↔ (lookupA m k).isSome := by
  induction m with
  | nil => simp [lookupA]
  | cons e r ih =>
    obtain ⟨a, v⟩ := e
    by_cases h : k = a <;> simp [lookupA, h, ih]

theorem lookupA_eq_none_of_not_mem {α : Type} (m : List (Oid × α)) (k : Oid)
    (h : k ∉ m.map Prod.fst) : lookupA m k = none := by
  rw [mem_keys_iff_lookupA_isSome] at h
  cases hm : lookupA m k
  · rfl
  · rw [hm] at h; simp at h

theorem emplaceA_insert_lookup {α : Type} (m : List (Oid × α)) (k : Oid) (v : α)
    (h : lookupA m k = none) :
    emplaceA m k v = (m ++ [(k, v)], true) ∧
      lookupA (m ++ [(k, v)]) k = some v := by
  refine ⟨?_, lookupA_insert_self m k v h⟩
  simp [emplaceA, h]

theorem emplaceA_found {α : Type} (m : List (Oid × α)) (k : Oid) (v w : α)
    (h : lookupA m k = some w) : emplaceA m k v = (m, false) := by
  simp [emplaceA, h]

/- ----------------------------------------------------------------
Claim C1 — a failed lookup of a pending work item is NOT fatal.
---------------------------------------------------------------- -/

/-- A repository whose object database holds one well-formed commit (oid 0,
root tree 100 containing blob 200) and whose enumeration also yields oid 5,
for which `git_object_lookup` fails. -/
def lookupFailOdb : Odb := fun o =>
  if o = 0 then some (ObjData.commit 7 100 [])
  else if o = 100 then some (ObjData.tree 4 [⟨1, Filemode.blobMode, ObjType.blob, 200⟩])
  else if o = 200 then some (ObjData.blob 3)
  else none

/-- C1: the claim says a failed lookup on a pending work item is fatal for the
run, the failure being recorded in a shared result channel that `statistics()`
returns.  In the code, `WorkerPool::DoWork` merely `return`s when
`worker->Execute` fails (the comment says "signal main that we've exited
early" but nothing is signalled), so the run completes: looking up oid 5
fails, yet `statisticsModel` succeeds with a report that silently omits that
object (one commit counted, no error). -/
theorem c1_lookup_failure_not_fatal :
    lookupFailOdb 5 = none ∧
    statisticsModel lookupFailOdb [0, 100, 200, 5] 0 =
      .ok { commitsCount := 1, commitsSize := 7, treesCount := 1, treesSize := 4,
            treesEntries := 1, blobsCount := 1, blobsSize := 3,
            annotatedTagsCount := 0, referencesCount := 0,
            biggestCommitsMaxSize := 7, biggestCommitsMaxParents := 0,
            biggestTreesMaxEntries := 1, biggestBlobsMaxSize := 3,
            maxDepth := 1, maxTagDepth := 0,
            biggestCheckouts := { numDirectories := 1, maxPathDepth := 1,
                                  maxPathLength := 1, numFiles := 1,
                                  totalFileSize := 3, numSymlinks := 0,
                                  numSubmodules := 0 } } := by
  constructor <;> rfl

/- ----------------------------------------------------------------
Claim C2 — a single commit whose root is the canonical empty tree.
---------------------------------------------------------------- -/

/-- A repository with exactly one commit (oid 0) whose root tree is the
canonical empty tree (oid 100, zero entries). -/
def emptyTreeRepoOdb : Odb := fun o =>
  if o = 0 then some (ObjData.commit 7 100 [])
  else if o = 100 then some (ObjData.tree 4 [])
  else none

/-- C2: the claim says `statistics()` succeeds with `commits.count = 1`,
`trees.count = 0` and all-zero `biggestCheckouts`.  In the code the empty tree
is discarded by `WorkerStoreOdbData::Execute` (never inserted into the trees
table), so `calculateBiggestCheckouts` cannot find the commit's root tree and
returns `GIT_EUSER`: the analysis fails and no report is produced (the error
surfaces as 1 because of the `Analyze` parenthesisation slip). -/
theorem c2_empty_tree_commit_fails :
    RepoAnalysis.analyzeObjects emptyTreeRepoOdb [0, 100] =
      .error RepoAnalysis.GIT_EUSER ∧
    statisticsModel emptyTreeRepoOdb [0, 100] 1 = .error 1 := by
  constructor <;> rfl

/- ----------------------------------------------------------------
Claim C8 — the first observed error is not the value statistics() returns.
---------------------------------------------------------------- -/

/-- A repository with one commit whose root tree oid is absent from the object
database (a dangling root), so aggregation references a missing OID. -/
def danglingRootOdb : Odb := fun o =>
  if o = 0 then some (ObjData.commit 7 100 []) else none

/-- C8: the claim says `statistics()` returns *the same error value* the
failing step produced.  `calculateBiggestCheckouts` fails with
`GIT_EUSER = -7`, but `RepoAnalysis::Analyze` assigns
`errorCode = (analyzeObjects() != GIT_OK)` — the comparison result, 1 — and
returns that, so `statistics()` surfaces 1 instead of -7. -/
theorem c8_error_value_not_propagated :
    RepoAnalysis.analyzeObjects danglingRootOdb [0] =
      .error RepoAnalysis.GIT_EUSER ∧
    statisticsModel danglingRootOdb [0] 0 = .error 1 ∧
    RepoAnalysis.GIT_EUSER ≠ (1 : Int) := by
  refine ⟨rfl, rfl, by decide⟩

/- ----------------------------------------------------------------
Claim C10 — objects of other variants leave the state unchanged.
---------------------------------------------------------------- -/

/-- C10: the `default:` branch of `WorkerStoreOdbData::Execute` returns
success and touches neither the tables, the scalars, nor the commit graph. -/
theorem c10_other_object_noop (odb : Odb) (st : OdbObjectsInfo) (oid : Oid)
    (h : odb oid = some ObjData.other) :
    WorkerStoreOdbData.Execute odb st oid = some st := by
  unfold WorkerStoreOdbData.Execute
  rw [h]

/-- Witness for C10 at a concrete input. -/
theorem c10_other_object_noop_witness :
    ((fun _ => some ObjData.other : Odb) 7 = some ObjData.other) ∧
    WorkerStoreOdbData.Execute (fun _ => some ObjData.other) {} 7 = some {} :=
  ⟨rfl, c10_other_object_noop (fun _ => some ObjData.other) {} 7 rfl⟩

theorem emplaceA_eq_true {α : Type} {m m' : List (Oid × α)} {k : Oid} {v : α}
    (h : emplaceA m k v = (m', true)) :
    lookupA m k = none ∧ m' = m ++ [(k, v)] := by
  unfold emplaceA at h
  split at h <;> simp_all

theorem emplaceA_eq_false {α : Type} {m m' : List (Oid × α)} {k : Oid} {v : α}
    (h : emplaceA m k v = (m', false)) :
    m' = m ∧ (lookupA m k).isSome := by
  unfold emplaceA at h
  split at h <;> simp_all

/- ----------------------------------------------------------------
Claim C6 — re-executing the work handler for an oid is a no-op.
---------------------------------------------------------------- -/

/-- C6: executing `WorkerStoreOdbData::Execute` again for an oid it has
already processed changes nothing: every category inserts with `emplace`,
whose failure (key already present) skips the record and all scalar and
graph updates, so the resulting state is exactly the state before. -/
theorem lookupA_emplaceA_isSome {α : Type} (m : List (Oid × α)) (k : Oid)
    (v : α) : (lookupA (emplaceA m k v).1 k).isSome := by
  unfold emplaceA
  cases hl : lookupA m k with
  | none => simp [lookupA_insert_self m k v hl]
  | some w => simp [hl]

theorem c6_execute_idempotent (odb : Odb) (st st' : OdbObjectsInfo) (oid : Oid)
    (h : WorkerStoreOdbData.Execute odb st oid = some st') :
    WorkerStoreOdbData.Execute odb st' oid = some st' := by
  unfold WorkerStoreOdbData.Execute at h ⊢
  split at h
  · simp at h
  · -- commit
    rename_i size treeOid parents heqObj
    split at h
    · rename_i m' heq
      obtain ⟨hl, hm⟩ := emplaceA_eq_true heq
      simp only [Option.some.injEq] at h
      have hc : lookupA st'.commitsInfo oid = some treeOid := by
        rw [← h]
        show lookupA m' oid = some treeOid
        rw [hm]
        exact lookupA_insert_self _ _ _ hl
      rw [emplaceA_found _ _ _ _ hc]
    · rename_i fst heq
      simp only [Option.some.injEq] at h
      subst h
      rw [heq]
  · -- tree
    split at h
    · -- empty tree: discarded both times
      rename_i hz
      simp only [Option.some.injEq] at h
      subst h
      rw [if_pos hz]
    · rename_i size entries heqObj hz
      split at h
      · rename_i m' heq
        obtain ⟨hl, hm⟩ := emplaceA_eq_true heq
        simp only [Option.some.injEq] at h
        have hc : lookupA st'.treesInfo oid
            = some (WorkerStoreOdbData.thisTreeDataAndStats entries) := by
          rw [← h]
          show lookupA m' oid = some (WorkerStoreOdbData.thisTreeDataAndStats entries)
          rw [hm]
          exact lookupA_insert_self _ _ _ hl
        rw [if_neg hz, emplaceA_found _ _ _ _ hc]
      · rename_i fst heq
        simp only [Option.some.injEq] at h
        subst h
        rw [if_neg hz, heq]
  · -- blob
    rename_i size heqObj
    split at h
    · rename_i m' heq
      obtain ⟨hl, hm⟩ := emplaceA_eq_true heq
      simp only [Option.some.injEq] at h
      have hc : lookupA st'.blobsInfo oid = some size := by
        rw [← h]
        show lookupA m' oid = some size
        rw [hm]
        exact lookupA_insert_self _ _ _ hl
      rw [emplaceA_found _ _ _ _ hc]
    · rename_i fst heq
      simp only [Option.some.injEq] at h
      subst h
      rw [heq]
  · -- tag
    simp only [Option.some.injEq] at h
    have hs : (lookupA st'.tagsInfo oid).isSome := by
      rw [← h]
      exact lookupA_emplaceA_isSome _ _ _
    obtain ⟨w, hw⟩ := Option.isSome_iff_exists.mp hs
    rw [emplaceA_found _ _ _ _ hw]
  · -- other
    simp only [Option.some.injEq] at h
    subst h
    rfl

/-- Witness for C6: executing the handler for the commit of `lookupFailOdb`
twice from the empty accumulator. -/
theorem c6_execute_idempotent_witness :
    WorkerStoreOdbData.Execute lookupFailOdb
      ((WorkerStoreOdbData.Execute lookupFailOdb {} 0).getD {}) 0 =
      some ((WorkerStoreOdbData.Execute lookupFailOdb {} 0).getD {}) :=
  c6_execute_idempotent lookupFailOdb {} _ 0 rfl

/- ----------------------------------------------------------------
Claim C4 — the roll-up computes the spec's accumulation equations.
---------------------------------------------------------------- -/

/-- Entry-blob list of a tree in a trees table (empty when absent). -/
def eB (t0 : List (Oid × TreeDataAndStats)) (o : Oid) : List Oid :=
  ((lookupA t0 o).map TreeDataAndStats.entryBlobs).getD []

/-- Sub-tree (oid, name-length) list of a tree in a trees table. -/
def eT (t0 : List (Oid × TreeDataAndStats)) (o : Oid) : List (Oid × Nat) :=
  ((lookupA t0 o).map TreeDataAndStats.entryTreesNameLen).getD []

/-- Thread-phase partial statistics of a tree in a trees table. -/
def pS (t0 : List (Oid × TreeDataAndStats)) (o : Oid) : TreeStatistics :=
  ((lookupA t0 o).map TreeDataAndStats.stats).getD {}

/-- One child accumulation step, written exactly as the spec states it:
directories summed, `maxPathDepth = max(self, child+1)`,
`maxPathLength = max(self, nameLen + 1 + child.maxPathLength)`, files, sizes,
symlinks and submodules summed. -/
def specAccum (acc : TreeStatistics) (nl : Nat) (ch : TreeStatistics) :
    TreeStatistics :=
  { numDirectories := acc.numDirectories + ch.numDirectories,
    maxPathDepth := max acc.maxPathDepth (ch.maxPathDepth + 1),
    maxPathLength := max acc.maxPathLength (nl + 1 + ch.maxPathLength),
    numFiles := acc.numFiles + ch.numFiles,
    totalFileSize := acc.totalFileSize + ch.totalFileSize,
    numSymlinks := acc.numSymlinks + ch.numSymlinks,
    numSubmodules := acc.numSubmodules + ch.numSubmodules }

/-- The roll-up as the spec's words describe it (§4.5): start from
`numDirectories = 1`, `maxPathDepth = 1` and the thread-phase fields, add the
blob sizes from the blobs table, then accumulate every sub-tree child with
`specAccum`.  This is the spec-side definition the code is compared with; the
fuel only serves the recursion and is irrelevant above the tree's rank. -/
def specRollUp (blobs : List (Oid × Nat)) (t0 : List (Oid × TreeDataAndStats)) :
    Nat → Oid → TreeStatistics
  | 0, o => pS t0 o
  | fuel + 1, o =>
    let base : TreeStatistics :=
      { numDirectories := 1, maxPathDepth := 1,
        maxPathLength := (pS t0 o).maxPathLength,
        numFiles := (pS t0 o).numFiles,
        totalFileSize := ((eB t0 o).map (fun b => (lookupA blobs b).getD 0)).sum,
        numSymlinks := (pS t0 o).numSymlinks,
        numSubmodules := (pS t0 o).numSubmodules }
    (eT t0 o).foldl
      (fun acc cn => specAccum acc cn.2 (specRollUp blobs t0 fuel cn.1)) base

/-- Well-formedness of a freshly drained trees table relative to a blobs table
and a rank function witnessing acyclicity: every entry is unrolled with the
thread-phase zero fields, its blobs are present, and its sub-tree children are
present with smaller rank. -/
def TreesWF (blobs : List (Oid × Nat)) (t0 : List (Oid × TreeDataAndStats))
    (rank : Oid → Nat) : Prop :=
  ∀ e ∈ t0,
    e.2.statsDone = false ∧
    e.2.stats.numDirectories = 0 ∧ e.2.stats.maxPathDepth = 0 ∧
    e.2.stats.totalFileSize = 0 ∧
    (∀ b ∈ e.2.entryBlobs, (lookupA blobs b).isSome = true) ∧
    (∀ cn ∈ e.2.entryTreesNameLen,
      (lookupA t0 cn.1).isSome = true ∧ rank cn.1 < rank e.1)

/-- Invariant of the trees table while the roll-up mutates it: the key
skeleton is unchanged and every entry either still carries its initial
thread-phase data or has been rolled up to its `specRollUp` value. -/
def RollState (blobs : List (Oid × Nat))
    (t0 t : List (Oid × TreeDataAndStats)) (rank : Oid → Nat) : Prop :=
  t.map Prod.fst = t0.map Prod.fst ∧
  ∀ o d, lookupA t o = some d → ∃ d0, lookupA t0 o = some d0 ∧
    d.entryBlobs = d0.entryBlobs ∧
    d.entryTreesNameLen = d0.entryTreesNameLen ∧
    ((d.statsDone = false ∧ d.stats = d0.stats) ∨
     (d.statsDone = true ∧ d.stats = specRollUp blobs t0 (rank o + 1) o))

theorem lookupA_mem {α : Type} {t : List (Oid × α)} {o : Oid} {d : α}
    (h : lookupA t o = some d) : (o, d) ∈ t := by
  induction t with
  | nil => simp [lookupA] at h
  | cons e r ih =>
    obtain ⟨a, v⟩ := e
    by_cases hoa : o = a
    · subst hoa
      simp [lookupA] at h
      subst h
      exact List.mem_cons_self _ _
    · simp [lookupA, hoa] at h
      exact List.mem_cons_of_mem _ (ih h)

theorem sumBlobSizes_eq (blobs : List (Oid × Nat)) (bl : List Oid)
    (h : ∀ b ∈ bl, (lookupA blobs b).isSome = true) :
    RepoAnalysis.sumBlobSizes blobs bl =
      some ((bl.map (fun b => (lookupA blobs b).getD 0)).sum) := by
  induction bl with
  | nil => simp [RepoAnalysis.sumBlobSizes]
  | cons b r ih =>
    have hb := h b (List.mem_cons_self _ _)
    obtain ⟨sz, hsz⟩ := Option.isSome_iff_exists.mp hb
    have ihr := ih (fun x hx => h x (List.mem_cons_of_mem _ hx))
    simp [RepoAnalysis.sumBlobSizes, hsz, ihr]

theorem rollSubtrees_char
    (f : List (Oid × TreeDataAndStats) → Oid →
      Except Unit (List (Oid × TreeDataAndStats) × TreeDataAndStats))
    (P : List (Oid × TreeDataAndStats) → Prop)
    (spec : Oid → TreeStatistics) :
    ∀ (l : List (Oid × Nat)) (t : List (Oid × TreeDataAndStats))
      (acc : TreeStatistics),
      P t →
      (∀ cn ∈ l, ∀ t1, P t1 → ∃ t' d', f t1 cn.1 = .ok (t', d') ∧ P t' ∧
        d'.stats = spec cn.1) →
      ∃ t', RepoAnalysis.rollSubtrees f l t acc =
          .ok (t', l.foldl (fun a cn => specAccum a cn.2 (spec cn.1)) acc) ∧
        P t' := by
  intro l
  induction l with
  | nil =>
    intro t acc hP _
    exact ⟨t, rfl, hP⟩
  | cons cn rest ih =>
    intro t acc hP hf
    obtain ⟨c, nl⟩ := cn
    obtain ⟨t1, d1, hok, hP1, hspec⟩ := hf (c, nl) (List.mem_cons_self _ _) t hP
    obtain ⟨t2, hok2, hP2⟩ :=
      ih t1 (specAccum acc nl (spec c)) hP1
        (fun x hx => hf x (List.mem_cons_of_mem _ hx))
    refine ⟨t2, ?_, hP2⟩
    simp only [RepoAnalysis.rollSubtrees, hok, List.foldl_cons]
    rw [show ({ numDirectories := acc.numDirectories + d1.stats.numDirectories,
                maxPathDepth := max acc.maxPathDepth (d1.stats.maxPathDepth + 1),
                maxPathLength := max acc.maxPathLength (nl + 1 + d1.stats.maxPathLength),
                numFiles := acc.numFiles + d1.stats.numFiles,
                totalFileSize := acc.totalFileSize + d1.stats.totalFileSize,
                numSymlinks := acc.numSymlinks + d1.stats.numSymlinks,
                numSubmodules := acc.numSubmodules + d1.stats.numSubmodules }
              : TreeStatistics)
            = specAccum acc nl (spec c) from by rw [← hspec]; rfl]
    exact hok2

theorem specRollUp_stable (blobs : List (Oid × Nat))
    (t0 : List (Oid × TreeDataAndStats)) (rank : Oid → Nat)
    (hwf : TreesWF blobs t0 rank) :
    ∀ fuel o, rank o < fuel →
      specRollUp blobs t0 fuel o = specRollUp blobs t0 (rank o + 1) o := by
  intro fuel
  induction fuel using Nat.strong_induction_on with
  | _ fuel ih =>
    intro o hro
    match fuel, hro with
    | f + 1, hro =>
      simp only [specRollUp]
      apply List.foldl_ext
      intro acc cn hcn
      have hrcn : rank cn.1 < rank o := by
        unfold eT at hcn
        cases hd0 : lookupA t0 o with
        | none => rw [hd0] at hcn; simp at hcn
        | some d0 =>
          rw [hd0] at hcn
          simp at hcn
          exact ((hwf (o, d0) (lookupA_mem hd0)).2.2.2.2.2 cn hcn).2
      have h1 : specRollUp blobs t0 f cn.1 = specRollUp blobs t0 (rank cn.1 + 1) cn.1 :=
        ih f (Nat.lt_succ_self f) cn.1 (by omega)
      have h2 : specRollUp blobs t0 (rank o) cn.1
          = specRollUp blobs t0 (rank cn.1 + 1) cn.1 :=
        ih (rank o) hro cn.1 hrcn
      rw [h1, h2]

theorem calculateTreeStatistics_char (blobs : List (Oid × Nat))
    (t0 : List (Oid × TreeDataAndStats)) (rank : Oid → Nat)
    (hwf : TreesWF blobs t0 rank) :
    ∀ fuel t o, RollState blobs t0 t rank → (lookupA t0 o).isSome = true →
      rank o < fuel →
      ∃ t' d', RepoAnalysis.calculateTreeStatistics blobs fuel t o = .ok (t', d') ∧
        RollState blobs t0 t' rank ∧ lookupA t' o = some d' ∧
        d'.statsDone = true ∧
        d'.stats = specRollUp blobs t0 (rank o + 1) o := by
  intro fuel
  induction fuel with
  | zero => intro t o _ _ h; omega
  | succ f ih =>
    intro t o hst hm hro
    obtain ⟨d0, hd0⟩ := Option.isSome_iff_exists.mp hm
    have hmemt0 : o ∈ t0.map Prod.fst :=
      (mem_keys_iff_lookupA_isSome t0 o).mpr (by simp [hd0])
    have hmemt : o ∈ t.map Prod.fst := by rw [hst.1]; exact hmemt0
    obtain ⟨d, hd⟩ := Option.isSome_iff_exists.mp
      ((mem_keys_iff_lookupA_isSome t o).mp hmemt)
    obtain ⟨d0', hd0', hEB, hET, hcases⟩ := hst.2 o d hd
    rw [hd0] at hd0'
    injection hd0' with hd0'eq
    subst hd0'eq
    rcases hcases with ⟨hdone, hstats⟩ | ⟨hdone, hstats⟩
    · -- unrolled entry: the recursion does the work
      obtain ⟨hsd0, hdir0, hdep0, hsz0, hblobs, htrees⟩ := hwf (o, d0) (lookupA_mem hd0)
      have htrees' : ∀ cn ∈ d0.entryTreesNameLen,
          (lookupA t0 cn.1).isSome = true ∧ rank cn.1 < rank o := htrees
      have hsum : RepoAnalysis.sumBlobSizes blobs d.entryBlobs
          = some ((d0.entryBlobs.map (fun b => (lookupA blobs b).getD 0)).sum) := by
        rw [hEB]; exact sumBlobSizes_eq blobs d0.entryBlobs hblobs
      have hfEach : ∀ cn ∈ d.entryTreesNameLen, ∀ t1,
          RollState blobs t0 t1 rank →
          ∃ t' d', RepoAnalysis.calculateTreeStatistics blobs f t1 cn.1 = .ok (t', d') ∧
            RollState blobs t0 t' rank ∧
            d'.stats = specRollUp blobs t0 (rank cn.1 + 1) cn.1 := by
        intro cn hcn t1 h1
        rw [hET] at hcn
        obtain ⟨hpres, hrk⟩ := htrees' cn hcn
        obtain ⟨t', d', hok, hP, _, _, hsp⟩ := ih t1 cn.1 h1 hpres (by omega)
        exact ⟨t', d', hok, hP, hsp⟩
      obtain ⟨t2, hok2, hP2⟩ :=
        rollSubtrees_char (RepoAnalysis.calculateTreeStatistics blobs f)
          (fun t1 => RollState blobs t0 t1 rank)
          (fun c => specRollUp blobs t0 (rank c + 1) c)
          d.entryTreesNameLen t
          { d.stats with
            numDirectories := d.stats.numDirectories + 1,
            maxPathDepth := d.stats.maxPathDepth + 1,
            totalFileSize := d.stats.totalFileSize
              + (d0.entryBlobs.map (fun b => (lookupA blobs b).getD 0)).sum }
          hst hfEach
      -- the rolled-up statistics equal the spec value
      have hkey : d.entryTreesNameLen.foldl
            (fun a cn => specAccum a cn.2 (specRollUp blobs t0 (rank cn.1 + 1) cn.1))
            { d.stats with
              numDirectories := d.stats.numDirectories + 1,
              maxPathDepth := d.stats.maxPathDepth + 1,
              totalFileSize := d.stats.totalFileSize
                + (d0.entryBlobs.map (fun b => (lookupA blobs b).getD 0)).sum }
          = specRollUp blobs t0 (rank o + 1) o := by
        conv_rhs => rw [specRollUp]
        have heT : eT t0 o = d.entryTreesNameLen := by
          rw [hET]; simp [eT, hd0]
        have hpS : pS t0 o = d0.stats := by simp [pS, hd0]
        have heB : eB t0 o = d0.entryBlobs := by simp [eB, hd0]
        rw [heT, hpS, heB]
        have hinit : ({ d.stats with
              numDirectories := d.stats.numDirectories + 1,
              maxPathDepth := d.stats.maxPathDepth + 1,
              totalFileSize := d.stats.totalFileSize
                + (d0.entryBlobs.map (fun b => (lookupA blobs b).getD 0)).sum }
            : TreeStatistics)
            = { numDirectories := 1, maxPathDepth := 1,
                maxPathLength := d0.stats.maxPathLength,
                numFiles := d0.stats.numFiles,
                totalFileSize := (d0.entryBlobs.map (fun b => (lookupA blobs b).getD 0)).sum,
                numSymlinks := d0.stats.numSymlinks,
                numSubmodules := d0.stats.numSubmodules } := by
          rw [hstats, hdir0, hdep0, hsz0]
          simp
        rw [hinit]
        apply List.foldl_ext
        intro acc cn hcn
        rw [hET] at hcn
        have hrk := (htrees' cn hcn).2
        rw [specRollUp_stable blobs t0 rank hwf (rank o) cn.1 hrk]
      refine ⟨updateA t2 o (fun _ =>
          { d with
            stats := d.entryTreesNameLen.foldl
              (fun a cn => specAccum a cn.2
                (specRollUp blobs t0 (rank cn.1 + 1) cn.1))
              { d.stats with
                numDirectories := d.stats.numDirectories + 1,
                maxPathDepth := d.stats.maxPathDepth + 1,
                totalFileSize := d.stats.totalFileSize
                  + (d0.entryBlobs.map (fun b => (lookupA blobs b).getD 0)).sum },
            statsDone := true }),
        { d with
            stats := d.entryTreesNameLen.foldl
              (fun a cn => specAccum a cn.2
                (specRollUp blobs t0 (rank cn.1 + 1) cn.1))
              { d.stats with
                numDirectories := d.stats.numDirectories + 1,
                maxPathDepth := d.stats.maxPathDepth + 1,
                totalFileSize := d.stats.totalFileSize
                  + (d0.entryBlobs.map (fun b => (lookupA blobs b).getD 0)).sum },
            statsDone := true }, ?_, ?_, ?_, rfl, hkey⟩
      · -- the computation takes exactly this path
        simp only [RepoAnalysis.calculateTreeStatistics, hd, hdone, hsum, hok2]
        rfl
      · -- RollState is preserved by the final write-back
        constructor
        · rw [updateA_map_fst]; exact hP2.1
        · intro o' d' hd'
          rw [lookupA_updateA] at hd'
          by_cases ho' : o' = o
          · subst ho'
            have : o' ∈ t2.map Prod.fst := by rw [hP2.1]; exact hmemt0
            obtain ⟨dt2, hdt2⟩ := Option.isSome_iff_exists.mp
              ((mem_keys_iff_lookupA_isSome t2 o').mp this)
            rw [if_pos rfl, hdt2] at hd'
            simp only [Option.map_some', Option.some.injEq] at hd'
            subst hd'
            exact ⟨d0, hd0, hEB, hET, Or.inr ⟨rfl, hkey⟩⟩
          · rw [if_neg ho'] at hd'
            exact hP2.2 o' d' hd'
      · -- the returned iterator points at the rolled-up entry
        rw [lookupA_updateA]
        have : o ∈ t2.map Prod.fst := by rw [hP2.1]; exact hmemt0
        obtain ⟨dt2, hdt2⟩ := Option.isSome_iff_exists.mp
          ((mem_keys_iff_lookupA_isSome t2 o).mp this)
        rw [if_pos rfl, hdt2]
        rfl
    · -- already rolled: the memo returns the cached value
      refine ⟨t, d, ?_, hst, hd, hdone, hstats⟩
      simp only [RepoAnalysis.calculateTreeStatistics, hd, hdone, if_true]

/-- C4: for every tree present in a well-formed drained trees table, the
roll-up `RepoAnalysis::calculateTreeStatistics` succeeds and produces exactly
the statistics defined by the spec's accumulation equations (`specRollUp`):
directories summed, `maxPathDepth = max(self, child+1)`,
`maxPathLength = max(self, nameLen+1+child.maxPathLength)`, files, sizes,
symlinks, submodules summed, blob sizes taken from the blobs table. -/
theorem c4_rollup_satisfies_spec_equations (blobs : List (Oid × Nat))
    (t0 : List (Oid × TreeDataAndStats)) (rank : Oid → Nat)
    (hwf : TreesWF blobs t0 rank) (o : Oid) (hm : (lookupA t0 o).isSome = true)
    (fuel : Nat) (hf : rank o < fuel) :
    ∃ t' d', RepoAnalysis.calculateTreeStatistics blobs fuel t0 o = .ok (t', d') ∧
      d'.statsDone = true ∧ d'.stats = specRollUp blobs t0 (rank o + 1) o := by
  have h0 : RollState blobs t0 t0 rank := by
    refine ⟨rfl, ?_⟩
    intro o' d' hd'
    obtain ⟨hsd, _, _, _, _, _⟩ := hwf (o', d') (lookupA_mem hd')
    exact ⟨d', hd', rfl, rfl, Or.inl ⟨hsd, rfl⟩⟩
  obtain ⟨t', d', hok, _, _, hdone, hspec⟩ :=
    calculateTreeStatistics_char blobs t0 rank hwf fuel t0 o h0 hm hf
  exact ⟨t', d', hok, hdone, hspec⟩

/-- The spec's scenario-6 trees table: root tree 100 with entries
file.txt:blob(200=100 bytes), link:blob-as-symlink, sub:commit-as-submodule,
dir:tree(101); tree 101 with entry file:blob(203=50 bytes). -/
def scen6Trees : List (Oid × TreeDataAndStats) :=
  [(100, WorkerStoreOdbData.thisTreeDataAndStats
      [⟨8, Filemode.blobMode, ObjType.blob, 200⟩,
       ⟨4, Filemode.link, ObjType.blob, 201⟩,
       ⟨3, Filemode.commitMode, ObjType.commit, 202⟩,
       ⟨3, Filemode.treeMode, ObjType.tree, 101⟩]),
   (101, WorkerStoreOdbData.thisTreeDataAndStats
      [⟨4, Filemode.blobMode, ObjType.blob, 203⟩])]

def scen6Blobs : List (Oid × Nat) := [(200, 100), (203, 50)]

/-- Witness for C4 at the spec's scenario 6: the roll-up of tree 100 yields
`{numDirectories := 2, maxPathDepth := 2, maxPathLength := 8, numFiles := 2,
totalFileSize := 150, numSymlinks := 1, numSubmodules := 1}`. -/
theorem c4_rollup_satisfies_spec_equations_witness :
    TreesWF scen6Blobs scen6Trees (fun o => if o = 100 then 1 else 0) ∧
    ∃ t' d',
      RepoAnalysis.calculateTreeStatistics scen6Blobs 2 scen6Trees 100 =
        .ok (t', d') ∧
      d'.statsDone = true ∧
      d'.stats = { numDirectories := 2, maxPathDepth := 2, maxPathLength := 8,
                   numFiles := 2, totalFileSize := 150, numSymlinks := 1,
                   numSubmodules := 1 } := by
  have hwf : TreesWF scen6Blobs scen6Trees (fun o => if o = 100 then 1 else 0) := by
    unfold TreesWF
    decide
  refine ⟨hwf, ?_⟩
  obtain ⟨t', d', hok, hdone, hspec⟩ :=
    c4_rollup_satisfies_spec_equations scen6Blobs scen6Trees
      (fun o => if o = 100 then 1 else 0) hwf 100 (by decide) 2 (by decide)
  refine ⟨t', d', hok, hdone, ?_⟩
  rw [hspec]
  decide

/- ----------------------------------------------------------------
Claim C9 — roll-up purity/idempotence (plus whole-run determinism below).
---------------------------------------------------------------- -/

theorem rollSubtrees_keys
    (f : List (Oid × TreeDataAndStats) → Oid →
      Except Unit (List (Oid × TreeDataAndStats) × TreeDataAndStats))
    (hf : ∀ t c t' d', f t c = .ok (t', d') →
      t'.map Prod.fst = t.map Prod.fst) :
    ∀ (l : List (Oid × Nat)) t acc t' s',
      RepoAnalysis.rollSubtrees f l t acc = .ok (t', s') →
      t'.map Prod.fst = t.map Prod.fst := by
  intro l
  induction l with
  | nil =>
    intro t acc t' s' h
    simp only [RepoAnalysis.rollSubtrees] at h
    injection h with h
    injection h with h1 _
    rw [← h1]
  | cons cn rest ih =>
    intro t acc t' s' h
    obtain ⟨c, nl⟩ := cn
    simp only [RepoAnalysis.rollSubtrees] at h
    split at h
    · exact absurd h (by simp)
    · rename_i t1 d1 heq
      rw [ih t1 _ t' s' h, hf t c t1 d1 heq]

theorem calculateTreeStatistics_keys (blobs : List (Oid × Nat)) :
    ∀ fuel t o t' d',
      RepoAnalysis.calculateTreeStatistics blobs fuel t o = .ok (t', d') →
      t'.map Prod.fst = t.map Prod.fst := by
  intro fuel
  induction fuel with
  | zero => intro t o t' d' h; exact absurd h (by simp [RepoAnalysis.calculateTreeStatistics])
  | succ f ih =>
    intro t o t' d' h
    unfold RepoAnalysis.calculateTreeStatistics at h
    split at h
    · exact absurd h (by simp)
    · rename_i d hd
      split at h
      · injection h with h
        injection h with h1 _
        rw [← h1]
      · split at h
        · exact absurd h (by simp)
        · rename_i bs hbs
          dsimp only at h
          split at h
          · exact absurd h (by simp)
          · rename_i t2 s2 h2
            injection h with h
            injection h with h1 _
            rw [← h1, updateA_map_fst]
            exact rollSubtrees_keys _ (fun a b c d h => ih a b c d h)
              d.entryTreesNameLen t _ t2 s2 h2

/-- After a successful roll-up the returned entry is the one stored for the
oid and it is marked done. -/
theorem calculateTreeStatistics_post (blobs : List (Oid × Nat)) :
    ∀ fuel t o t' d',
      RepoAnalysis.calculateTreeStatistics blobs fuel t o = .ok (t', d') →
      lookupA t' o = some d' ∧ d'.statsDone = true := by
  intro fuel t o t' d' h
  match fuel with
  | 0 => exact absurd h (by simp [RepoAnalysis.calculateTreeStatistics])
  | f + 1 =>
    unfold RepoAnalysis.calculateTreeStatistics at h
    split at h
    · exact absurd h (by simp)
    · rename_i d hd
      split at h
      · rename_i hdone
        injection h with h
        injection h with h1 h2
        subst h1; subst h2
        exact ⟨hd, hdone⟩
      · split at h
        · exact absurd h (by simp)
        · rename_i bs hbs
          dsimp only at h
          split at h
          · exact absurd h (by simp)
          · rename_i t2 s2 h2
            injection h with h
            injection h with h1 h2'
            subst h1; subst h2'
            have hk : t2.map Prod.fst = t.map Prod.fst :=
              rollSubtrees_keys _
                (fun a b c d h => calculateTreeStatistics_keys blobs f a b c d h)
                d.entryTreesNameLen t _ t2 s2 h2
            have hmem : o ∈ t2.map Prod.fst := by
              rw [hk]
              exact (mem_keys_iff_lookupA_isSome t o).mpr (by simp [hd])
            obtain ⟨dt2, hdt2⟩ := Option.isSome_iff_exists.mp
              ((mem_keys_iff_lookupA_isSome t2 o).mp hmem)
            refine ⟨?_, rfl⟩
            rw [lookupA_updateA, if_pos rfl, hdt2]
            rfl

/-- Roll-up memoization: a second roll-up of an already rolled-up tree
returns the same table and entry and mutates nothing. -/
theorem calculateTreeStatistics_idempotent (blobs : List (Oid × Nat))
    (fuel fuel' : Nat) (t t' : List (Oid × TreeDataAndStats)) (o : Oid)
    (d' : TreeDataAndStats)
    (h : RepoAnalysis.calculateTreeStatistics blobs fuel t o = .ok (t', d'))
    (hf : 1 ≤ fuel') :
    RepoAnalysis.calculateTreeStatistics blobs fuel' t' o = .ok (t', d') := by
  obtain ⟨hl, hdone⟩ := calculateTreeStatistics_post blobs fuel t o t' d' h
  match fuel', hf with
  | g + 1, _ =>
    unfold RepoAnalysis.calculateTreeStatistics
    rw [hl]
    simp only [hdone, if_true]

/- ----------------------------------------------------------------
Claim C5 — chained annotated-tag depth resolution.
---------------------------------------------------------------- -/

/-- The resolved chain depth as the spec states it (invariant 6): 1 plus the
resolved depth of the target when the target is another tag present in the
table, else exactly 1.  Fuel-driven recursion; irrelevant above the rank. -/
def chainDepth (tags0 : List (Oid × TagData)) : Nat → Oid → Nat
  | 0, _ => 0
  | fuel + 1, o =>
    match lookupA tags0 o with
    | none => 0
    | some td =>
      if td.typeTarget = ObjType.tag ∧ (lookupA tags0 td.oidTarget).isSome = true
      then 1 + chainDepth tags0 fuel td.oidTarget
      else 1

/-- Well-formedness of a drained tags table: every depth is the unset
sentinel 0 and every tag-typed target is present with smaller rank. -/
def TagsWF (tags0 : List (Oid × TagData)) (rank : Oid → Nat) : Prop :=
  (∀ e ∈ tags0, e.2.depth = 0) ∧
  (∀ e ∈ tags0, e.2.typeTarget = ObjType.tag →
    (lookupA tags0 e.2.oidTarget).isSome = true ∧ rank e.2.oidTarget < rank e.1)

theorem chainDepth_le (tags0 : List (Oid × TagData)) :
    ∀ fuel o, chainDepth tags0 fuel o ≤ fuel := by
  intro fuel
  induction fuel with
  | zero => intro o; simp [chainDepth]
  | succ f ih =>
    intro o
    unfold chainDepth
    cases lookupA tags0 o with
    | none => dsimp only; omega
    | some td =>
      dsimp only
      split
      · have := ih td.oidTarget
        omega
      · omega

theorem chainDepth_stable (tags0 : List (Oid × TagData)) (rank : Oid → Nat)
    (hwf : TagsWF tags0 rank) :
    ∀ fuel o, rank o < fuel →
      chainDepth tags0 fuel o = chainDepth tags0 (rank o + 1) o := by
  intro fuel
  induction fuel using Nat.strong_induction_on with
  | _ fuel ih =>
    intro o hro
    match fuel, hro with
    | f + 1, hro =>
      unfold chainDepth
      cases hlo : lookupA tags0 o with
      | none => rfl
      | some td =>
        dsimp only
        by_cases hc : td.typeTarget = ObjType.tag ∧
            (lookupA tags0 td.oidTarget).isSome = true
        · rw [if_pos hc, if_pos hc]
          have hrk : rank td.oidTarget < rank o :=
            (hwf.2 (o, td) (lookupA_mem hlo) hc.1).2
          rw [ih f (Nat.lt_succ_self f) td.oidTarget (by omega),
              ih (rank o) hro td.oidTarget hrk]
        · rw [if_neg hc, if_neg hc]

theorem c5helper_one_le_chainDepth (tags0 : List (Oid × TagData)) (o : Oid)
    (td0 : TagData) (h : lookupA tags0 o = some td0) (fuel : Nat) :
    1 ≤ chainDepth tags0 (fuel + 1) o := by
  unfold chainDepth
  rw [h]
  dsimp only
  split <;> omega

/-- Invariant clause for a tags table during resolution: entries at rank at
most `b` carry their original targets and a depth that is either the unset
sentinel or the final resolved chain depth. -/
def TagClean (tags0 t : List (Oid × TagData)) (rank : Oid → Nat) (b : Nat) : Prop :=
  ∀ o' td', lookupA t o' = some td' → rank o' ≤ b →
    ∃ td0', lookupA tags0 o' = some td0' ∧
      td'.oidTarget = td0'.oidTarget ∧ td'.typeTarget = td0'.typeTarget ∧
      (td'.depth = 0 ∨ td'.depth = chainDepth tags0 (rank o' + 1) o')

theorem calculateTagDepth_char (tags0 : List (Oid × TagData)) (rank : Oid → Nat)
    (hwf : TagsWF tags0 rank)
    (hrb : ∀ e ∈ tags0, rank e.1 + 2 < U32) :
    ∀ fuel t o td0,
      lookupA tags0 o = some td0 →
      rank o < fuel →
      t.map Prod.fst = tags0.map Prod.fst →
      TagClean tags0 t rank (rank o) →
      ∃ t' td',
        RepoAnalysis.calculateTagDepth fuel t o = .ok (t', td') ∧
        t'.map Prod.fst = t.map Prod.fst ∧
        (∀ o', rank o < rank o' → lookupA t' o' = lookupA t o') ∧
        TagClean tags0 t' rank (rank o) ∧
        (∀ o' td'', lookupA t o' = some td'' → td''.depth ≠ 0 →
          lookupA t' o' = some td'') ∧
        lookupA t' o = some td' ∧
        td'.depth = chainDepth tags0 (rank o + 1) o ∧
        td'.oidTarget = td0.oidTarget ∧ td'.typeTarget = td0.typeTarget := by
  intro fuel
  induction fuel with
  | zero => intro t o td0 _ h _ _; omega
  | succ f ih =>
    intro t o td0 h0 hro hkeys hclean
    have hmem : o ∈ t.map Prod.fst := by
      rw [hkeys]
      exact (mem_keys_iff_lookupA_isSome tags0 o).mpr (by simp [h0])
    obtain ⟨td, htd⟩ := Option.isSome_iff_exists.mp
      ((mem_keys_iff_lookupA_isSome t o).mp hmem)
    obtain ⟨td0', h0', hT1, hT2, hdep⟩ := hclean o td htd (le_refl _)
    rw [h0] at h0'
    injection h0' with h0'eq
    subst h0'eq
    unfold RepoAnalysis.calculateTagDepth
    rw [htd]
    dsimp only
    by_cases hz : td.depth ≠ 0
    · -- already resolved: the memo returns it unchanged
      rw [if_pos hz]
      rcases hdep with hdep | hdep
      · exact absurd hdep hz
      · exact ⟨t, td, rfl, rfl, fun _ _ => rfl, hclean, fun _ _ h _ => h,
          htd, hdep, hT1, hT2⟩
    · rw [if_neg hz]
      have hz0 : td.depth = 0 := by omega
      have hd1 : (td.depth + 1) % U32 = 1 := by
        rw [hz0]
        unfold U32
        norm_num
      by_cases htt : td.typeTarget = ObjType.tag
      · -- chained tag: resolve the target first
        rw [if_pos htt]
        have htt0 : td0.typeTarget = ObjType.tag := by rw [← hT2]; exact htt
        obtain ⟨hpres, hrk0⟩ := hwf.2 (o, td0) (lookupA_mem h0) htt0
        have hrk : rank td.oidTarget < rank o := by rw [hT1]; exact hrk0
        obtain ⟨ttd0, httd0⟩ := Option.isSome_iff_exists.mp hpres
        have httd0' : lookupA tags0 td.oidTarget = some ttd0 := by
          rw [hT1]; exact httd0
        have hkeys1 : (updateA t o fun _ => { td with depth := (td.depth + 1) % U32 }).map
            Prod.fst = tags0.map Prod.fst := by
          rw [updateA_map_fst]; exact hkeys
        have hclean1 : TagClean tags0
            (updateA t o fun _ => { td with depth := (td.depth + 1) % U32 })
            rank (rank td.oidTarget) := by
          intro o' td' hl' hle
          have hne : o' ≠ o := fun he => by subst he; omega
          rw [lookupA_updateA, if_neg hne] at hl'
          exact hclean o' td' hl' (by omega)
        obtain ⟨t2, chained, hok2, hkeys2, hunch2, hclean2, hpres2, hl2, hcd2,
            hTt1, hTt2⟩ :=
          ih (updateA t o fun _ => { td with depth := (td.depth + 1) % U32 })
            td.oidTarget ttd0 httd0' (by omega)
            (by rw [hkeys1]) hclean1
        rw [hok2]
        dsimp only
        have hcdle : chained.depth ≤ rank td.oidTarget + 1 := by
          rw [hcd2]
          exact chainDepth_le tags0 (rank td.oidTarget + 1) td.oidTarget
        have hbound : rank o + 2 < U32 := by
          have := hrb (o, td0) (lookupA_mem h0)
          exact this
        have hd2 : ((td.depth + 1) % U32 + chained.depth) % U32
            = 1 + chained.depth := by
          rw [hd1]
          exact Nat.mod_eq_of_lt (by omega)
        have hcdo : chainDepth tags0 (rank o + 1) o = 1 + chained.depth := by
          unfold chainDepth
          rw [h0]
          dsimp only
          rw [if_pos ⟨htt0, hpres⟩]
          rw [hcd2, ← hT1]
          rw [chainDepth_stable tags0 rank hwf (rank o) td.oidTarget hrk]
        have hmem2 : o ∈ t2.map Prod.fst := by
          rw [hkeys2, hkeys1]
          exact (mem_keys_iff_lookupA_isSome tags0 o).mpr (by simp [h0])
        obtain ⟨dt2, hdt2⟩ := Option.isSome_iff_exists.mp
          ((mem_keys_iff_lookupA_isSome t2 o).mp hmem2)
        refine ⟨updateA t2 o fun _ =>
            { td with depth := ((td.depth + 1) % U32 + chained.depth) % U32 },
          { td with depth := ((td.depth + 1) % U32 + chained.depth) % U32 },
          rfl, ?_, ?_, ?_, ?_, ?_, ?_, hT1, hT2⟩
        · rw [updateA_map_fst, hkeys2, updateA_map_fst]
        · intro o' ho'
          have hne : o' ≠ o := fun he => by subst he; omega
          rw [lookupA_updateA, if_neg hne, hunch2 o' (by omega),
              lookupA_updateA, if_neg hne]
        · intro o' td'' hl'' hle
          by_cases ho' : o' = o
          · subst ho'
            rw [lookupA_updateA, if_pos rfl, hdt2] at hl''
            simp only [Option.map_some', Option.some.injEq] at hl''
            subst hl''
            exact ⟨td0, h0, hT1, hT2, Or.inr (by rw [hd2, hcdo])⟩
          · rw [lookupA_updateA, if_neg ho'] at hl''
            by_cases hle2 : rank o' ≤ rank td.oidTarget
            · exact hclean2 o' td'' hl'' hle2
            · rw [hunch2 o' (by omega), lookupA_updateA, if_neg ho'] at hl''
              exact hclean o' td'' hl'' hle
        · intro o' td'' hl'' hnz
          have hne : o' ≠ o := by
            intro he
            subst he
            rw [htd] at hl''
            injection hl'' with he'
            subst he'
            exact hnz hz0
          rw [lookupA_updateA, if_neg hne]
          exact hpres2 o' td'' (by rw [lookupA_updateA, if_neg hne]; exact hl'') hnz
        · rw [lookupA_updateA, if_pos rfl, hdt2]
          rfl
        · rw [hd2, hcdo]
      · -- non-tag target: resolved depth is exactly 1
        rw [if_neg htt]
        have hcdo : chainDepth tags0 (rank o + 1) o = 1 := by
          unfold chainDepth
          rw [h0]
          dsimp only
          rw [if_neg (by
            intro hc
            exact htt (by rw [hT2]; exact hc.1))]
        refine ⟨updateA t o fun _ => { td with depth := (td.depth + 1) % U32 },
          { td with depth := (td.depth + 1) % U32 }, rfl, ?_, ?_, ?_, ?_, ?_, ?_,
          hT1, hT2⟩
        · rw [updateA_map_fst]
        · intro o' ho'
          have hne : o' ≠ o := fun he => by subst he; omega
          rw [lookupA_updateA, if_neg hne]
        · intro o' td'' hl'' hle
          by_cases ho' : o' = o
          · subst ho'
            rw [lookupA_updateA, if_pos rfl, htd] at hl''
            simp only [Option.map_some', Option.some.injEq] at hl''
            subst hl''
            exact ⟨td0, h0, hT1, hT2, Or.inr (by rw [hd1, hcdo])⟩
          · rw [lookupA_updateA, if_neg ho'] at hl''
            exact hclean o' td'' hl'' hle
        · intro o' td'' hl'' hnz
          have hne : o' ≠ o := by
            intro he
            subst he
            rw [htd] at hl''
            injection hl'' with he'
            subst he'
            exact hnz hz0
          rw [lookupA_updateA, if_neg hne]
          exact hl''
        · rw [lookupA_updateA, if_pos rfl, htd]
          rfl
        · rw [hd1, hcdo]

/-- `TagClean` without a rank bound: every entry is unset or resolved. -/
def TagCleanAll (tags0 t : List (Oid × TagData)) (rank : Oid → Nat) : Prop :=
  ∀ o' td', lookupA t o' = some td' →
    ∃ td0', lookupA tags0 o' = some td0' ∧
      td'.oidTarget = td0'.oidTarget ∧ td'.typeTarget = td0'.typeTarget ∧
      (td'.depth = 0 ∨ td'.depth = chainDepth tags0 (rank o' + 1) o')

theorem calculateMaxTagDepthGo_char (tags0 : List (Oid × TagData))
    (rank : Oid → Nat) (hwf : TagsWF tags0 rank)
    (hrb : ∀ e ∈ tags0, rank e.1 + 2 < U32)
    (hrlt : ∀ e ∈ tags0, rank e.1 ≤ tags0.length) :
    ∀ (ks : List Oid) (t : List (Oid × TagData)) (mtd : Nat),
      (∀ k ∈ ks, (lookupA tags0 k).isSome = true) →
      t.map Prod.fst = tags0.map Prod.fst →
      TagCleanAll tags0 t rank →
      ∃ t', RepoAnalysis.calculateMaxTagDepthGo tags0.length ks t mtd =
          .ok (t', ks.foldl
            (fun m k => max m (chainDepth tags0 (rank k + 1) k)) mtd) ∧
        t'.map Prod.fst = tags0.map Prod.fst ∧
        TagCleanAll tags0 t' rank ∧
        (∀ o' td', lookupA t o' = some td' → td'.depth ≠ 0 →
          lookupA t' o' = some td') ∧
        (∀ k ∈ ks, ∃ td', lookupA t' k = some td' ∧
          td'.depth = chainDepth tags0 (rank k + 1) k) := by
  intro ks
  induction ks with
  | nil =>
    intro t mtd _ hkeys hall
    exact ⟨t, rfl, hkeys, hall, fun _ _ h _ => h, by simp⟩
  | cons k ks' ih =>
    intro t mtd hks hkeys hall
    obtain ⟨td0k, htd0k⟩ := Option.isSome_iff_exists.mp (hks k (List.mem_cons_self _ _))
    have hrkk : rank k < tags0.length + 1 := by
      have hh : rank k ≤ tags0.length := hrlt (k, td0k) (lookupA_mem htd0k)
      omega
    obtain ⟨t1, td1', heq1, hkeys1, hunch1, hclean1, hpres1, hl1, hdep1, _, _⟩ :=
      calculateTagDepth_char tags0 rank hwf hrb (tags0.length + 1) t k td0k
        htd0k hrkk hkeys (fun o' td' hl _ => hall o' td' hl)
    have hkeys1' : t1.map Prod.fst = tags0.map Prod.fst := by
      rw [hkeys1, hkeys]
    have hall1 : TagCleanAll tags0 t1 rank := by
      intro o' td' hl
      by_cases hle : rank o' ≤ rank k
      · exact hclean1 o' td' hl hle
      · rw [hunch1 o' (by omega)] at hl
        exact hall o' td' hl
    obtain ⟨t2, heq2, hkeys2, hall2, hpres2, hfin2⟩ :=
      ih t1 (max mtd td1'.depth)
        (fun x hx => hks x (List.mem_cons_of_mem _ hx)) hkeys1' hall1
    have hnz1 : td1'.depth ≠ 0 := by
      rw [hdep1]
      have := c5helper_one_le_chainDepth tags0 k td0k htd0k (rank k)
      omega
    refine ⟨t2, ?_, hkeys2, hall2, ?_, ?_⟩
    · simp only [RepoAnalysis.calculateMaxTagDepthGo, heq1, List.foldl_cons]
      rw [← hdep1]
      exact heq2
    · intro o' td' hl hnz
      exact hpres2 o' td' (hpres1 o' td' hl hnz) hnz
    · intro x hx
      rcases List.mem_cons.mp hx with hx | hx
      · subst hx
        exact ⟨td1', hpres2 x td1' hl1 hnz1, hdep1⟩
      · exact hfin2 x hx

theorem calculateMaxTagDepth_char (tags0 : List (Oid × TagData))
    (rank : Oid → Nat) (hwf : TagsWF tags0 rank)
    (hrb : ∀ e ∈ tags0, rank e.1 + 2 < U32)
    (hrlt : ∀ e ∈ tags0, rank e.1 ≤ tags0.length) :
    ∃ tags', RepoAnalysis.calculateMaxTagDepth tags0 =
        .ok (tags', (tags0.map Prod.fst).foldl
          (fun m k => max m (chainDepth tags0 (rank k + 1) k)) 0) ∧
      tags'.map Prod.fst = tags0.map Prod.fst ∧
      (∀ o td', lookupA tags' o = some td' →
        ∃ td0, lookupA tags0 o = some td0 ∧
          td'.oidTarget = td0.oidTarget ∧ td'.typeTarget = td0.typeTarget ∧
          td'.depth = chainDepth tags0 (rank o + 1) o) := by
  obtain ⟨t', heq, hkeys, hall, _, hfin⟩ :=
    calculateMaxTagDepthGo_char tags0 rank hwf hrb hrlt (tags0.map Prod.fst)
      tags0 0
      (fun k hk => (mem_keys_iff_lookupA_isSome tags0 k).mp hk)
      rfl
      (fun o' td' hl => ⟨td', hl, rfl, rfl,
        Or.inl (hwf.1 (o', td') (lookupA_mem hl))⟩)
  refine ⟨t', heq, hkeys, ?_⟩
  intro o td' hl
  obtain ⟨td0, htd0, hT1, hT2, _⟩ := hall o td' hl
  have hmem : o ∈ tags0.map Prod.fst :=
    (mem_keys_iff_lookupA_isSome tags0 o).mpr (by simp [htd0])
  obtain ⟨td'', hl'', hdep''⟩ := hfin o hmem
  rw [hl] at hl''
  injection hl'' with he
  subst he
  exact ⟨td0, htd0, hT1, hT2, hdep''⟩

/-- A chain of `k` annotated tags: tag `i+1` targets object `i`; tag 1
targets a commit (a non-tag object), every other tag targets the previous
tag.  All depths start at the unset sentinel. -/
def chainTags (k : Nat) : List (Oid × TagData) :=
  (List.range k).map fun (i : Nat) =>
    (i + 1, { oidTarget := i,
              typeTarget := if i = 0 then ObjType.commit else ObjType.tag,
              depth := 0 })

theorem chainTags_succ (k : Nat) :
    chainTags (k + 1) = chainTags k ++
      [(k + 1, { oidTarget := k,
                 typeTarget := if k = 0 then ObjType.commit else ObjType.tag,
                 depth := 0 })] := by
  simp [chainTags, List.range_succ]

theorem lookupA_chainTags (k : Nat) : ∀ j : Nat,
    lookupA (chainTags k) j =
      if 1 ≤ j ∧ j ≤ k then
        some { oidTarget := j - 1,
               typeTarget := if j - 1 = 0 then ObjType.commit else ObjType.tag,
               depth := 0 }
      else none := by
  induction k with
  | zero =>
    intro j
    rw [if_neg (by rintro ⟨ha, hb⟩; omega)]
    rfl
  | succ k ih =>
    intro j
    rw [chainTags_succ, lookupA_append, ih j]
    by_cases h0 : 1 ≤ j
    · by_cases hle : j ≤ k
      · rw [if_pos ⟨h0, hle⟩]
        dsimp only
        rw [if_pos (show 1 ≤ j ∧ j ≤ k + 1 from ⟨h0, by omega⟩)]
      · rw [if_neg (by rintro ⟨_, hb⟩; exact hle hb)]
        dsimp only
        by_cases h2 : j = k + 1
        · subst h2
          simp only [lookupA, if_pos rfl]
          rw [if_pos (show 1 ≤ k + 1 ∧ k + 1 ≤ k + 1 from ⟨by omega, le_refl _⟩)]
          simp
        · simp only [lookupA, if_neg h2]
          rw [if_neg (by rintro ⟨_, hb⟩; omega)]
    · rw [if_neg (by rintro ⟨ha, _⟩; exact h0 ha)]
      dsimp only
      have h2 : ¬(j = k + 1) := by omega
      simp only [lookupA, if_neg h2]
      rw [if_neg (by rintro ⟨ha, _⟩; exact h0 ha)]

theorem chainTags_length (k : Nat) : (chainTags k).length = k := by
  simp [chainTags]

theorem chainTags_keys (k : Nat) :
    (chainTags k).map Prod.fst = (List.range k).map (· + 1) := by
  simp [chainTags]

theorem chainDepth_chainTags (k : Nat) : ∀ j, 1 ≤ j → j ≤ k →
    ∀ fuel, j ≤ fuel → chainDepth (chainTags k) fuel j = j := by
  intro j
  induction j using Nat.strong_induction_on with
  | _ j ihj =>
    intro h1 hk fuel hf
    cases fuel with
    | zero => omega
    | succ f =>
      unfold chainDepth
      rw [lookupA_chainTags k j, if_pos ⟨h1, hk⟩]
      dsimp only
      by_cases hj1 : j - 1 = 0
      · rw [if_neg (by simp [hj1])]
        omega
      · rw [if_pos ⟨by simp [hj1], by
          rw [lookupA_chainTags k (j - 1), if_pos (by omega)]
          rfl⟩]
        rw [ihj (j - 1) (by omega) (by omega) (by omega) f (by omega)]
        omega

theorem chainTags_wf (k : Nat) : TagsWF (chainTags k) (fun o => o) := by
  constructor
  · intro e he
    simp only [chainTags, List.mem_map, List.mem_range] at he
    obtain ⟨i, _, rfl⟩ := he
    rfl
  · intro e he htag
    simp only [chainTags, List.mem_map, List.mem_range] at he
    obtain ⟨i, hik, rfl⟩ := he
    simp only at htag ⊢
    have hi0 : ¬(i = 0) := by
      intro h0
      rw [if_pos h0] at htag
      exact absurd htag (by simp)
    rw [lookupA_chainTags k i, if_pos (show 1 ≤ i ∧ i ≤ k from ⟨by omega, by omega⟩)]
    refine ⟨rfl, ?_⟩
    show i < i + 1
    omega

theorem foldl_max_plus_one_range (k : Nat) :
    ((List.range k).map (· + 1)).foldl (fun m j => max m j) 0 = k := by
  induction k with
  | zero => rfl
  | succ k ih =>
    rw [List.range_succ, List.map_append, List.foldl_append, ih]
    simp only [List.map_cons, List.map_nil, List.foldl_cons, List.foldl_nil]
    omega

theorem chainTags_maxfold (k : Nat) :
    ((chainTags k).map Prod.fst).foldl
      (fun m j => max m (chainDepth (chainTags k) (j + 1) j)) 0 = k := by
  rw [chainTags_keys]
  rw [List.foldl_ext (fun m j => max m (chainDepth (chainTags k) (j + 1) j))
    (fun m j => max m j) 0 ?_]
  · exact foldl_max_plus_one_range k
  · intro m j hj
    simp only [List.mem_map, List.mem_range] at hj
    obtain ⟨i, hik, rfl⟩ := hj
    dsimp only
    rw [chainDepth_chainTags k (i + 1) (by omega) (by omega) (i + 1 + 1) (by omega)]

/-- C5: on a well-formed drained tags table (all depths at the unset sentinel
0, tag-typed targets present and acyclic), `calculateMaxTagDepth` resolves
every tag: each resolved depth is at least 1, equals 1 plus the resolved
depth of the target when the target is another tag present in the table, and
equals exactly 1 when the target is not a tag; `maxTagDepth` is the maximum
resolved depth.  Consequently a chain of `k` tags ending at a non-tag object
yields `maxTagDepth = k` (for any `k` below the `uint32_t` range). -/
theorem c5_tag_depth_resolution (tags0 : List (Oid × TagData)) (rank : Oid → Nat)
    (hwf : TagsWF tags0 rank)
    (hrb : ∀ e ∈ tags0, rank e.1 + 2 < U32)
    (hrlt : ∀ e ∈ tags0, rank e.1 ≤ tags0.length) :
    (∃ tags' mtd, RepoAnalysis.calculateMaxTagDepth tags0 = .ok (tags', mtd) ∧
      mtd = (tags0.map Prod.fst).foldl
        (fun m k => max m (chainDepth tags0 (rank k + 1) k)) 0 ∧
      ∀ o td', lookupA tags' o = some td' →
        1 ≤ td'.depth ∧
        (td'.typeTarget = ObjType.tag →
          ∀ ttd, lookupA tags' td'.oidTarget = some ttd →
            td'.depth = 1 + ttd.depth) ∧
        (td'.typeTarget ≠ ObjType.tag → td'.depth = 1)) ∧
    (∀ k : Nat, k + 2 < U32 →
      ∃ ct', RepoAnalysis.calculateMaxTagDepth (chainTags k) = .ok (ct', k)) := by
  constructor
  · obtain ⟨tags', heq, hkeys, hentry⟩ :=
      calculateMaxTagDepth_char tags0 rank hwf hrb hrlt
    refine ⟨tags', _, heq, rfl, ?_⟩
    intro o td' hl
    obtain ⟨td0, htd0, hT1, hT2, hdep⟩ := hentry o td' hl
    refine ⟨?_, ?_, ?_⟩
    · rw [hdep]
      exact c5helper_one_le_chainDepth tags0 o td0 htd0 (rank o)
    · intro htag ttd httd
      obtain ⟨ttd0, httd0, _, _, hdepT⟩ := hentry td'.oidTarget ttd httd
      have htt0 : td0.typeTarget = ObjType.tag := by rw [← hT2]; exact htag
      have hpres : (lookupA tags0 td0.oidTarget).isSome = true :=
        (hwf.2 (o, td0) (lookupA_mem htd0) htt0).1
      have hrk : rank td0.oidTarget < rank o :=
        (hwf.2 (o, td0) (lookupA_mem htd0) htt0).2
      rw [hdep]
      unfold chainDepth
      rw [htd0]
      dsimp only
      rw [if_pos ⟨htt0, hpres⟩]
      rw [chainDepth_stable tags0 rank hwf (rank o) td0.oidTarget hrk]
      rw [hdepT, hT1]
    · intro hnt
      rw [hdep]
      unfold chainDepth
      rw [htd0]
      dsimp only
      rw [if_neg (fun hc => hnt (by rw [hT2]; exact hc.1))]
  · intro k hk
    have hwfk := chainTags_wf k
    have hrbk : ∀ e ∈ chainTags k, (fun o => o) e.1 + 2 < U32 := by
      intro e he
      simp only [chainTags, List.mem_map, List.mem_range] at he
      obtain ⟨i, hik, rfl⟩ := he
      show i + 1 + 2 < U32
      omega
    have hrltk : ∀ e ∈ chainTags k, (fun o => o) e.1 ≤ (chainTags k).length := by
      intro e he
      simp only [chainTags, List.mem_map, List.mem_range] at he
      obtain ⟨i, hik, rfl⟩ := he
      rw [chainTags_length]
      show i + 1 ≤ k
      omega
    obtain ⟨ct', heq, _, _⟩ :=
      calculateMaxTagDepth_char (chainTags k) (fun o => o) hwfk hrbk hrltk
    rw [chainTags_maxfold k] at heq
    exact ⟨ct', heq⟩

/-- Witness for C5: the chain of three tags resolves to `maxTagDepth = 3`. -/
theorem c5_tag_depth_resolution_witness :
    ∃ ct', RepoAnalysis.calculateMaxTagDepth (chainTags 3) = .ok (ct', 3) :=
  (c5_tag_depth_resolution (chainTags 3) (fun o => o)
    (chainTags_wf 3)
    (by unfold chainTags U32; decide)
    (by unfold chainTags; decide)).2 3 (by unfold U32; decide)

/- ----------------------------------------------------------------
Claim C3 — CalculateMaxDepth computes the longest root-to-sink path.
---------------------------------------------------------------- -/

/-- A commit build list: each element is (commit oid, its parent oids), in
the order `CommitsGraph::AddNode` receives them. -/
def buildGraph (cs : List (Oid × List Oid)) : CommitsGraph :=
  cs.foldl (fun g pr => g.AddNode pr.1 pr.2) {}

/-- Parents of a commit according to the build list. -/
def parentsOf (cs : List (Oid × List Oid)) (o : Oid) : List Oid :=
  (lookupA cs o).getD []

/-- The commit oids of the build list. -/
def keysOf (cs : List (Oid × List Oid)) : List Oid := cs.map Prod.fst

/-- `parentsLeft` view of a node arena (0 for absent nodes). -/
def plA (ns : List (Oid × CommitsGraphNode)) (o : Oid) : Nat :=
  ((lookupA ns o).map CommitsGraphNode.parentsLeft).getD 0

/-- Child-multiplicity view of a node arena. -/
def chlcnt (ns : List (Oid × CommitsGraphNode)) (p c : Oid) : Nat :=
  (((lookupA ns p).map CommitsGraphNode.children).getD []).count c

theorem plA_addParentNode (ns : List (Oid × CommitsGraphNode)) (p c : Oid) :
    ∀ o, plA (CommitsGraph.addParentNode ns p c) o = plA ns o := by
  intro o
  unfold CommitsGraph.addParentNode plA
  cases hp : lookupA ns p with
  | some n =>
    dsimp only
    rw [lookupA_updateA]
    by_cases ho : o = p
    · subst ho; rw [if_pos rfl, hp]; rfl
    · rw [if_neg ho]
  | none =>
    dsimp only
    rw [lookupA_updateA]
    by_cases ho : o = p
    · rw [if_pos ho, lookupA_insert_self ns p {} hp, ho, hp]
      rfl
    · rw [if_neg ho, lookupA_insert_other ns p o {} ho]

theorem chlcnt_addParentNode (ns : List (Oid × CommitsGraphNode)) (p c : Oid) :
    ∀ q x, chlcnt (CommitsGraph.addParentNode ns p c) q x =
      chlcnt ns q x + (if q = p ∧ x = c then 1 else 0) := by
  intro q x
  unfold CommitsGraph.addParentNode chlcnt
  cases hp : lookupA ns p with
  | some n =>
    dsimp only
    rw [lookupA_updateA]
    by_cases hq : q = p
    · by_cases hx : x = c
      · rw [if_pos (⟨hq, hx⟩ : q = p ∧ x = c), if_pos hq, hp, hq, hp, hx]
        simp [List.count_append, List.count_singleton]
      · rw [if_neg (show ¬(q = p ∧ x = c) from fun hc => hx hc.2),
            if_pos hq, hp, hq, hp]
        simp [List.count_append, List.count_singleton, hx]
    · rw [if_neg (show ¬(q = p ∧ x = c) from fun hc => hq hc.1), if_neg hq]
      omega
  | none =>
    dsimp only
    rw [lookupA_updateA]
    by_cases hq : q = p
    · by_cases hx : x = c
      · rw [if_pos (⟨hq, hx⟩ : q = p ∧ x = c), if_pos hq,
            lookupA_insert_self ns p {} hp, hq, hp, hx]
        simp [List.count_append, List.count_singleton]
      · rw [if_neg (show ¬(q = p ∧ x = c) from fun hc => hx hc.2), if_pos hq,
            lookupA_insert_self ns p {} hp, hq, hp]
        simp [List.count_append, List.count_singleton, hx]
    · rw [if_neg (show ¬(q = p ∧ x = c) from fun hc => hq hc.1), if_neg hq,
          lookupA_insert_other ns p q {} hq]
      omega

theorem isSome_addParentNode (ns : List (Oid × CommitsGraphNode)) (p c : Oid) :
    ∀ o, (lookupA (CommitsGraph.addParentNode ns p c) o).isSome = true ↔
      ((lookupA ns o).isSome = true ∨ o = p) := by
  intro o
  unfold CommitsGraph.addParentNode
  cases hp : lookupA ns p with
  | some n =>
    dsimp only
    rw [lookupA_updateA]
    by_cases ho : o = p
    · subst ho; simp [hp]
    · simp [ho]
  | none =>
    dsimp only
    rw [lookupA_updateA]
    by_cases ho : o = p
    · subst ho
      rw [if_pos rfl, lookupA_insert_self ns o {} hp]
      simp
    · rw [if_neg ho, lookupA_insert_other ns p o {} ho]
      simp [ho]

theorem nodupKeys_addParentNode (ns : List (Oid × CommitsGraphNode)) (p c : Oid)
    (h : (ns.map Prod.fst).Nodup) :
    ((CommitsGraph.addParentNode ns p c).map Prod.fst).Nodup := by
  unfold CommitsGraph.addParentNode
  cases hp : lookupA ns p with
  | some n =>
    dsimp only
    rw [updateA_map_fst]
    exact h
  | none =>
    dsimp only
    rw [updateA_map_fst, List.map_append]
    simp only [List.map_cons, List.map_nil]
    rw [List.nodup_append]
    refine ⟨h, List.nodup_singleton p, ?_⟩
    intro a ha hb
    simp only [List.mem_singleton] at hb
    subst hb
    have := (mem_keys_iff_lookupA_isSome ns a).mp ha
    rw [hp] at this
    simp at this

theorem plA_addParents (c : Oid) : ∀ (qs : List Oid) ns o,
    plA (qs.foldl (fun ns p => CommitsGraph.addParentNode ns p c) ns) o
      = plA ns o := by
  intro qs
  induction qs with
  | nil => intro ns o; rfl
  | cons p qs' ih =>
    intro ns o
    simp only [List.foldl_cons]
    rw [ih (CommitsGraph.addParentNode ns p c) o, plA_addParentNode]

theorem chlcnt_addParents (c : Oid) : ∀ (qs : List Oid) ns q x,
    chlcnt (qs.foldl (fun ns p => CommitsGraph.addParentNode ns p c) ns) q x
      = chlcnt ns q x + (if x = c then qs.count q else 0) := by
  intro qs
  induction qs with
  | nil => intro ns q x; simp
  | cons p qs' ih =>
    intro ns q x
    simp only [List.foldl_cons]
    rw [ih (CommitsGraph.addParentNode ns p c) q x, chlcnt_addParentNode]
    by_cases hx : x = c
    · by_cases hq : q = p
      · rw [if_pos (⟨hq, hx⟩ : q = p ∧ x = c), if_pos hx, if_pos hx]
        subst hq
        simp [List.count_cons]
        omega
      · rw [if_neg (show ¬(q = p ∧ x = c) from fun hc => hq hc.1),
          if_pos hx, if_pos hx]
        simp [List.count_cons, hq]
    · rw [if_neg (show ¬(q = p ∧ x = c) from fun hc => hx hc.2),
        if_neg hx, if_neg hx]

theorem nodup_addParents (c : Oid) : ∀ (qs : List Oid) ns,
    (ns.map Prod.fst).Nodup →
    ((qs.foldl (fun ns p => CommitsGraph.addParentNode ns p c) ns).map
      Prod.fst).Nodup := by
  intro qs
  induction qs with
  | nil => intro ns h; exact h
  | cons p qs' ih =>
    intro ns h
    simp only [List.foldl_cons]
    exact ih _ (nodupKeys_addParentNode ns p c h)

theorem isSome_addParents (c : Oid) : ∀ (qs : List Oid) ns o,
    (lookupA (qs.foldl (fun ns p => CommitsGraph.addParentNode ns p c) ns)
      o).isSome = true ↔ ((lookupA ns o).isSome = true ∨ o ∈ qs) := by
  intro qs
  induction qs with
  | nil => intro ns o; simp
  | cons p qs' ih =>
    intro ns o
    simp only [List.foldl_cons]
    rw [ih (CommitsGraph.addParentNode ns p c) o, isSome_addParentNode]
    simp only [List.mem_cons]
    tauto

theorem plA_AddNode (g : CommitsGraph) (oid : Oid) (parents : List Oid) :
    ∀ o, plA (g.AddNode oid parents).mapOidNode o =
      if o = oid then parents.length % U32 else plA g.mapOidNode o := by
  intro o
  unfold CommitsGraph.AddNode
  dsimp only
  rw [plA_addParents]
  cases hl : lookupA g.mapOidNode oid with
  | some n =>
    dsimp only
    unfold plA
    rw [lookupA_updateA]
    by_cases ho : o = oid
    · rw [if_pos ho, if_pos ho, hl]
      rfl
    · rw [if_neg ho, if_neg ho]
  | none =>
    dsimp only
    unfold plA
    by_cases ho : o = oid
    · rw [if_pos ho, ho, lookupA_insert_self _ _ _ hl]
      rfl
    · rw [if_neg ho, lookupA_insert_other _ _ _ _ ho]

theorem chlcnt_AddNode (g : CommitsGraph) (oid : Oid) (parents : List Oid)
    (hlt : parents.length < U32) :
    ∀ p c, chlcnt (g.AddNode oid parents).mapOidNode p c =
      chlcnt g.mapOidNode p c + (if c = oid then parents.count p else 0) := by
  intro p c
  unfold CommitsGraph.AddNode
  dsimp only
  rw [Nat.mod_eq_of_lt hlt, List.take_length]
  rw [chlcnt_addParents]
  congr 1
  cases hl : lookupA g.mapOidNode oid with
  | some n =>
    dsimp only
    unfold chlcnt
    rw [lookupA_updateA]
    by_cases hp : p = oid
    · rw [if_pos hp, hp, hl]
      rfl
    · rw [if_neg hp]
  | none =>
    dsimp only
    unfold chlcnt
    by_cases hp : p = oid
    · rw [hp, lookupA_insert_self _ _ _ hl, hl]
      rfl
    · rw [lookupA_insert_other _ _ _ _ hp]

theorem roots_AddNode (g : CommitsGraph) (oid : Oid) (parents : List Oid) :
    (g.AddNode oid parents).roots =
      if parents.length % U32 = 0 then g.roots ++ [oid] else g.roots := rfl

theorem nodup_AddNode (g : CommitsGraph) (oid : Oid) (parents : List Oid)
    (h : (g.mapOidNode.map Prod.fst).Nodup) :
    ((g.AddNode oid parents).mapOidNode.map Prod.fst).Nodup := by
  unfold CommitsGraph.AddNode
  dsimp only
  apply nodup_addParents
  cases hl : lookupA g.mapOidNode oid with
  | some n =>
    dsimp only
    rw [updateA_map_fst]
    exact h
  | none =>
    dsimp only
    rw [List.map_append]
    simp only [List.map_cons, List.map_nil]
    rw [List.nodup_append]
    refine ⟨h, List.nodup_singleton oid, ?_⟩
    intro a ha hb
    simp only [List.mem_singleton] at hb
    subst hb
    have := (mem_keys_iff_lookupA_isSome g.mapOidNode a).mp ha
    rw [hl] at this
    simp at this

theorem isSome_AddNode (g : CommitsGraph) (oid : Oid) (parents : List Oid) :
    ∀ o, (lookupA (g.AddNode oid parents).mapOidNode o).isSome = true ↔
      ((lookupA g.mapOidNode o).isSome = true ∨ o = oid ∨
        o ∈ parents.take (parents.length % U32)) := by
  intro o
  unfold CommitsGraph.AddNode
  dsimp only
  rw [isSome_addParents]
  cases hl : lookupA g.mapOidNode oid with
  | some n =>
    dsimp only
    rw [lookupA_updateA]
    by_cases ho : o = oid
    · rw [if_pos ho]
      simp [ho, hl]
    · rw [if_neg ho]
      tauto
  | none =>
    dsimp only
    by_cases ho : o = oid
    · rw [ho, lookupA_insert_self _ _ _ hl]
      simp
    · rw [lookupA_insert_other _ _ _ _ ho]
      tauto

theorem buildGraph_snoc (ps : List (Oid × List Oid)) (pr : Oid × List Oid) :
    buildGraph (ps ++ [pr]) = (buildGraph ps).AddNode pr.1 pr.2 := by
  unfold buildGraph
  rw [List.foldl_append]
  rfl

theorem keysOf_snoc (ps : List (Oid × List Oid)) (pr : Oid × List Oid) :
    keysOf (ps ++ [pr]) = keysOf ps ++ [pr.1] := by
  simp [keysOf]

theorem parentsOf_snoc (ps : List (Oid × List Oid)) (a : Oid) (prs : List Oid)
    (h : a ∉ keysOf ps) (o : Oid) :
    parentsOf (ps ++ [(a, prs)]) o =
      if o = a then prs else parentsOf ps o := by
  unfold parentsOf
  by_cases ho : o = a
  · rw [if_pos ho, ho,
      lookupA_insert_self _ _ _ (lookupA_eq_none_of_not_mem _ _ h)]
    rfl
  · rw [if_neg ho, lookupA_insert_other _ _ _ _ ho]

theorem parentsOf_not_mem (cs : List (Oid × List Oid)) (o : Oid)
    (h : o ∉ keysOf cs) : parentsOf cs o = [] := by
  unfold parentsOf
  rw [lookupA_eq_none_of_not_mem _ _ h]
  rfl

theorem nodup_snoc_keys (ps : List (Oid × List Oid)) (pr : Oid × List Oid)
    (h : (keysOf (ps ++ [pr])).Nodup) :
    (keysOf ps).Nodup ∧ pr.1 ∉ keysOf ps := by
  rw [keysOf_snoc, List.nodup_append] at h
  refine ⟨h.1, fun hm => ?_⟩
  exact h.2.2 hm (List.mem_singleton_self pr.1)

theorem buildGraph_pl (cs : List (Oid × List Oid))
    (hnd : (keysOf cs).Nodup) :
    ∀ o, plA (buildGraph cs).mapOidNode o = (parentsOf cs o).length % U32 := by
  induction cs using List.reverseRecOn with
  | nil =>
    intro o
    simp [buildGraph, plA, lookupA, parentsOf]
  | append_singleton ps pr ih =>
    obtain ⟨a, prs⟩ := pr
    obtain ⟨hnd', hna⟩ := nodup_snoc_keys ps (a, prs) hnd
    intro o
    rw [buildGraph_snoc, plA_AddNode, parentsOf_snoc ps a prs hna o]
    by_cases ho : o = a
    · rw [if_pos ho, if_pos ho]
    · rw [if_neg ho, if_neg ho, ih hnd' o]

theorem buildGraph_cnt (cs : List (Oid × List Oid))
    (hnd : (keysOf cs).Nodup)
    (hlt : ∀ pr ∈ cs, pr.2.length < U32) :
    ∀ p c, chlcnt (buildGraph cs).mapOidNode p c = (parentsOf cs c).count p := by
  induction cs using List.reverseRecOn with
  | nil =>
    intro p c
    simp [buildGraph, chlcnt, lookupA, parentsOf]
  | append_singleton ps pr ih =>
    obtain ⟨a, prs⟩ := pr
    obtain ⟨hnd', hna⟩ := nodup_snoc_keys ps (a, prs) hnd
    have hlt' : ∀ pr ∈ ps, pr.2.length < U32 := fun pr hpr =>
      hlt pr (List.mem_append_left _ hpr)
    have hlta : prs.length < U32 :=
      hlt (a, prs) (List.mem_append_right _ (List.mem_singleton_self _))
    intro p c
    rw [buildGraph_snoc, chlcnt_AddNode _ _ _ hlta, parentsOf_snoc ps a prs hna c,
      ih hnd' hlt' p c]
    by_cases hc : c = a
    · rw [if_pos hc, if_pos hc, hc, parentsOf_not_mem ps a hna]
      simp
    · rw [if_neg hc, if_neg hc]
      rfl

theorem buildGraph_roots (cs : List (Oid × List Oid))
    (hnd : (keysOf cs).Nodup)
    (hlt : ∀ pr ∈ cs, pr.2.length < U32) :
    ∀ o, o ∈ (buildGraph cs).roots ↔
      (o ∈ keysOf cs ∧ parentsOf cs o = []) := by
  induction cs using List.reverseRecOn with
  | nil =>
    intro o
    simp [buildGraph, keysOf]
  | append_singleton ps pr ih =>
    obtain ⟨a, prs⟩ := pr
    obtain ⟨hnd', hna⟩ := nodup_snoc_keys ps (a, prs) hnd
    have hlt' : ∀ pr ∈ ps, pr.2.length < U32 := fun pr hpr =>
      hlt pr (List.mem_append_left _ hpr)
    have hlta : prs.length < U32 :=
      hlt (a, prs) (List.mem_append_right _ (List.mem_singleton_self _))
    intro o
    rw [buildGraph_snoc, roots_AddNode, keysOf_snoc]
    rw [parentsOf_snoc ps a prs hna o]
    show o ∈ (if prs.length % U32 = 0 then (buildGraph ps).roots ++ [a]
      else (buildGraph ps).roots) ↔ _
    rw [Nat.mod_eq_of_lt hlta]
    by_cases hz : prs.length = 0
    · rw [if_pos hz]
      have hprs : prs = [] := List.length_eq_zero.mp hz
      by_cases ho : o = a
      · subst ho
        simp only [if_pos rfl]
        constructor
        · intro _
          exact ⟨List.mem_append_right _ (List.mem_singleton_self _), hprs⟩
        · intro _
          exact List.mem_append_right _ (List.mem_singleton_self _)
      · rw [if_neg ho]
        rw [List.mem_append, List.mem_append, ih hnd' hlt' o]
        simp only [List.mem_singleton, ho, or_false]
    · rw [if_neg hz]
      by_cases ho : o = a
      · subst ho
        simp only [if_pos rfl]
        rw [ih hnd' hlt' o]
        constructor
        · intro ⟨hk, _⟩
          exact absurd hk hna
        · intro ⟨_, hp⟩
          exact absurd (List.length_eq_zero.mpr hp) hz
      · rw [if_neg ho, ih hnd' hlt' o, List.mem_append]
        simp only [List.mem_singleton, ho, or_false]

theorem buildGraph_mem (cs : List (Oid × List Oid)) :
    ∀ o, o ∈ keysOf cs →
      (lookupA (buildGraph cs).mapOidNode o).isSome = true := by
  induction cs using List.reverseRecOn with
  | nil =>
    intro o ho
    simp [keysOf] at ho
  | append_singleton ps pr ih =>
    intro o ho
    rw [buildGraph_snoc, isSome_AddNode]
    rw [keysOf_snoc, List.mem_append, List.mem_singleton] at ho
    cases ho with
    | inl h => exact Or.inl (ih o h)
    | inr h => exact Or.inr (Or.inl h)

theorem buildGraph_nodup (cs : List (Oid × List Oid)) :
    ((buildGraph cs).mapOidNode.map Prod.fst).Nodup := by
  induction cs using List.reverseRecOn with
  | nil => exact List.nodup_nil
  | append_singleton ps pr ih =>
    rw [buildGraph_snoc]
    exact nodup_AddNode _ _ _ ih

theorem buildGraph_len (cs : List (Oid × List Oid))
    (hnd : (keysOf cs).Nodup) :
    cs.length ≤ (buildGraph cs).mapOidNode.length := by
  have hsub : keysOf cs ⊆ (buildGraph cs).mapOidNode.map Prod.fst := by
    intro o ho
    rw [mem_keys_iff_lookupA_isSome]
    exact buildGraph_mem cs o ho
  have := (List.subperm_of_subset hnd hsub).length_le
  rw [List.length_map] at this
  unfold keysOf at this
  rw [List.length_map] at this
  exact this

/-- Height of a commit in the parent→child direction: 1 for parentless
commits, else one more than the tallest parent (fuelled). -/
def hgtF (cs : List (Oid × List Oid)) : Nat → Oid → Nat
  | 0, _ => 0
  | fuel + 1, o => ((parentsOf cs o).map (hgtF cs fuel)).foldl max 0 + 1

/-- Height evaluated with pointwise-sufficient fuel given a rank witness of
acyclicity. -/
def hgtR (cs : List (Oid × List Oid)) (rank : Oid → Nat) (o : Oid) : Nat :=
  hgtF cs (rank o + 1) o

theorem rank_parent {cs : List (Oid × List Oid)} {rank : Oid → Nat}
    (hrk : ∀ pr ∈ cs, ∀ p ∈ pr.2, rank p < rank pr.1) :
    ∀ o p, p ∈ parentsOf cs o → rank p < rank o := by
  intro o p hp
  unfold parentsOf at hp
  cases hl : lookupA cs o with
  | none => rw [hl] at hp; simp at hp
  | some ps =>
    rw [hl] at hp
    exact hrk (o, ps) (lookupA_mem hl) p hp

theorem keys_parent {cs : List (Oid × List Oid)}
    (hcl : ∀ pr ∈ cs, ∀ p ∈ pr.2, p ∈ keysOf cs) :
    ∀ o p, p ∈ parentsOf cs o → p ∈ keysOf cs := by
  intro o p hp
  unfold parentsOf at hp
  cases hl : lookupA cs o with
  | none => rw [hl] at hp; simp at hp
  | some ps =>
    rw [hl] at hp
    exact hcl (o, ps) (lookupA_mem hl) p hp

theorem parentsOf_ne_nil_mem (cs : List (Oid × List Oid)) (o : Oid)
    (h : parentsOf cs o ≠ []) : o ∈ keysOf cs := by
  by_contra hk
  exact h (parentsOf_not_mem cs o hk)

theorem foldl_max_le (l : List Nat) : ∀ (a b : Nat),
    l.foldl max a ≤ b ↔ (a ≤ b ∧ ∀ x ∈ l, x ≤ b) := by
  induction l with
  | nil => intro a b; simp
  | cons x l' ih =>
    intro a b
    rw [List.foldl_cons, ih]
    constructor
    · rintro ⟨hm, hall⟩
      refine ⟨le_trans (le_max_left a x) hm, fun y hy => ?_⟩
      rcases List.mem_cons.mp hy with h | h
      · subst h; exact le_trans (le_max_right a y) hm
      · exact hall y h
    · rintro ⟨ha, hall⟩
      refine ⟨max_le ha (hall x (List.mem_cons_self _ _)), fun y hy =>
        hall y (List.mem_cons_of_mem _ hy)⟩

theorem le_foldl_max (l : List Nat) (a : Nat) :
    a ≤ l.foldl max a ∧ ∀ x ∈ l, x ≤ l.foldl max a :=
  (foldl_max_le l a (l.foldl max a)).mp (le_refl _)

theorem foldl_max_mem (l : List Nat) : ∀ (a : Nat),
    l.foldl max a = a ∨ l.foldl max a ∈ l := by
  induction l with
  | nil => intro a; exact Or.inl rfl
  | cons x l' ih =>
    intro a
    rw [List.foldl_cons]
    rcases ih (max a x) with h | h
    · rw [h]
      rcases Nat.le_total a x with hax | hxa
      · rw [Nat.max_eq_right hax]
        exact Or.inr (List.mem_cons_self _ _)
      · rw [Nat.max_eq_left hxa]
        exact Or.inl rfl
    · exact Or.inr (List.mem_cons_of_mem _ h)

theorem hgtF_stable {cs : List (Oid × List Oid)} {rank : Oid → Nat}
    (hrk : ∀ pr ∈ cs, ∀ p ∈ pr.2, rank p < rank pr.1) :
    ∀ (r : Nat) (o : Oid), rank o ≤ r → ∀ f f', rank o < f → rank o < f' →
      hgtF cs f o = hgtF cs f' o := by
  intro r
  induction r with
  | zero =>
    intro o hro f f' hf hf'
    have hps : parentsOf cs o = [] := by
      rw [List.eq_nil_iff_forall_not_mem]
      intro p hp
      have := rank_parent hrk o p hp
      omega
    cases f with
    | zero => omega
    | succ f0 =>
      cases f' with
      | zero => omega
      | succ f0' => simp [hgtF, hps]
  | succ r' ih =>
    intro o hro f f' hf hf'
    cases f with
    | zero => omega
    | succ f0 =>
      cases f' with
      | zero => omega
      | succ f0' =>
        show ((parentsOf cs o).map (hgtF cs f0)).foldl max 0 + 1 =
          ((parentsOf cs o).map (hgtF cs f0')).foldl max 0 + 1
        have hmap : (parentsOf cs o).map (hgtF cs f0) =
            (parentsOf cs o).map (hgtF cs f0') := by
          apply List.map_congr_left
          intro p hp
          have hrp : rank p < rank o := rank_parent hrk o p hp
          exact ih p (by omega) f0 f0' (by omega) (by omega)
        rw [hmap]

theorem hgt_fix {cs : List (Oid × List Oid)} {rank : Oid → Nat}
    (hrk : ∀ pr ∈ cs, ∀ p ∈ pr.2, rank p < rank pr.1) (o : Oid) :
    hgtR cs rank o =
      ((parentsOf cs o).map (hgtR cs rank)).foldl max 0 + 1 := by
  show ((parentsOf cs o).map (hgtF cs (rank o))).foldl max 0 + 1 = _
  have hmap : (parentsOf cs o).map (hgtF cs (rank o)) =
      (parentsOf cs o).map (hgtR cs rank) := by
    apply List.map_congr_left
    intro p hp
    have hrp : rank p < rank o := rank_parent hrk o p hp
    exact hgtF_stable hrk (rank p) p (le_refl _) (rank o) (rank p + 1)
      (by omega) (by omega)
  rw [hmap]

theorem one_le_hgtR (cs : List (Oid × List Oid)) (rank : Oid → Nat) (o : Oid) :
    1 ≤ hgtR cs rank o := by
  show 1 ≤ _ + 1
  omega

theorem hgtR_parent_lt {cs : List (Oid × List Oid)} {rank : Oid → Nat}
    (hrk : ∀ pr ∈ cs, ∀ p ∈ pr.2, rank p < rank pr.1) (o p : Oid)
    (hp : p ∈ parentsOf cs o) : hgtR cs rank p < hgtR cs rank o := by
  rw [hgt_fix hrk o]
  have := (le_foldl_max ((parentsOf cs o).map (hgtR cs rank)) 0).2
    (hgtR cs rank p) (List.mem_map_of_mem _ hp)
  omega

theorem hgtR_eq_one_iff {cs : List (Oid × List Oid)} {rank : Oid → Nat}
    (hrk : ∀ pr ∈ cs, ∀ p ∈ pr.2, rank p < rank pr.1) (o : Oid) :
    hgtR cs rank o = 1 ↔ parentsOf cs o = [] := by
  constructor
  · intro h
    rw [List.eq_nil_iff_forall_not_mem]
    intro p hp
    have h1 := hgtR_parent_lt hrk o p hp
    have h2 := one_le_hgtR cs rank p
    omega
  · intro h
    rw [hgt_fix hrk o, h]
    rfl

theorem count_flatMap (f : Oid → List Oid) (c : Oid) : ∀ (l : List Oid),
    (l.flatMap f).count c = (l.map fun p => (f p).count c).sum := by
  intro l
  induction l with
  | nil => rfl
  | cons a l' ih =>
    rw [List.flatMap_cons, List.count_append, List.map_cons, List.sum_cons, ih]

theorem sum_indicator_nodup (a : Oid) : ∀ (F : List Oid), F.Nodup →
    (F.map fun p => if p = a then 1 else 0).sum = if a ∈ F then 1 else 0 := by
  intro F
  induction F with
  | nil => intro _; simp
  | cons q F' ih =>
    intro hnd
    rw [List.map_cons, List.sum_cons, ih hnd.of_cons]
    by_cases hq : q = a
    · subst hq
      have hna : q ∉ F' := (List.nodup_cons.mp hnd).1
      simp [hna]
    · have hqa : (a ∈ q :: F') ↔ a ∈ F' := by
        rw [List.mem_cons]
        constructor
        · rintro (h | h)
          · exact absurd h.symm hq
          · exact h
        · exact Or.inr
      rw [if_neg hq]
      by_cases hm : a ∈ F' <;> simp [hm, hqa]

theorem sum_counts (l : List Oid) (Q : Oid → Bool) :
    ∀ (F : List Oid), F.Nodup → (∀ p, p ∈ F ↔ Q p = true) →
    (F.map fun p => l.count p).sum = (l.filter Q).length := by
  induction l with
  | nil =>
    intro F _ _
    simp
  | cons a l' ih =>
    intro F hnd hmem
    have hcnt : (F.map fun p => (a :: l').count p) =
        F.map fun p => l'.count p + (if p = a then 1 else 0) := by
      apply List.map_congr_left
      intro p _
      rw [List.count_cons]
      congr 1
      by_cases hpa : p = a
      · simp [hpa]
      · simp only [hpa, if_false]
        rw [if_neg]
        simp only [beq_iff_eq]
        intro h
        exact hpa h.symm
    rw [hcnt]
    have hsplit : ∀ (G : List Oid),
        (G.map fun p => l'.count p + (if p = a then 1 else 0)).sum =
        (G.map fun p => l'.count p).sum +
        (G.map fun p => if p = a then 1 else 0).sum := by
      intro G
      induction G with
      | nil => rfl
      | cons q G' ihg =>
        simp only [List.map_cons, List.sum_cons, ihg]
        omega
    rw [hsplit, ih F hnd hmem, sum_indicator_nodup a F hnd,
      List.filter_cons]
    by_cases hQ : Q a = true
    · rw [if_pos hQ]
      have haf : a ∈ F := (hmem a).mpr hQ
      simp only [haf, if_true, List.length_cons]
    · rw [if_neg hQ]
      have haf : a ∉ F := fun h => hQ ((hmem a).mp h)
      simp [haf]

theorem length_filter_mono (P R : Oid → Bool) : ∀ (l : List Oid),
    (∀ x ∈ l, P x = true → R x = true) →
    (l.filter P).length ≤ (l.filter R).length := by
  intro l
  induction l with
  | nil => intro _; simp
  | cons a l' ih =>
    intro h
    have ih' := ih fun x hx => h x (List.mem_cons_of_mem _ hx)
    rw [List.filter_cons, List.filter_cons]
    by_cases hP : P a = true
    · rw [if_pos hP, if_pos (h a (List.mem_cons_self _ _) hP)]
      simpa using Nat.succ_le_succ ih'
    · rw [if_neg hP]
      by_cases hR : R a = true
      · rw [if_pos hR]
        simp only [List.length_cons]
        omega
      · rw [if_neg hR]
        exact ih'

theorem length_filter_split (h : Oid → Nat) (i : Nat) : ∀ (l : List Oid),
    (l.filter fun p => decide (i ≤ h p)).length =
      (l.filter fun p => decide (h p = i)).length +
      (l.filter fun p => decide (i + 1 ≤ h p)).length := by
  intro l
  induction l with
  | nil => rfl
  | cons a l' ih =>
    simp only [List.filter_cons]
    by_cases h1 : i ≤ h a
    · by_cases h2 : h a = i
      · rw [if_pos (by simpa using h1), if_pos (by simpa using h2),
          if_neg (by simp only [decide_eq_true_eq]; omega)]
        simp only [List.length_cons]
        omega
      · rw [if_pos (by simpa using h1), if_neg (by simpa using h2),
          if_pos (by simp only [decide_eq_true_eq]; omega)]
        simp only [List.length_cons]
        omega
    · rw [if_neg (by simpa using h1),
        if_neg (by simp only [decide_eq_true_eq]; omega),
        if_neg (by simp only [decide_eq_true_eq]; omega)]
      exact ih

theorem insDedup_mem (l : List Oid) (x y : Oid) :
    y ∈ CommitsGraph.insDedup l x ↔ (y ∈ l ∨ y = x) := by
  unfold CommitsGraph.insDedup
  by_cases hx : x ∈ l
  · rw [if_pos hx]
    constructor
    · exact Or.inl
    · rintro (h | h)
      · exact h
      · rw [h]; exact hx
  · rw [if_neg hx]
    simp [List.mem_append]

theorem insDedup_nodup (l : List Oid) (x : Oid) (h : l.Nodup) :
    (CommitsGraph.insDedup l x).Nodup := by
  unfold CommitsGraph.insDedup
  by_cases hx : x ∈ l
  · rw [if_pos hx]; exact h
  · rw [if_neg hx]
    rw [List.nodup_append]
    exact ⟨h, List.nodup_singleton x, fun a ha hb => by
      rw [List.mem_singleton] at hb
      subst hb
      exact hx ha⟩

theorem foldl_insDedup_mem : ∀ (l acc : List Oid) (y : Oid),
    y ∈ l.foldl CommitsGraph.insDedup acc ↔ (y ∈ acc ∨ y ∈ l) := by
  intro l
  induction l with
  | nil => intro acc y; simp
  | cons a l' ih =>
    intro acc y
    rw [List.foldl_cons, ih, insDedup_mem]
    simp only [List.mem_cons]
    tauto

theorem foldl_insDedup_nodup : ∀ (l acc : List Oid), acc.Nodup →
    (l.foldl CommitsGraph.insDedup acc).Nodup := by
  intro l
  induction l with
  | nil => intro acc h; exact h
  | cons a l' ih =>
    intro acc h
    exact ih _ (insDedup_nodup acc a h)

theorem peelVisit_fold : ∀ (es : List Oid) (f : Oid → Nat) (nx : List Oid),
    (∀ o, es.count o ≤ f o) →
    nx.Nodup →
    (∀ o ∈ nx, f o = 0) →
    (∀ o, (es.foldl CommitsGraph.peelVisit (f, nx)).1 o = f o - es.count o) ∧
    (es.foldl CommitsGraph.peelVisit (f, nx)).2.Nodup ∧
    (∀ o, o ∈ (es.foldl CommitsGraph.peelVisit (f, nx)).2 ↔
      (o ∈ nx ∨ (1 ≤ f o ∧ es.count o = f o))) := by
  intro es
  induction es with
  | nil =>
    intro f nx hcnt hnd hzero
    refine ⟨fun o => by simp, hnd, fun o => ?_⟩
    simp only [List.foldl_nil, List.count_nil]
    constructor
    · exact Or.inl
    · rintro (h | ⟨h1, h2⟩)
      · exact h
      · omega
  | cons c es' ih =>
    intro f nx hcnt hnd hzero
    have hcc : es'.count c + 1 ≤ f c := by
      have := hcnt c
      rw [List.count_cons_self] at this
      exact this
    have hfc : ¬ f c = 0 := by omega
    have hdw : CommitsGraph.decWrap (f c) = f c - 1 := by
      unfold CommitsGraph.decWrap
      rw [if_neg hfc]
    have hpv : CommitsGraph.peelVisit (f, nx) c =
        ((fun o => if o = c then f c - 1 else f o),
         (if f c = 1 then CommitsGraph.insDedup nx c else nx)) := by
      unfold CommitsGraph.peelVisit
      dsimp only
      congr 1
      · funext o
        by_cases hoc : o = c
        · rw [if_pos hoc, if_pos hoc, hdw]
        · rw [if_neg hoc, if_neg hoc]
      · rw [hdw]
        by_cases h1 : f c = 1
        · rw [if_pos (by omega : f c - 1 = 0), if_pos h1]
        · rw [if_neg (by omega : ¬ f c - 1 = 0), if_neg h1]
    have hcnt' : ∀ o, es'.count o ≤ (if o = c then f c - 1 else f o) := by
      intro o
      by_cases hoc : o = c
      · rw [if_pos hoc, hoc]
        omega
      · rw [if_neg hoc]
        have := hcnt o
        rw [List.count_cons_of_ne hoc] at this
        exact this
    have hm1 : ∀ o,
        (o ∈ (if f c = 1 then CommitsGraph.insDedup nx c else nx)) ↔
        (o ∈ nx ∨ (o = c ∧ f c = 1)) := by
      intro o
      by_cases h1 : f c = 1
      · rw [if_pos h1, insDedup_mem]
        constructor
        · rintro (h | h)
          · exact Or.inl h
          · exact Or.inr ⟨h, h1⟩
        · rintro (h | ⟨h, h2⟩)
          · exact Or.inl h
          · exact Or.inr h
      · rw [if_neg h1]
        constructor
        · exact Or.inl
        · rintro (h | ⟨h2, h3⟩)
          · exact h
          · exact absurd h3 h1
    have hnd1 : (if f c = 1 then CommitsGraph.insDedup nx c else nx).Nodup := by
      by_cases h1 : f c = 1
      · rw [if_pos h1]
        exact insDedup_nodup nx c hnd
      · rw [if_neg h1]
        exact hnd
    have hz1 : ∀ o ∈ (if f c = 1 then CommitsGraph.insDedup nx c else nx),
        (if o = c then f c - 1 else f o) = 0 := by
      intro o ho
      rw [hm1 o] at ho
      rcases ho with h | ⟨h2, h3⟩
      · have hz := hzero o h
        have hoc : ¬ o = c := fun he => hfc (he ▸ hz)
        rw [if_neg hoc]
        exact hz
      · rw [if_pos h2]
        omega
    obtain ⟨ihf, ihnd, ihmem⟩ :=
      ih (fun o => if o = c then f c - 1 else f o)
        (if f c = 1 then CommitsGraph.insDedup nx c else nx) hcnt' hnd1 hz1
    rw [List.foldl_cons, hpv]
    refine ⟨fun o => ?_, ihnd, fun o => ?_⟩
    · rw [ihf o]
      show (if o = c then f c - 1 else f o) - es'.count o
        = f o - (c :: es').count o
      by_cases hoc : o = c
      · rw [if_pos hoc, hoc, List.count_cons_self]
        omega
      · rw [if_neg hoc, List.count_cons_of_ne hoc]
    · rw [ihmem o, hm1 o]
      show (o ∈ nx ∨ (o = c ∧ f c = 1)) ∨
        (1 ≤ (if o = c then f c - 1 else f o) ∧
          es'.count o = (if o = c then f c - 1 else f o)) ↔ _
      by_cases hoc : o = c
      · rw [if_pos hoc, hoc, List.count_cons_self]
        have hnc : c ∉ nx := fun h => hfc (hzero c h)
        constructor
        · rintro ((h | ⟨h1, h2⟩) | ⟨h1, h2⟩)
          · exact absurd h hnc
          · exact Or.inr ⟨by omega, by omega⟩
          · exact Or.inr ⟨by omega, by omega⟩
        · rintro (h | ⟨h1, h2⟩)
          · exact absurd h hnc
          · by_cases hone : f c = 1
            · exact Or.inl (Or.inr ⟨rfl, hone⟩)
            · exact Or.inr ⟨by omega, by omega⟩
      · rw [if_neg hoc, List.count_cons_of_ne hoc]
        constructor
        · rintro ((h | ⟨h1, h2⟩) | ⟨h1, h2⟩)
          · exact Or.inl h
          · exact absurd h1 hoc
          · exact Or.inr ⟨h1, h2⟩
        · rintro (h | ⟨h1, h2⟩)
          · exact Or.inl (Or.inl h)
          · exact Or.inr ⟨h1, h2⟩

/-- Loop invariant of `CalculateMaxDepth` at the start of level `i`: every
pending parent count only counts parents of height at least `i`, and the
frontier is exactly the set of commits of height `i`. -/
def Stage (cs : List (Oid × List Oid)) (rank : Oid → Nat) (i : Nat)
    (pl : Oid → Nat) (frontier : List Oid) : Prop :=
  (∀ o, pl o = ((parentsOf cs o).filter
    fun p => decide (i ≤ hgtR cs rank p)).length) ∧
  frontier.Nodup ∧
  (∀ o, o ∈ frontier ↔ (o ∈ keysOf cs ∧ hgtR cs rank o = i))

theorem count_es {cs : List (Oid × List Oid)} {rank : Oid → Nat}
    (hnd : (keysOf cs).Nodup)
    (hcl : ∀ pr ∈ cs, ∀ p ∈ pr.2, p ∈ keysOf cs)
    (hlt : ∀ pr ∈ cs, pr.2.length < U32)
    (i : Nat) (frontier : List Oid) (hfnd : frontier.Nodup)
    (hfm : ∀ p, p ∈ frontier ↔ (p ∈ keysOf cs ∧ hgtR cs rank p = i))
    (o : Oid) :
    (frontier.flatMap (CommitsGraph.chl (buildGraph cs))).count o =
      ((parentsOf cs o).filter
        fun p => decide (hgtR cs rank p = i)).length := by
  rw [count_flatMap]
  have hmap : (frontier.map
      fun p => (CommitsGraph.chl (buildGraph cs) p).count o) =
      frontier.map fun p => (parentsOf cs o).count p := by
    apply List.map_congr_left
    intro p _
    show chlcnt (buildGraph cs).mapOidNode p o = _
    exact buildGraph_cnt cs hnd hlt p o
  rw [hmap, sum_counts (parentsOf cs o)
    (fun p => decide (p ∈ keysOf cs ∧ hgtR cs rank p = i)) frontier hfnd
    (fun p => by rw [hfm p, decide_eq_true_eq])]
  congr 1
  apply List.filter_congr
  intro x hx
  have hk : x ∈ keysOf cs := keys_parent hcl o x hx
  by_cases hh : hgtR cs rank x = i <;> simp [hh, hk]

theorem stage_step {cs : List (Oid × List Oid)} {rank : Oid → Nat}
    (hnd : (keysOf cs).Nodup)
    (hcl : ∀ pr ∈ cs, ∀ p ∈ pr.2, p ∈ keysOf cs)
    (hrk : ∀ pr ∈ cs, ∀ p ∈ pr.2, rank p < rank pr.1)
    (hlt : ∀ pr ∈ cs, pr.2.length < U32)
    (i : Nat) (hi : 1 ≤ i) (pl : Oid → Nat) (frontier : List Oid)
    (hst : Stage cs rank i pl frontier) :
    Stage cs rank (i + 1)
      (CommitsGraph.levelStep (CommitsGraph.chl (buildGraph cs)) pl
        frontier).1
      (CommitsGraph.levelStep (CommitsGraph.chl (buildGraph cs)) pl
        frontier).2 := by
  obtain ⟨hpl, hfnd, hfm⟩ := hst
  have hcount := count_es hnd hcl hlt i frontier hfnd hfm
  have hsplit : ∀ o, ((parentsOf cs o).filter
      fun p => decide (i ≤ hgtR cs rank p)).length =
      ((parentsOf cs o).filter
        fun p => decide (hgtR cs rank p = i)).length +
      ((parentsOf cs o).filter
        fun p => decide (i + 1 ≤ hgtR cs rank p)).length :=
    fun o => length_filter_split (hgtR cs rank) i (parentsOf cs o)
  have hle : ∀ o,
      (frontier.flatMap (CommitsGraph.chl (buildGraph cs))).count o ≤ pl o := by
    intro o
    rw [hcount o, hpl o, hsplit o]
    omega
  obtain ⟨hf, hnd2, hmem⟩ := peelVisit_fold
    (frontier.flatMap (CommitsGraph.chl (buildGraph cs))) pl []
    hle List.nodup_nil (fun o h => absurd h (List.not_mem_nil o))
  refine ⟨fun o => ?_, hnd2, fun o => ?_⟩
  · show (((frontier.flatMap (CommitsGraph.chl (buildGraph cs))).foldl
      CommitsGraph.peelVisit (pl, []))).1 o = _
    rw [hf o, hcount o, hpl o, hsplit o]
    omega
  · show o ∈ (((frontier.flatMap (CommitsGraph.chl (buildGraph cs))).foldl
      CommitsGraph.peelVisit (pl, []))).2 ↔ _
    rw [hmem o]
    simp only [List.not_mem_nil, false_or]
    rw [hcount o, hpl o, hsplit o]
    constructor
    · rintro ⟨h1, h2⟩
      have hb : ((parentsOf cs o).filter
          fun p => decide (i + 1 ≤ hgtR cs rank p)).length = 0 := by omega
      have ha : 1 ≤ ((parentsOf cs o).filter
          fun p => decide (hgtR cs rank p = i)).length := by omega
      have hfa : ∃ p ∈ parentsOf cs o, hgtR cs rank p = i := by
        have hne : (parentsOf cs o).filter
            (fun p => decide (hgtR cs rank p = i)) ≠ [] := by
          intro hq
          rw [hq] at ha
          simp at ha
        obtain ⟨p, hp⟩ := List.exists_mem_of_ne_nil _ hne
        have := List.mem_filter.mp hp
        exact ⟨p, this.1, of_decide_eq_true this.2⟩
      obtain ⟨p0, hp0, hp0h⟩ := hfa
      have hok : o ∈ keysOf cs :=
        parentsOf_ne_nil_mem cs o (List.ne_nil_of_mem hp0)
      refine ⟨hok, ?_⟩
      rw [hgt_fix hrk o]
      have hub : ((parentsOf cs o).map (hgtR cs rank)).foldl max 0 ≤ i := by
        rw [foldl_max_le]
        refine ⟨Nat.zero_le i, fun x hx => ?_⟩
        obtain ⟨p, hp, hpx⟩ := List.mem_map.mp hx
        by_contra hgt
        have : decide (i + 1 ≤ hgtR cs rank p) = true := by
          rw [decide_eq_true_eq]
          omega
        have hmemf : p ∈ (parentsOf cs o).filter
            (fun p => decide (i + 1 ≤ hgtR cs rank p)) :=
          List.mem_filter.mpr ⟨hp, this⟩
        have := List.length_pos.mpr (List.ne_nil_of_mem hmemf)
        omega
      have hlb : i ≤ ((parentsOf cs o).map (hgtR cs rank)).foldl max 0 := by
        have := (le_foldl_max ((parentsOf cs o).map (hgtR cs rank)) 0).2
          (hgtR cs rank p0) (List.mem_map_of_mem _ hp0)
        omega
      omega
    · rintro ⟨hok, hh⟩
      rw [hgt_fix hrk o] at hh
      have hfold : ((parentsOf cs o).map (hgtR cs rank)).foldl max 0 = i := by
        omega
      have hb : ((parentsOf cs o).filter
          fun p => decide (i + 1 ≤ hgtR cs rank p)).length = 0 := by
        rw [List.length_eq_zero]
        rw [List.filter_eq_nil_iff]
        intro p hp
        rw [decide_eq_true_eq]
        have := (le_foldl_max ((parentsOf cs o).map (hgtR cs rank)) 0).2
          (hgtR cs rank p) (List.mem_map_of_mem _ hp)
        omega
      have ha : 1 ≤ ((parentsOf cs o).filter
          fun p => decide (hgtR cs rank p = i)).length := by
        rcases foldl_max_mem ((parentsOf cs o).map (hgtR cs rank)) 0 with
          h0 | hm
        · omega
        · rw [hfold] at hm
          obtain ⟨p, hp, hpi⟩ := List.mem_map.mp hm
          have hmemf : p ∈ (parentsOf cs o).filter
              (fun p => decide (hgtR cs rank p = i)) :=
            List.mem_filter.mpr ⟨hp, by rw [decide_eq_true_eq]; exact hpi⟩
          exact List.length_pos.mpr (List.ne_nil_of_mem hmemf)
      exact ⟨by omega, by omega⟩

theorem stage_init {cs : List (Oid × List Oid)} {rank : Oid → Nat}
    (hnd : (keysOf cs).Nodup)
    (hrk : ∀ pr ∈ cs, ∀ p ∈ pr.2, rank p < rank pr.1)
    (hlt : ∀ pr ∈ cs, pr.2.length < U32) :
    Stage cs rank 1 (CommitsGraph.plOf (buildGraph cs))
      ((buildGraph cs).roots.foldl CommitsGraph.insDedup []) := by
  refine ⟨fun o => ?_, foldl_insDedup_nodup _ _ List.nodup_nil, fun o => ?_⟩
  · show plA (buildGraph cs).mapOidNode o = _
    rw [buildGraph_pl cs hnd o]
    have hall : (parentsOf cs o).filter
        (fun p => decide (1 ≤ hgtR cs rank p)) = parentsOf cs o := by
      apply List.filter_eq_self.mpr
      intro p _
      rw [decide_eq_true_eq]
      exact one_le_hgtR cs rank p
    rw [hall]
    cases hl : lookupA cs o with
    | none =>
      unfold parentsOf
      rw [hl]
      rfl
    | some ps =>
      unfold parentsOf
      rw [hl]
      exact Nat.mod_eq_of_lt (hlt (o, ps) (lookupA_mem hl))
  · rw [foldl_insDedup_mem]
    simp only [List.not_mem_nil, false_or]
    rw [buildGraph_roots cs hnd hlt o]
    constructor
    · rintro ⟨hk, hp⟩
      exact ⟨hk, (hgtR_eq_one_iff hrk o).mpr hp⟩
    · rintro ⟨hk, hh⟩
      exact ⟨hk, (hgtR_eq_one_iff hrk o).mp hh⟩

/-- A parent→child chain of commits: consecutive elements are related by
"is listed as a parent of", and the endpoint is a commit of the build list. -/
def chainB (cs : List (Oid × List Oid)) : List Oid → Bool
  | [] => false
  | [v] => decide (v ∈ keysOf cs)
  | v :: w :: rest => decide (v ∈ parentsOf cs w) && chainB cs (w :: rest)

theorem chainB_singleton (cs : List (Oid × List Oid)) (v : Oid) :
    chainB cs [v] = true ↔ v ∈ keysOf cs := by
  simp [chainB]

theorem chainB_cons_cons (cs : List (Oid × List Oid)) (v w : Oid)
    (rest : List Oid) :
    chainB cs (v :: w :: rest) = true ↔
      (v ∈ parentsOf cs w ∧ chainB cs (w :: rest) = true) := by
  simp [chainB]

theorem chainB_last_mem (cs : List (Oid × List Oid)) :
    ∀ l z, chainB cs l = true → l.getLast? = some z → z ∈ keysOf cs := by
  intro l
  induction l with
  | nil =>
    intro z hc _
    simp [chainB] at hc
  | cons a t ih =>
    intro z hc hz
    cases t with
    | nil =>
      have hza : z = a := by
        simp at hz
        exact hz.symm
      subst hza
      exact (chainB_singleton cs z).mp hc
    | cons b t' =>
      rw [List.getLast?_cons_cons] at hz
      exact ih z ((chainB_cons_cons cs a b t').mp hc).2 hz

theorem getLast?_snoc : ∀ (l : List Oid) (a : Oid),
    (l ++ [a]).getLast? = some a := by
  intro l a
  induction l with
  | nil => rfl
  | cons b t ih =>
    cases t with
    | nil => rfl
    | cons c t' =>
      show (b :: c :: (t' ++ [a])).getLast? = some a
      rw [List.getLast?_cons_cons]
      exact ih

theorem chainB_append_one (cs : List (Oid × List Oid)) :
    ∀ (l : List Oid) (p o : Oid), chainB cs l = true →
      l.getLast? = some p → p ∈ parentsOf cs o → o ∈ keysOf cs →
      chainB cs (l ++ [o]) = true := by
  intro l
  induction l with
  | nil =>
    intro p o hc _ _ _
    simp [chainB] at hc
  | cons a t ih =>
    intro p o hc hlast hpo hok
    cases t with
    | nil =>
      have hpa : p = a := by
        simp at hlast
        exact hlast.symm
      subst hpa
      show chainB cs [p, o] = true
      rw [chainB_cons_cons]
      exact ⟨hpo, (chainB_singleton cs o).mpr hok⟩
    | cons b t' =>
      rw [List.getLast?_cons_cons] at hlast
      have hc' := (chainB_cons_cons cs a b t').mp hc
      show chainB cs (a :: b :: (t' ++ [o])) = true
      rw [chainB_cons_cons]
      exact ⟨hc'.1, ih p o hc'.2 hlast hpo hok⟩

theorem chain_base {cs : List (Oid × List Oid)} {rank : Oid → Nat}
    (hrk : ∀ pr ∈ cs, ∀ p ∈ pr.2, rank p < rank pr.1)
    (o : Oid) (hok : o ∈ keysOf cs) (hp : parentsOf cs o = []) :
    ∃ l : List Oid, chainB cs l = true ∧
      (∀ v, l.head? = some v → parentsOf cs v = []) ∧
      l.getLast? = some o ∧
      l.length = hgtR cs rank o ∧
      l.Nodup ∧
      (∀ x ∈ l, x ∈ keysOf cs) ∧
      (∀ x ∈ l, hgtR cs rank x ≤ hgtR cs rank o) ∧
      (∀ i, 1 ≤ i → i ≤ hgtR cs rank o → ∃ x ∈ l, hgtR cs rank x = i) := by
  have hone : hgtR cs rank o = 1 := (hgtR_eq_one_iff hrk o).mpr hp
  refine ⟨[o], (chainB_singleton cs o).mpr hok, ?_, rfl, ?_,
    List.nodup_singleton o, ?_, ?_, ?_⟩
  · intro v hv
    have : v = o := by
      simp at hv
      exact hv.symm
    subst this
    exact hp
  · rw [hone]
    rfl
  · intro x hx
    rw [List.mem_singleton] at hx
    subst hx
    exact hok
  · intro x hx
    rw [List.mem_singleton] at hx
    subst hx
    exact le_refl _
  · intro i hi1 hio
    rw [hone] at hio
    refine ⟨o, List.mem_singleton_self o, ?_⟩
    omega

theorem chain_to {cs : List (Oid × List Oid)} {rank : Oid → Nat}
    (hrk : ∀ pr ∈ cs, ∀ p ∈ pr.2, rank p < rank pr.1)
    (hcl : ∀ pr ∈ cs, ∀ p ∈ pr.2, p ∈ keysOf cs) :
    ∀ (r : Nat) (o : Oid), rank o ≤ r → o ∈ keysOf cs →
      ∃ l : List Oid, chainB cs l = true ∧
        (∀ v, l.head? = some v → parentsOf cs v = []) ∧
        l.getLast? = some o ∧
        l.length = hgtR cs rank o ∧
        l.Nodup ∧
        (∀ x ∈ l, x ∈ keysOf cs) ∧
        (∀ x ∈ l, hgtR cs rank x ≤ hgtR cs rank o) ∧
        (∀ i, 1 ≤ i → i ≤ hgtR cs rank o → ∃ x ∈ l, hgtR cs rank x = i) := by
  intro r
  induction r with
  | zero =>
    intro o hro hok
    have hp : parentsOf cs o = [] := by
      rw [List.eq_nil_iff_forall_not_mem]
      intro p hp
      have := rank_parent hrk o p hp
      omega
    exact chain_base hrk o hok hp
  | succ r' ih =>
    intro o hro hok
    by_cases hp : parentsOf cs o = []
    · exact chain_base hrk o hok hp
    · have h1 : hgtR cs rank o =
          ((parentsOf cs o).map (hgtR cs rank)).foldl max 0 + 1 :=
        hgt_fix hrk o
      obtain ⟨p0, hp0⟩ := List.exists_mem_of_ne_nil _ hp
      have hfpos : 1 ≤ ((parentsOf cs o).map (hgtR cs rank)).foldl max 0 := by
        have hle := (le_foldl_max ((parentsOf cs o).map (hgtR cs rank)) 0).2
          (hgtR cs rank p0) (List.mem_map_of_mem _ hp0)
        have := one_le_hgtR cs rank p0
        omega
      rcases foldl_max_mem ((parentsOf cs o).map (hgtR cs rank)) 0 with
        h0 | hm
      · omega
      · obtain ⟨p, hpp, hpm⟩ := List.mem_map.mp hm
        have hrkp : rank p < rank o := rank_parent hrk o p hpp
        have hpk : p ∈ keysOf cs := keys_parent hcl o p hpp
        obtain ⟨l', hc', hh', hl', hlen', hnd', hmem', hhgt', hcont'⟩ :=
          ih p (by omega) hpk
        have hghp : hgtR cs rank o = hgtR cs rank p + 1 := by
          rw [h1, ← hpm]
        have hne' : l' ≠ [] := by
          intro h
          rw [h] at hlen'
          have := one_le_hgtR cs rank p
          simp at hlen'
          omega
        refine ⟨l' ++ [o], ?_, ?_, getLast?_snoc l' o, ?_, ?_, ?_, ?_, ?_⟩
        · exact chainB_append_one cs l' p o hc' hl' hpp hok
        · intro v hv
          cases l' with
          | nil => exact absurd rfl hne'
          | cons a t =>
            have hva : a = v := by
              have hh2 : ((a :: t) ++ [o]).head? = some a := rfl
              rw [hh2] at hv
              exact Option.some.inj hv
            rw [← hva]
            exact hh' a rfl
        · rw [List.length_append, hlen', hghp]
          rfl
        · rw [List.nodup_append]
          refine ⟨hnd', List.nodup_singleton o, fun x hx hxo => ?_⟩
          rw [List.mem_singleton] at hxo
          subst hxo
          have := hhgt' x hx
          omega
        · intro x hx
          rcases List.mem_append.mp hx with h | h
          · exact hmem' x h
          · rw [List.mem_singleton] at h
            subst h
            exact hok
        · intro x hx
          rcases List.mem_append.mp hx with h | h
          · have := hhgt' x h
            omega
          · rw [List.mem_singleton] at h
            subst h
            exact le_refl _
        · intro i hi1 hio
          by_cases hi : i = hgtR cs rank o
          · exact ⟨o, List.mem_append_right _ (List.mem_singleton_self o),
              hi.symm⟩
          · have : i ≤ hgtR cs rank p := by omega
            obtain ⟨x, hx, hxh⟩ := hcont' i hi1 this
            exact ⟨x, List.mem_append_left _ hx, hxh⟩

/-- The tallest commit height of the build list. -/
def maxHgt (cs : List (Oid × List Oid)) (rank : Oid → Nat) : Nat :=
  ((keysOf cs).map (hgtR cs rank)).foldl max 0

theorem hgtR_le_maxHgt (cs : List (Oid × List Oid)) (rank : Oid → Nat)
    (o : Oid) (hok : o ∈ keysOf cs) : hgtR cs rank o ≤ maxHgt cs rank :=
  (le_foldl_max ((keysOf cs).map (hgtR cs rank)) 0).2 _
    (List.mem_map_of_mem _ hok)

theorem maxHgt_attained {cs : List (Oid × List Oid)} {rank : Oid → Nat}
    (h1 : 1 ≤ maxHgt cs rank) :
    ∃ o ∈ keysOf cs, hgtR cs rank o = maxHgt cs rank := by
  rcases foldl_max_mem ((keysOf cs).map (hgtR cs rank)) 0 with h0 | hm
  · unfold maxHgt at h1
    omega
  · obtain ⟨o, ho, hoeq⟩ := List.mem_map.mp hm
    exact ⟨o, ho, hoeq⟩

theorem contiguity {cs : List (Oid × List Oid)} {rank : Oid → Nat}
    (hrk : ∀ pr ∈ cs, ∀ p ∈ pr.2, rank p < rank pr.1)
    (hcl : ∀ pr ∈ cs, ∀ p ∈ pr.2, p ∈ keysOf cs)
    (i : Nat) (hi : 1 ≤ i) (hiH : i ≤ maxHgt cs rank) :
    ∃ o ∈ keysOf cs, hgtR cs rank o = i := by
  obtain ⟨om, homk, hom⟩ := maxHgt_attained (le_trans hi hiH)
  obtain ⟨l, hc, hh, hl, hlen, hnd, hmem, hhgt, hcont⟩ :=
    chain_to hrk hcl (rank om) om (le_refl _) homk
  obtain ⟨x, hx, hxh⟩ := hcont i hi (by rw [hom]; exact hiH)
  exact ⟨x, hmem x hx, hxh⟩

theorem maxHgt_le {cs : List (Oid × List Oid)} {rank : Oid → Nat}
    (hrk : ∀ pr ∈ cs, ∀ p ∈ pr.2, rank p < rank pr.1)
    (hcl : ∀ pr ∈ cs, ∀ p ∈ pr.2, p ∈ keysOf cs) :
    maxHgt cs rank ≤ cs.length := by
  by_cases h1 : 1 ≤ maxHgt cs rank
  · obtain ⟨om, homk, hom⟩ := maxHgt_attained h1
    obtain ⟨l, hc, hh, hl, hlen, hnd, hmem, hhgt, hcont⟩ :=
      chain_to hrk hcl (rank om) om (le_refl _) homk
    have hsub : l ⊆ keysOf cs := fun x hx => hmem x hx
    have hle := (List.subperm_of_subset hnd hsub).length_le
    rw [hlen, hom] at hle
    unfold keysOf at hle
    rw [List.length_map] at hle
    exact hle
  · omega

theorem peel_stage {cs : List (Oid × List Oid)} {rank : Oid → Nat}
    (hnd : (keysOf cs).Nodup)
    (hcl : ∀ pr ∈ cs, ∀ p ∈ pr.2, p ∈ keysOf cs)
    (hrk : ∀ pr ∈ cs, ∀ p ∈ pr.2, rank p < rank pr.1)
    (hlt : ∀ pr ∈ cs, pr.2.length < U32)
    (hH : maxHgt cs rank < U32) :
    ∀ (k i : Nat) (pl : Oid → Nat) (frontier : List Oid),
      1 ≤ i → i + k = maxHgt cs rank + 1 →
      Stage cs rank i pl frontier →
      ∀ fuel, k + 1 ≤ fuel →
      CommitsGraph.peel (CommitsGraph.chl (buildGraph cs)) fuel pl frontier
        = maxHgt cs rank + 1 - i := by
  intro k
  induction k with
  | zero =>
    intro i pl frontier hi hik hst fuel hfuel
    obtain ⟨hpl, hfnd, hfm⟩ := hst
    have hfe : frontier = [] := by
      rw [List.eq_nil_iff_forall_not_mem]
      intro o ho
      obtain ⟨hok, hh⟩ := (hfm o).mp ho
      have hle := hgtR_le_maxHgt cs rank o hok
      omega
    cases fuel with
    | zero => omega
    | succ f =>
      show (if frontier = [] then 0 else
        (1 + CommitsGraph.peel (CommitsGraph.chl (buildGraph cs)) f
          (CommitsGraph.levelStep (CommitsGraph.chl (buildGraph cs)) pl
            frontier).1
          (CommitsGraph.levelStep (CommitsGraph.chl (buildGraph cs)) pl
            frontier).2) % U32) = _
      rw [if_pos hfe]
      omega
  | succ k' ih =>
    intro i pl frontier hi hik hst fuel hfuel
    have hiH : i ≤ maxHgt cs rank := by omega
    obtain ⟨o0, ho0k, ho0⟩ := contiguity hrk hcl i hi hiH
    have hfne : frontier ≠ [] :=
      List.ne_nil_of_mem ((hst.2.2 o0).mpr ⟨ho0k, ho0⟩)
    cases fuel with
    | zero => omega
    | succ f =>
      have hstep := stage_step hnd hcl hrk hlt i hi pl frontier hst
      have hih := ih (i + 1) _ _ (by omega) (by omega) hstep f (by omega)
      show (if frontier = [] then 0 else
        (1 + CommitsGraph.peel (CommitsGraph.chl (buildGraph cs)) f
          (CommitsGraph.levelStep (CommitsGraph.chl (buildGraph cs)) pl
            frontier).1
          (CommitsGraph.levelStep (CommitsGraph.chl (buildGraph cs)) pl
            frontier).2) % U32) = _
      rw [if_neg hfne, hih]
      have heq : 1 + (maxHgt cs rank + 1 - (i + 1)) =
          maxHgt cs rank + 1 - i := by omega
      rw [heq]
      exact Nat.mod_eq_of_lt (by omega)

theorem chain_le {cs : List (Oid × List Oid)} {rank : Oid → Nat}
    (hrk : ∀ pr ∈ cs, ∀ p ∈ pr.2, rank p < rank pr.1) :
    ∀ (l : List Oid), chainB cs l = true →
      ∀ v, l.head? = some v → ∀ z, l.getLast? = some z →
      l.length + hgtR cs rank v ≤ hgtR cs rank z + 1 := by
  intro l
  induction l with
  | nil =>
    intro hc
    simp [chainB] at hc
  | cons a t ih =>
    intro hc v hv z hz
    have hva : a = v := Option.some.inj hv
    subst hva
    cases t with
    | nil =>
      have hza : z = a := by
        simp at hz
        exact hz.symm
      subst hza
      simp only [List.length_cons, List.length_nil]
      omega
    | cons b t' =>
      have hc' := (chainB_cons_cons cs a b t').mp hc
      rw [List.getLast?_cons_cons] at hz
      have hih := ih hc'.2 b rfl z hz
      have hab : hgtR cs rank a < hgtR cs rank b :=
        hgtR_parent_lt hrk b a hc'.1
      simp only [List.length_cons] at hih ⊢
      omega

/-- A longest-path candidate of the claim: a chain whose first commit is
parentless and whose last commit is no one's parent.  Its length is the
number of vertices on the path. -/
def RootSinkPath (cs : List (Oid × List Oid)) (l : List Oid) : Prop :=
  chainB cs l = true ∧
  (∀ v, l.head? = some v → parentsOf cs v = []) ∧
  (∀ v, l.getLast? = some v → ∀ c, v ∉ parentsOf cs c)

theorem rootSink_length_le {cs : List (Oid × List Oid)} {rank : Oid → Nat}
    (hrk : ∀ pr ∈ cs, ∀ p ∈ pr.2, rank p < rank pr.1)
    (l : List Oid) (h : RootSinkPath cs l) :
    l.length ≤ maxHgt cs rank := by
  obtain ⟨hc, hhead, _⟩ := h
  cases l with
  | nil => simp [chainB] at hc
  | cons a t =>
    obtain ⟨z, hz⟩ : ∃ z, (a :: t).getLast? = some z := by
      cases hzq : (a :: t).getLast? with
      | none =>
        rw [List.getLast?_eq_none_iff] at hzq
        exact absurd hzq (List.cons_ne_nil a t)
      | some z => exact ⟨z, rfl⟩
    have hle := chain_le hrk (a :: t) hc a rfl z hz
    have hroot : parentsOf cs a = [] := hhead a rfl
    have hha : hgtR cs rank a = 1 := (hgtR_eq_one_iff hrk a).mpr hroot
    have hzk : z ∈ keysOf cs := chainB_last_mem cs (a :: t) z hc hz
    have hzH := hgtR_le_maxHgt cs rank z hzk
    omega

theorem rootSink_attain {cs : List (Oid × List Oid)} {rank : Oid → Nat}
    (hrk : ∀ pr ∈ cs, ∀ p ∈ pr.2, rank p < rank pr.1)
    (hcl : ∀ pr ∈ cs, ∀ p ∈ pr.2, p ∈ keysOf cs)
    (hne : cs ≠ []) :
    ∃ l, RootSinkPath cs l ∧ l.length = maxHgt cs rank := by
  have hk : keysOf cs ≠ [] := by
    intro h
    apply hne
    unfold keysOf at h
    exact List.map_eq_nil_iff.mp h
  have h1 : 1 ≤ maxHgt cs rank := by
    obtain ⟨o1, ho1⟩ := List.exists_mem_of_ne_nil _ hk
    have hle := hgtR_le_maxHgt cs rank o1 ho1
    have := one_le_hgtR cs rank o1
    omega
  obtain ⟨om, homk, hom⟩ := maxHgt_attained h1
  obtain ⟨l, hc, hh, hl, hlen, hnd, hmem, hhgt, hcont⟩ :=
    chain_to hrk hcl (rank om) om (le_refl _) homk
  refine ⟨l, ⟨hc, hh, ?_⟩, by rw [hlen, hom]⟩
  intro v hv c hvc
  have hveq : v = om := by
    rw [hl] at hv
    exact (Option.some.inj hv).symm
  subst hveq
  have hck : c ∈ keysOf cs :=
    parentsOf_ne_nil_mem cs c (List.ne_nil_of_mem hvc)
  have hlt2 : hgtR cs rank v < hgtR cs rank c := hgtR_parent_lt hrk c v hvc
  have hcH := hgtR_le_maxHgt cs rank c hck
  omega

theorem calc_eq_maxHgt {cs : List (Oid × List Oid)} {rank : Oid → Nat}
    (hnd : (keysOf cs).Nodup)
    (hcl : ∀ pr ∈ cs, ∀ p ∈ pr.2, p ∈ keysOf cs)
    (hrk : ∀ pr ∈ cs, ∀ p ∈ pr.2, rank p < rank pr.1)
    (hlt : ∀ pr ∈ cs, pr.2.length < U32)
    (hlen : cs.length < U32) :
    CommitsGraph.CalculateMaxDepth (buildGraph cs) = maxHgt cs rank := by
  have hH : maxHgt cs rank < U32 :=
    lt_of_le_of_lt (maxHgt_le hrk hcl) hlen
  have hfuel : maxHgt cs rank + 1 ≤ (buildGraph cs).mapOidNode.length + 1 := by
    have h1 := maxHgt_le hrk hcl
    have h2 := buildGraph_len cs hnd
    omega
  have hpeel := peel_stage hnd hcl hrk hlt hH (maxHgt cs rank) 1
    (CommitsGraph.plOf (buildGraph cs))
    ((buildGraph cs).roots.foldl CommitsGraph.insDedup [])
    (le_refl 1) (by omega) (stage_init hnd hrk hlt)
    ((buildGraph cs).mapOidNode.length + 1) hfuel
  show CommitsGraph.peel _ _ _ _ = _
  rw [hpeel]
  omega

/-- The diamond history of the claim: root R = 0; A = 1 and B = 2 with
parent R; merge M = 3 with parents A and B. -/
def diamondCs : List (Oid × List Oid) :=
  [(0, []), (1, [0]), (2, [0]), (3, [1, 2])]

/-- C3: for every commit list fed to `AddNode` once per commit (`hnd`), closed
under parents (`hcl`) and acyclic (`hrk` exhibits a rank the parent relation
decreases), with parent counts and commit count below 2^32,
`CalculateMaxDepth` returns the greatest number of vertices on any path from
a parentless commit to a commit that is no one's parent; in particular it
returns 3 on the diamond history. -/
theorem c3_max_depth_longest_path (cs : List (Oid × List Oid))
    (rank : Oid → Nat)
    (hnd : (keysOf cs).Nodup)
    (hcl : ∀ pr ∈ cs, ∀ p ∈ pr.2, p ∈ keysOf cs)
    (hrk : ∀ pr ∈ cs, ∀ p ∈ pr.2, rank p < rank pr.1)
    (hlt : ∀ pr ∈ cs, pr.2.length < U32)
    (hlen : cs.length < U32)
    (hne : cs ≠ []) :
    IsGreatest {n | ∃ l, RootSinkPath cs l ∧ l.length = n}
      (CommitsGraph.CalculateMaxDepth (buildGraph cs)) ∧
    CommitsGraph.CalculateMaxDepth (buildGraph diamondCs) = 3 := by
  constructor
  · rw [calc_eq_maxHgt hnd hcl hrk hlt hlen]
    constructor
    · obtain ⟨l, hp, hl⟩ := rootSink_attain hrk hcl hne
      exact ⟨l, hp, hl⟩
    · intro n hn
      obtain ⟨l, hp, hl⟩ := hn
      rw [← hl]
      exact rootSink_length_le hrk l hp
  · decide

/-- Witness: the diamond history with the identity rank. -/
theorem c3_max_depth_longest_path_witness :
    IsGreatest {n | ∃ l, RootSinkPath diamondCs l ∧ l.length = n}
      (CommitsGraph.CalculateMaxDepth (buildGraph diamondCs)) ∧
    CommitsGraph.CalculateMaxDepth (buildGraph diamondCs) = 3 :=
  c3_max_depth_longest_path diamondCs (fun o => o) (by decide) (by decide)
    (by decide) (by decide) (by decide) (by decide)

/- ----------------------------------------------------------------
Claim C9 — roll-up purity/idempotence and whole-run determinism.
---------------------------------------------------------------- -/

/-- A one-tree table for exercising the roll-up twice. -/
def c9Blobs : List (Oid × Nat) := [(5, 7)]

def c9Trees : List (Oid × TreeDataAndStats) :=
  [(0, { entryBlobs := [5] })]

def c9TreesDone : List (Oid × TreeDataAndStats) :=
  [(0, { entryBlobs := [5],
         stats := { numDirectories := 1, maxPathDepth := 1,
                    totalFileSize := 7 },
         statsDone := true })]

def c9Entry : TreeDataAndStats :=
  { entryBlobs := [5],
    stats := { numDirectories := 1, maxPathDepth := 1, totalFileSize := 7 },
    statsDone := true }

/-- C9: the roll-up of a tree, once it has succeeded, is idempotent — a second
call returns the same statistics and leaves the trees table exactly as it
was — and the whole analysis is a pure function of the repository: two runs
over the same object database and enumeration produce equal reports. -/
theorem c9_rollup_pure_idempotent :
    (∀ (blobs : List (Oid × Nat)) (fuel fuel' : Nat)
      (t t' : List (Oid × TreeDataAndStats)) (o : Oid)
      (d' : TreeDataAndStats),
      RepoAnalysis.calculateTreeStatistics blobs fuel t o =
        Except.ok (t', d') →
      1 ≤ fuel' →
      RepoAnalysis.calculateTreeStatistics blobs fuel' t' o =
        Except.ok (t', d')) ∧
    (∀ (odb : Odb) (oids : List Oid) (numRefs : Nat)
      (r r' : Except Int Statistics),
      statisticsModel odb oids numRefs = r →
      statisticsModel odb oids numRefs = r' → r = r') := by
  constructor
  · intro blobs fuel fuel' t t' o d' h hf
    exact calculateTreeStatistics_idempotent blobs fuel fuel' t t' o d' h hf
  · intro odb oids numRefs r r' h1 h2
    rw [← h1, ← h2]

/-- Witness: rolling the one-tree table up twice. -/
theorem c9_rollup_pure_idempotent_witness :
    RepoAnalysis.calculateTreeStatistics c9Blobs 1 c9Trees 0 =
      Except.ok (c9TreesDone, c9Entry) ∧
    RepoAnalysis.calculateTreeStatistics c9Blobs 1 c9TreesDone 0 =
      Except.ok (c9TreesDone, c9Entry) :=
  ⟨by rfl, c9_rollup_pure_idempotent.1 c9Blobs 1 1 c9Trees c9TreesDone 0
    c9Entry (by rfl) (by decide)⟩

/- ----------------------------------------------------------------
Claim C7 — the report is a function of the contents only.
---------------------------------------------------------------- -/

/-- Category predicates of an object database, matching the branches of
`WorkerStoreOdbData::Execute` (empty trees are discarded there, so they are
not tree-category objects). -/
def isCommitB (odb : Odb) (o : Oid) : Bool :=
  match odb o with
  | some (ObjData.commit _ _ _) => true
  | _ => false

def isTreeB (odb : Odb) (o : Oid) : Bool :=
  match odb o with
  | some (ObjData.tree _ entries) => decide (entries.length ≠ 0)
  | _ => false

def isBlobB (odb : Odb) (o : Oid) : Bool :=
  match odb o with
  | some (ObjData.blob _) => true
  | _ => false

def isTagB (odb : Odb) (o : Oid) : Bool :=
  match odb o with
  | some (ObjData.tag _ _) => true
  | _ => false

/-- Field extractors (defaulted outside their category). -/
def cSize (odb : Odb) (o : Oid) : Nat :=
  match odb o with
  | some (ObjData.commit s _ _) => s
  | _ => 0

def cTree (odb : Odb) (o : Oid) : Oid :=
  match odb o with
  | some (ObjData.commit _ t _) => t
  | _ => 0

def cParents (odb : Odb) (o : Oid) : List Oid :=
  match odb o with
  | some (ObjData.commit _ _ ps) => ps
  | _ => []

def tSize (odb : Odb) (o : Oid) : Nat :=
  match odb o with
  | some (ObjData.tree s _) => s
  | _ => 0

def tEntries (odb : Odb) (o : Oid) : List TreeEntry :=
  match odb o with
  | some (ObjData.tree _ es) => es
  | _ => []

def bSize (odb : Odb) (o : Oid) : Nat :=
  match odb o with
  | some (ObjData.blob s) => s
  | _ => 0

def tagTD (odb : Odb) (o : Oid) : TagData :=
  match odb o with
  | some (ObjData.tag t ty) => { oidTarget := t, typeTarget := ty, depth := 0 }
  | _ => { oidTarget := 0, typeTarget := ObjType.invalid, depth := 0 }

/-- First-occurrence deduplication of the enumeration (each table's `emplace`
keeps only an oid's first appearance). -/
def dedupL (oids : List Oid) : List Oid :=
  oids.foldl CommitsGraph.insDedup []

/-- The state `workerPhase` reaches, written as a function of the
deduplicated enumeration. -/
def canonOf (odb : Odb) (dl : List Oid) : OdbObjectsInfo :=
  { commitsInfo := (dl.filter (isCommitB odb)).map fun o => (o, cTree odb o),
    graph := buildGraph
      ((dl.filter (isCommitB odb)).map fun o => (o, cParents odb o)),
    commitsTotalSize := ((dl.filter (isCommitB odb)).map (cSize odb)).sum,
    commitsMaxSize :=
      ((dl.filter (isCommitB odb)).map (cSize odb)).foldl max 0,
    commitsMaxParents := ((dl.filter (isCommitB odb)).map
      fun o => (cParents odb o).length).foldl max 0,
    treesInfo := (dl.filter (isTreeB odb)).map
      fun o => (o, WorkerStoreOdbData.thisTreeDataAndStats (tEntries odb o)),
    treesTotalSize := ((dl.filter (isTreeB odb)).map (tSize odb)).sum,
    treesTotalEntries := ((dl.filter (isTreeB odb)).map
      fun o => (tEntries odb o).length).sum,
    treesMaxEntries := ((dl.filter (isTreeB odb)).map
      fun o => (tEntries odb o).length).foldl max 0,
    blobsInfo := (dl.filter (isBlobB odb)).map fun o => (o, bSize odb o),
    blobsTotalSize := ((dl.filter (isBlobB odb)).map (bSize odb)).sum,
    blobsMaxSize := ((dl.filter (isBlobB odb)).map (bSize odb)).foldl max 0,
    tagsInfo := (dl.filter (isTagB odb)).map fun o => (o, tagTD odb o) }

theorem lookupA_mapKeys {α : Type} (g : Oid → α) : ∀ (ks : List Oid) (k : Oid),
    lookupA (ks.map fun o => (o, g o)) k =
      if k ∈ ks then some (g k) else none := by
  intro ks
  induction ks with
  | nil => intro k; simp [lookupA]
  | cons a t ih =>
    intro k
    show (if k = a then some (g a) else lookupA (t.map fun o => (o, g o)) k)
      = _
    by_cases hk : k = a
    · rw [if_pos hk, if_pos (by rw [hk]; exact List.mem_cons_self _ _), hk]
    · rw [if_neg hk, ih k]
      by_cases hm : k ∈ t
      · rw [if_pos hm, if_pos (List.mem_cons_of_mem _ hm)]
      · rw [if_neg hm, if_neg (by
          intro hc
          rcases List.mem_cons.mp hc with h | h
          · exact hk h
          · exact hm h)]

theorem dedupL_snoc (l : List Oid) (o : Oid) :
    dedupL (l ++ [o]) = CommitsGraph.insDedup (dedupL l) o := by
  unfold dedupL
  rw [List.foldl_append]
  rfl

theorem dedupL_mem (l : List Oid) (y : Oid) : y ∈ dedupL l ↔ y ∈ l := by
  unfold dedupL
  rw [foldl_insDedup_mem]
  simp

theorem dedupL_nodup (l : List Oid) : (dedupL l).Nodup :=
  foldl_insDedup_nodup l [] List.nodup_nil

theorem dedupL_length_le : ∀ (l : List Oid), (dedupL l).length ≤ l.length := by
  have hstep : ∀ (l : List Oid) (acc : List Oid),
      (l.foldl CommitsGraph.insDedup acc).length ≤ acc.length + l.length := by
    intro l
    induction l with
    | nil => intro acc; simp
    | cons a t ih =>
      intro acc
      rw [List.foldl_cons]
      have h1 := ih (CommitsGraph.insDedup acc a)
      have h2 : (CommitsGraph.insDedup acc a).length ≤ acc.length + 1 := by
        unfold CommitsGraph.insDedup
        by_cases hm : a ∈ acc
        · rw [if_pos hm]; omega
        · rw [if_neg hm]; simp
      simp only [List.length_cons]
      omega
  intro l
  have := hstep l []
  simpa using this

theorem dedupL_snoc_mem (l : List Oid) (o : Oid) (h : o ∈ l) :
    dedupL (l ++ [o]) = dedupL l := by
  rw [dedupL_snoc]
  unfold CommitsGraph.insDedup
  rw [if_pos ((dedupL_mem l o).mpr h)]

theorem dedupL_snoc_new (l : List Oid) (o : Oid) (h : o ∉ l) :
    dedupL (l ++ [o]) = dedupL l ++ [o] := by
  rw [dedupL_snoc]
  unfold CommitsGraph.insDedup
  rw [if_neg (fun hc => h ((dedupL_mem l o).mp hc))]

theorem filter_snoc_pos (P : Oid → Bool) (dl : List Oid) (o : Oid)
    (h : P o = true) : (dl ++ [o]).filter P = dl.filter P ++ [o] := by
  rw [List.filter_append]
  congr 1
  simp [h]

theorem filter_snoc_neg (P : Oid → Bool) (dl : List Oid) (o : Oid)
    (h : P o = false) : (dl ++ [o]).filter P = dl.filter P := by
  rw [List.filter_append]
  have he : [o].filter P = [] := by simp [h]
  rw [he, List.append_nil]

theorem canonOf_snoc_skip (odb : Odb) (dl : List Oid) (o : Oid)
    (hC : isCommitB odb o = false) (hT : isTreeB odb o = false)
    (hB : isBlobB odb o = false) (hG : isTagB odb o = false) :
    canonOf odb (dl ++ [o]) = canonOf odb dl := by
  unfold canonOf
  rw [filter_snoc_neg _ _ _ hC, filter_snoc_neg _ _ _ hT,
    filter_snoc_neg _ _ _ hB, filter_snoc_neg _ _ _ hG]

theorem canonOf_snoc_commit (odb : Odb) (dl : List Oid) (o : Oid)
    (hC : isCommitB odb o = true) (hT : isTreeB odb o = false)
    (hB : isBlobB odb o = false) (hG : isTagB odb o = false) :
    canonOf odb (dl ++ [o]) = { canonOf odb dl with
      commitsInfo := (canonOf odb dl).commitsInfo ++ [(o, cTree odb o)],
      graph := (canonOf odb dl).graph.AddNode o (cParents odb o),
      commitsTotalSize := (canonOf odb dl).commitsTotalSize + cSize odb o,
      commitsMaxSize := max (canonOf odb dl).commitsMaxSize (cSize odb o),
      commitsMaxParents := max (canonOf odb dl).commitsMaxParents
        (cParents odb o).length } := by
  unfold canonOf
  dsimp only
  rw [filter_snoc_pos _ _ _ hC, filter_snoc_neg _ _ _ hT,
    filter_snoc_neg _ _ _ hB, filter_snoc_neg _ _ _ hG]
  simp only [List.map_append, List.map_cons, List.map_nil, List.sum_append,
    List.sum_cons, List.sum_nil, List.foldl_append, List.foldl_cons,
    List.foldl_nil, Nat.add_zero, buildGraph_snoc]

theorem canonOf_snoc_tree (odb : Odb) (dl : List Oid) (o : Oid)
    (hC : isCommitB odb o = false) (hT : isTreeB odb o = true)
    (hB : isBlobB odb o = false) (hG : isTagB odb o = false) :
    canonOf odb (dl ++ [o]) = { canonOf odb dl with
      treesInfo := (canonOf odb dl).treesInfo ++
        [(o, WorkerStoreOdbData.thisTreeDataAndStats (tEntries odb o))],
      treesTotalSize := (canonOf odb dl).treesTotalSize + tSize odb o,
      treesTotalEntries := (canonOf odb dl).treesTotalEntries +
        (tEntries odb o).length,
      treesMaxEntries := max (canonOf odb dl).treesMaxEntries
        (tEntries odb o).length } := by
  unfold canonOf
  dsimp only
  rw [filter_snoc_neg _ _ _ hC, filter_snoc_pos _ _ _ hT,
    filter_snoc_neg _ _ _ hB, filter_snoc_neg _ _ _ hG]
  simp only [List.map_append, List.map_cons, List.map_nil, List.sum_append,
    List.sum_cons, List.sum_nil, List.foldl_append, List.foldl_cons,
    List.foldl_nil, Nat.add_zero]

theorem canonOf_snoc_blob (odb : Odb) (dl : List Oid) (o : Oid)
    (hC : isCommitB odb o = false) (hT : isTreeB odb o = false)
    (hB : isBlobB odb o = true) (hG : isTagB odb o = false) :
    canonOf odb (dl ++ [o]) = { canonOf odb dl with
      blobsInfo := (canonOf odb dl).blobsInfo ++ [(o, bSize odb o)],
      blobsTotalSize := (canonOf odb dl).blobsTotalSize + bSize odb o,
      blobsMaxSize := max (canonOf odb dl).blobsMaxSize (bSize odb o) } := by
  unfold canonOf
  dsimp only
  rw [filter_snoc_neg _ _ _ hC, filter_snoc_neg _ _ _ hT,
    filter_snoc_pos _ _ _ hB, filter_snoc_neg _ _ _ hG]
  simp only [List.map_append, List.map_cons, List.map_nil, List.sum_append,
    List.sum_cons, List.sum_nil, List.foldl_append, List.foldl_cons,
    List.foldl_nil, Nat.add_zero]

theorem canonOf_snoc_tag (odb : Odb) (dl : List Oid) (o : Oid)
    (hC : isCommitB odb o = false) (hT : isTreeB odb o = false)
    (hB : isBlobB odb o = false) (hG : isTagB odb o = true) :
    canonOf odb (dl ++ [o]) = { canonOf odb dl with
      tagsInfo := (canonOf odb dl).tagsInfo ++ [(o, tagTD odb o)] } := by
  unfold canonOf
  dsimp only
  rw [filter_snoc_neg _ _ _ hC, filter_snoc_neg _ _ _ hT,
    filter_snoc_neg _ _ _ hB, filter_snoc_pos _ _ _ hG]
  simp only [List.map_append, List.map_cons, List.map_nil]

theorem workerPhase_canon (odb : Odb) : ∀ (oids : List Oid),
    RepoAnalysis.workerPhase odb oids = canonOf odb (dedupL oids) := by
  intro oids
  induction oids using List.reverseRecOn with
  | nil => rfl
  | append_singleton l o ih =>
    have hstep : RepoAnalysis.workerPhase odb (l ++ [o]) =
        (WorkerStoreOdbData.Execute odb (RepoAnalysis.workerPhase odb l)
          o).getD (RepoAnalysis.workerPhase odb l) := by
      unfold RepoAnalysis.workerPhase
      rw [List.foldl_append]
      rfl
    rw [hstep, ih]
    by_cases hmem : o ∈ l
    · -- the oid was seen before: every branch of Execute is a no-op
      rw [dedupL_snoc_mem l o hmem]
      have hdm : o ∈ dedupL l := (dedupL_mem l o).mpr hmem
      cases hodb : odb o with
      | none =>
        simp only [WorkerStoreOdbData.Execute, hodb, Option.getD_none]
      | some od =>
        cases od with
        | commit s t ps =>
          have hCt : isCommitB odb o = true := by
            unfold isCommitB
            rw [hodb]
          have hlk : lookupA (canonOf odb (dedupL l)).commitsInfo o =
              some (cTree odb o) := by
            show lookupA (((dedupL l).filter (isCommitB odb)).map
              fun x => (x, cTree odb x)) o = _
            rw [lookupA_mapKeys]
            rw [if_pos (List.mem_filter.mpr ⟨hdm, hCt⟩)]
          simp only [WorkerStoreOdbData.Execute, hodb, emplaceA, hlk,
            Option.getD_some]
        | tree s entries =>
          by_cases hlen0 : entries.length = 0
          · simp only [WorkerStoreOdbData.Execute, hodb, hlen0, if_pos,
              Option.getD_some]
          · have hTt : isTreeB odb o = true := by
              unfold isTreeB
              rw [hodb]
              simp [hlen0]
            have hlk : lookupA (canonOf odb (dedupL l)).treesInfo o =
                some (WorkerStoreOdbData.thisTreeDataAndStats
                  (tEntries odb o)) := by
              show lookupA (((dedupL l).filter (isTreeB odb)).map
                fun x => (x, WorkerStoreOdbData.thisTreeDataAndStats
                  (tEntries odb x))) o = _
              rw [lookupA_mapKeys]
              rw [if_pos (List.mem_filter.mpr ⟨hdm, hTt⟩)]
            simp only [WorkerStoreOdbData.Execute, hodb, hlen0, if_neg,
              emplaceA, hlk, Option.getD_some, ite_false]
        | blob s =>
          have hBt : isBlobB odb o = true := by
            unfold isBlobB
            rw [hodb]
          have hlk : lookupA (canonOf odb (dedupL l)).blobsInfo o =
              some (bSize odb o) := by
            show lookupA (((dedupL l).filter (isBlobB odb)).map
              fun x => (x, bSize odb x)) o = _
            rw [lookupA_mapKeys]
            rw [if_pos (List.mem_filter.mpr ⟨hdm, hBt⟩)]
          simp only [WorkerStoreOdbData.Execute, hodb, emplaceA, hlk,
            Option.getD_some]
        | tag tgt ty =>
          have hGt : isTagB odb o = true := by
            unfold isTagB
            rw [hodb]
          have hlk : lookupA (canonOf odb (dedupL l)).tagsInfo o =
              some (tagTD odb o) := by
            show lookupA (((dedupL l).filter (isTagB odb)).map
              fun x => (x, tagTD odb x)) o = _
            rw [lookupA_mapKeys]
            rw [if_pos (List.mem_filter.mpr ⟨hdm, hGt⟩)]
          simp only [WorkerStoreOdbData.Execute, hodb, emplaceA, hlk,
            Option.getD_some]
        | other =>
          simp only [WorkerStoreOdbData.Execute, hodb, Option.getD_some]
    · -- a fresh oid: Execute inserts into exactly its category
      rw [dedupL_snoc_new l o hmem]
      have hdm : o ∉ dedupL l := fun hc => hmem ((dedupL_mem l o).mp hc)
      cases hodb : odb o with
      | none =>
        have hCf : isCommitB odb o = false := by unfold isCommitB; rw [hodb]
        have hTf : isTreeB odb o = false := by unfold isTreeB; rw [hodb]
        have hBf : isBlobB odb o = false := by unfold isBlobB; rw [hodb]
        have hGf : isTagB odb o = false := by unfold isTagB; rw [hodb]
        rw [canonOf_snoc_skip odb (dedupL l) o hCf hTf hBf hGf]
        simp only [WorkerStoreOdbData.Execute, hodb, Option.getD_none]
      | some od =>
        cases od with
        | commit s t ps =>
          have hCt : isCommitB odb o = true := by unfold isCommitB; rw [hodb]
          have hTf : isTreeB odb o = false := by unfold isTreeB; rw [hodb]
          have hBf : isBlobB odb o = false := by unfold isBlobB; rw [hodb]
          have hGf : isTagB odb o = false := by unfold isTagB; rw [hodb]
          have hct : cTree odb o = t := by unfold cTree; rw [hodb]
          have hcs : cSize odb o = s := by unfold cSize; rw [hodb]
          have hcp : cParents odb o = ps := by unfold cParents; rw [hodb]
          rw [canonOf_snoc_commit odb (dedupL l) o hCt hTf hBf hGf,
            hct, hcs, hcp]
          have hlk : lookupA (canonOf odb (dedupL l)).commitsInfo o =
              none := by
            show lookupA (((dedupL l).filter (isCommitB odb)).map
              fun x => (x, cTree odb x)) o = _
            rw [lookupA_mapKeys]
            rw [if_neg (fun hc => hdm (List.mem_filter.mp hc).1)]
          simp only [WorkerStoreOdbData.Execute, hodb, emplaceA, hlk,
            Option.getD_some]
        | tree s entries =>
          by_cases hlen0 : entries.length = 0
          · have hCf : isCommitB odb o = false := by
              unfold isCommitB; rw [hodb]
            have hTf : isTreeB odb o = false := by
              unfold isTreeB
              rw [hodb]
              simp [hlen0]
            have hBf : isBlobB odb o = false := by unfold isBlobB; rw [hodb]
            have hGf : isTagB odb o = false := by unfold isTagB; rw [hodb]
            rw [canonOf_snoc_skip odb (dedupL l) o hCf hTf hBf hGf]
            simp only [WorkerStoreOdbData.Execute, hodb, hlen0, if_pos,
              Option.getD_some]
          · have hCf : isCommitB odb o = false := by
              unfold isCommitB; rw [hodb]
            have hTt : isTreeB odb o = true := by
              unfold isTreeB
              rw [hodb]
              simp [hlen0]
            have hBf : isBlobB odb o = false := by unfold isBlobB; rw [hodb]
            have hGf : isTagB odb o = false := by unfold isTagB; rw [hodb]
            have hte : tEntries odb o = entries := by
              unfold tEntries; rw [hodb]
            have hts : tSize odb o = s := by unfold tSize; rw [hodb]
            rw [canonOf_snoc_tree odb (dedupL l) o hCf hTt hBf hGf,
              hte, hts]
            have hlk : lookupA (canonOf odb (dedupL l)).treesInfo o =
                none := by
              show lookupA (((dedupL l).filter (isTreeB odb)).map
                fun x => (x, WorkerStoreOdbData.thisTreeDataAndStats
                  (tEntries odb x))) o = _
              rw [lookupA_mapKeys]
              rw [if_neg (fun hc => hdm (List.mem_filter.mp hc).1)]
            simp only [WorkerStoreOdbData.Execute, hodb, hlen0, if_neg,
              emplaceA, hlk, Option.getD_some, hte, ite_false]
        | blob s =>
          have hCf : isCommitB odb o = false := by unfold isCommitB; rw [hodb]
          have hTf : isTreeB odb o = false := by unfold isTreeB; rw [hodb]
          have hBt : isBlobB odb o = true := by unfold isBlobB; rw [hodb]
          have hGf : isTagB odb o = false := by unfold isTagB; rw [hodb]
          have hbs : bSize odb o = s := by unfold bSize; rw [hodb]
          rw [canonOf_snoc_blob odb (dedupL l) o hCf hTf hBt hGf, hbs]
          have hlk : lookupA (canonOf odb (dedupL l)).blobsInfo o =
              none := by
            show lookupA (((dedupL l).filter (isBlobB odb)).map
              fun x => (x, bSize odb x)) o = _
            rw [lookupA_mapKeys]
            rw [if_neg (fun hc => hdm (List.mem_filter.mp hc).1)]
          simp only [WorkerStoreOdbData.Execute, hodb, emplaceA, hlk,
            Option.getD_some]
        | tag tgt ty =>
          have hCf : isCommitB odb o = false := by unfold isCommitB; rw [hodb]
          have hTf : isTreeB odb o = false := by unfold isTreeB; rw [hodb]
          have hBf : isBlobB odb o = false := by unfold isBlobB; rw [hodb]
          have hGt : isTagB odb o = true := by unfold isTagB; rw [hodb]
          have htd : tagTD odb o =
              { oidTarget := tgt, typeTarget := ty, depth := 0 } := by
            unfold tagTD; rw [hodb]
          rw [canonOf_snoc_tag odb (dedupL l) o hCf hTf hBf hGt, htd]
          have hlk : lookupA (canonOf odb (dedupL l)).tagsInfo o =
              none := by
            show lookupA (((dedupL l).filter (isTagB odb)).map
              fun x => (x, tagTD odb x)) o = _
            rw [lookupA_mapKeys]
            rw [if_neg (fun hc => hdm (List.mem_filter.mp hc).1)]
          simp only [WorkerStoreOdbData.Execute, hodb, emplaceA, hlk,
            Option.getD_some]
        | other =>
          have hCf : isCommitB odb o = false := by unfold isCommitB; rw [hodb]
          have hTf : isTreeB odb o = false := by unfold isTreeB; rw [hodb]
          have hBf : isBlobB odb o = false := by unfold isBlobB; rw [hodb]
          have hGf : isTagB odb o = false := by unfold isTagB; rw [hodb]
          rw [canonOf_snoc_skip odb (dedupL l) o hCf hTf hBf hGf]
          simp only [WorkerStoreOdbData.Execute, hodb, Option.getD_some]

theorem foldl_max_perm (l1 l2 : List Nat) (h : l1.Perm l2) :
    l1.foldl max 0 = l2.foldl max 0 := by
  apply le_antisymm
  · rw [foldl_max_le]
    exact ⟨Nat.zero_le _, fun x hx => (le_foldl_max l2 0).2 x (h.mem_iff.mp hx)⟩
  · rw [foldl_max_le]
    exact ⟨Nat.zero_le _, fun x hx =>
      (le_foldl_max l1 0).2 x (h.mem_iff.mpr hx)⟩

theorem lookupA_of_mem_nodup {α : Type} :
    ∀ (l : List (Oid × α)) (k : Oid) (v : α), (l.map Prod.fst).Nodup →
      (k, v) ∈ l → lookupA l k = some v := by
  intro l
  induction l with
  | nil =>
    intro k v _ hm
    simp at hm
  | cons e r ih =>
    intro k v hnd hm
    obtain ⟨a, w⟩ := e
    rcases List.mem_cons.mp hm with he | he
    · injection he with h1 h2
      subst h1; subst h2
      show (if k = k then some v else lookupA r k) = some v
      rw [if_pos rfl]
    · have hka : ¬k = a := by
        intro hka
        subst hka
        have hkm : k ∈ r.map Prod.fst := by
          exact List.mem_map.mpr ⟨(k, v), he, rfl⟩
        rw [List.map_cons, List.nodup_cons] at hnd
        exact hnd.1 hkm
      show (if k = a then some w else lookupA r k) = some v
      rw [if_neg hka]
      rw [List.map_cons, List.nodup_cons] at hnd
      exact ih k v hnd.2 he

theorem lookupA_perm {α : Type} (l1 l2 : List (Oid × α)) (h : l1.Perm l2)
    (hnd : (l1.map Prod.fst).Nodup) :
    ∀ k, lookupA l1 k = lookupA l2 k := by
  intro k
  have hnd2 : (l2.map Prod.fst).Nodup := ((h.map Prod.fst).nodup_iff).mp hnd
  cases h1 : lookupA l1 k with
  | some v =>
    exact (lookupA_of_mem_nodup l2 k v hnd2 (h.subset (lookupA_mem h1))).symm
  | none =>
    have hk1 : k ∉ l1.map Prod.fst := by
      rw [mem_keys_iff_lookupA_isSome, h1]
      simp
    have hk2 : k ∉ l2.map Prod.fst := fun hc =>
      hk1 ((h.map Prod.fst).mem_iff.mpr hc)
    rw [lookupA_eq_none_of_not_mem l2 k hk2]

theorem specRollUp_congr (blobs blobs' : List (Oid × Nat))
    (t0 t0' : List (Oid × TreeDataAndStats))
    (hb : ∀ b, lookupA blobs b = lookupA blobs' b)
    (ht : ∀ o, lookupA t0 o = lookupA t0' o) :
    ∀ fuel o, specRollUp blobs t0 fuel o = specRollUp blobs' t0' fuel o := by
  have heB : ∀ o, eB t0 o = eB t0' o := by
    intro o
    unfold eB
    rw [ht o]
  have heT : ∀ o, eT t0 o = eT t0' o := by
    intro o
    unfold eT
    rw [ht o]
  have hpS : ∀ o, pS t0 o = pS t0' o := by
    intro o
    unfold pS
    rw [ht o]
  intro fuel
  induction fuel with
  | zero =>
    intro o
    show pS t0 o = pS t0' o
    exact hpS o
  | succ f ih =>
    intro o
    show ((eT t0 o).foldl
        (fun acc cn => specAccum acc cn.2 (specRollUp blobs t0 f cn.1)) _) =
      ((eT t0' o).foldl
        (fun acc cn => specAccum acc cn.2 (specRollUp blobs' t0' f cn.1)) _)
    rw [← heT o]
    have hbase :
        ({ numDirectories := 1, maxPathDepth := 1,
           maxPathLength := (pS t0 o).maxPathLength,
           numFiles := (pS t0 o).numFiles,
           totalFileSize :=
             ((eB t0 o).map (fun b => (lookupA blobs b).getD 0)).sum,
           numSymlinks := (pS t0 o).numSymlinks,
           numSubmodules := (pS t0 o).numSubmodules } : TreeStatistics) =
        { numDirectories := 1, maxPathDepth := 1,
          maxPathLength := (pS t0' o).maxPathLength,
          numFiles := (pS t0' o).numFiles,
          totalFileSize :=
            ((eB t0' o).map (fun b => (lookupA blobs' b).getD 0)).sum,
          numSymlinks := (pS t0' o).numSymlinks,
          numSubmodules := (pS t0' o).numSubmodules } := by
      rw [hpS o, ← heB o]
      have hmap : (eB t0 o).map (fun b => (lookupA blobs b).getD 0) =
          (eB t0 o).map (fun b => (lookupA blobs' b).getD 0) := by
        apply List.map_congr_left
        intro b _
        rw [hb b]
      rw [hmap]
    rw [hbase]
    apply List.foldl_ext
    intro acc cn _
    rw [ih cn.1]

theorem chainDepth_congr (tags0 tags0' : List (Oid × TagData))
    (ht : ∀ o, lookupA tags0 o = lookupA tags0' o) :
    ∀ fuel o, chainDepth tags0 fuel o = chainDepth tags0' fuel o := by
  intro fuel
  induction fuel with
  | zero => intro o; rfl
  | succ f ih =>
    intro o
    have hL : chainDepth tags0 (f + 1) o =
        match lookupA tags0 o with
        | none => 0
        | some td =>
          if td.typeTarget = ObjType.tag ∧
            (lookupA tags0 td.oidTarget).isSome = true
          then 1 + chainDepth tags0 f td.oidTarget
          else 1 := rfl
    have hR : chainDepth tags0' (f + 1) o =
        match lookupA tags0' o with
        | none => 0
        | some td =>
          if td.typeTarget = ObjType.tag ∧
            (lookupA tags0' td.oidTarget).isSome = true
          then 1 + chainDepth tags0' f td.oidTarget
          else 1 := rfl
    rw [hL, hR, ht o]
    cases lookupA tags0' o with
    | none => rfl
    | some td =>
      dsimp only
      rw [ht td.oidTarget, ih td.oidTarget]

theorem hgtF_congr (cs cs' : List (Oid × List Oid))
    (hp : ∀ o, parentsOf cs o = parentsOf cs' o) :
    ∀ fuel o, hgtF cs fuel o = hgtF cs' fuel o := by
  intro fuel
  induction fuel with
  | zero => intro o; rfl
  | succ f ih =>
    intro o
    have hR : hgtF cs' (f + 1) o =
        ((parentsOf cs' o).map (hgtF cs' f)).foldl max 0 + 1 := rfl
    rw [hR]
    show ((parentsOf cs o).map (hgtF cs f)).foldl max 0 + 1 = _
    rw [hp o]
    have hmap : (parentsOf cs' o).map (hgtF cs f) =
        (parentsOf cs' o).map (hgtF cs' f) := by
      apply List.map_congr_left
      intro p _
      exact ih p
    rw [hmap]

theorem maxHgt_perm (cs cs' : List (Oid × List Oid)) (rank : Oid → Nat)
    (h : cs.Perm cs') (hnd : (keysOf cs).Nodup) :
    maxHgt cs rank = maxHgt cs' rank := by
  have hp : ∀ o, parentsOf cs o = parentsOf cs' o := by
    intro o
    unfold parentsOf
    rw [lookupA_perm cs cs' h hnd o]
  have hh : ∀ o, hgtR cs rank o = hgtR cs' rank o := by
    intro o
    unfold hgtR
    exact hgtF_congr cs cs' hp (rank o + 1) o
  unfold maxHgt
  have hm1 : (keysOf cs).map (hgtR cs rank) = (keysOf cs).map (hgtR cs' rank) :=
    List.map_congr_left fun o _ => hh o
  rw [hm1]
  exact foldl_max_perm _ _ ((h.map Prod.fst).map (hgtR cs' rank))

/-- The entry step of `thisTreeDataAndStats`, named for reasoning. -/
def treeStep (tds : TreeDataAndStats) (te : TreeEntry) : TreeDataAndStats :=
  match te.etype with
  | ObjType.commit =>
    if te.mode = Filemode.commitMode then
      { tds with stats := { tds.stats with
          numSubmodules := tds.stats.numSubmodules + 1 } }
    else tds
  | ObjType.blob =>
    if te.mode = Filemode.link then
      { tds with stats := { tds.stats with
          numSymlinks := tds.stats.numSymlinks + 1 } }
    else
      { tds with
        entryBlobs := tds.entryBlobs ++ [te.eoid],
        stats := { tds.stats with
          numFiles := tds.stats.numFiles + 1,
          maxPathLength := max tds.stats.maxPathLength te.nameLen } }
  | ObjType.tree =>
    { tds with entryTreesNameLen := tds.entryTreesNameLen ++ [(te.eoid, te.nameLen)] }
  | _ => tds

theorem thisTree_eq_foldl (entries : List TreeEntry) :
    WorkerStoreOdbData.thisTreeDataAndStats entries =
      entries.foldl treeStep {} := rfl

theorem treeStep_frame (tds : TreeDataAndStats) (te : TreeEntry) :
    (treeStep tds te).statsDone = tds.statsDone ∧
    (treeStep tds te).stats.numDirectories = tds.stats.numDirectories ∧
    (treeStep tds te).stats.maxPathDepth = tds.stats.maxPathDepth ∧
    (treeStep tds te).stats.totalFileSize = tds.stats.totalFileSize := by
  obtain ⟨nl, mode, ety, eo⟩ := te
  unfold treeStep
  cases ety with
  | commit =>
    dsimp only
    by_cases hm : mode = Filemode.commitMode
    · rw [if_pos hm]
      exact ⟨rfl, rfl, rfl, rfl⟩
    · rw [if_neg hm]
      exact ⟨rfl, rfl, rfl, rfl⟩
  | blob =>
    dsimp only
    by_cases hm : mode = Filemode.link
    · rw [if_pos hm]
      exact ⟨rfl, rfl, rfl, rfl⟩
    · rw [if_neg hm]
      exact ⟨rfl, rfl, rfl, rfl⟩
  | tree => exact ⟨rfl, rfl, rfl, rfl⟩
  | tag => exact ⟨rfl, rfl, rfl, rfl⟩
  | invalid => exact ⟨rfl, rfl, rfl, rfl⟩

theorem foldl_treeStep_frame : ∀ (es : List TreeEntry)
    (tds : TreeDataAndStats),
    (es.foldl treeStep tds).statsDone = tds.statsDone ∧
    (es.foldl treeStep tds).stats.numDirectories = tds.stats.numDirectories ∧
    (es.foldl treeStep tds).stats.maxPathDepth = tds.stats.maxPathDepth ∧
    (es.foldl treeStep tds).stats.totalFileSize = tds.stats.totalFileSize := by
  intro es
  induction es with
  | nil => intro tds; exact ⟨rfl, rfl, rfl, rfl⟩
  | cons te rest ih =>
    intro tds
    rw [List.foldl_cons]
    obtain ⟨i1, i2, i3, i4⟩ := ih (treeStep tds te)
    obtain ⟨s1, s2, s3, s4⟩ := treeStep_frame tds te
    exact ⟨by rw [i1, s1], by rw [i2, s2], by rw [i3, s3], by rw [i4, s4]⟩

theorem thisTree_zero (entries : List TreeEntry) :
    (WorkerStoreOdbData.thisTreeDataAndStats entries).statsDone = false ∧
    (WorkerStoreOdbData.thisTreeDataAndStats
      entries).stats.numDirectories = 0 ∧
    (WorkerStoreOdbData.thisTreeDataAndStats entries).stats.maxPathDepth = 0 ∧
    (WorkerStoreOdbData.thisTreeDataAndStats
      entries).stats.totalFileSize = 0 := by
  rw [thisTree_eq_foldl]
  exact foldl_treeStep_frame entries {}

theorem treeStep_entryBlobs (tds : TreeDataAndStats) (te : TreeEntry) (b : Oid)
    (h : b ∈ (treeStep tds te).entryBlobs) :
    b ∈ tds.entryBlobs ∨
      (te.etype = ObjType.blob ∧ te.mode ≠ Filemode.link ∧ te.eoid = b) := by
  obtain ⟨nl, mode, ety, eo⟩ := te
  unfold treeStep at h
  cases ety with
  | commit =>
    dsimp only at h
    by_cases hm : mode = Filemode.commitMode
    · rw [if_pos hm] at h
      exact Or.inl h
    · rw [if_neg hm] at h
      exact Or.inl h
  | blob =>
    dsimp only at h
    by_cases hm : mode = Filemode.link
    · rw [if_pos hm] at h
      exact Or.inl h
    · rw [if_neg hm] at h
      dsimp only at h
      rcases List.mem_append.mp h with h2 | h2
      · exact Or.inl h2
      · rw [List.mem_singleton] at h2
        exact Or.inr ⟨rfl, hm, h2.symm⟩
  | tree => exact Or.inl h
  | tag => exact Or.inl h
  | invalid => exact Or.inl h

theorem treeStep_entryTrees (tds : TreeDataAndStats) (te : TreeEntry)
    (cn : Oid × Nat) (h : cn ∈ (treeStep tds te).entryTreesNameLen) :
    cn ∈ tds.entryTreesNameLen ∨
      (te.etype = ObjType.tree ∧ te.eoid = cn.1) := by
  obtain ⟨nl, mode, ety, eo⟩ := te
  unfold treeStep at h
  cases ety with
  | commit =>
    dsimp only at h
    by_cases hm : mode = Filemode.commitMode
    · rw [if_pos hm] at h
      exact Or.inl h
    · rw [if_neg hm] at h
      exact Or.inl h
  | blob =>
    dsimp only at h
    by_cases hm : mode = Filemode.link
    · rw [if_pos hm] at h
      exact Or.inl h
    · rw [if_neg hm] at h
      exact Or.inl h
  | tree =>
    dsimp only at h
    rcases List.mem_append.mp h with h2 | h2
    · exact Or.inl h2
    · rw [List.mem_singleton] at h2
      refine Or.inr ⟨rfl, ?_⟩
      rw [h2]
  | tag => exact Or.inl h
  | invalid => exact Or.inl h

theorem foldl_treeStep_entryBlobs : ∀ (es : List TreeEntry)
    (tds : TreeDataAndStats) (b : Oid),
    b ∈ (es.foldl treeStep tds).entryBlobs →
    b ∈ tds.entryBlobs ∨ ∃ te ∈ es, te.etype = ObjType.blob ∧
      te.mode ≠ Filemode.link ∧ te.eoid = b := by
  intro es
  induction es with
  | nil =>
    intro tds b h
    exact Or.inl h
  | cons te rest ih =>
    intro tds b h
    rw [List.foldl_cons] at h
    rcases ih (treeStep tds te) b h with h2 | ⟨te', hte', hp⟩
    · rcases treeStep_entryBlobs tds te b h2 with h3 | h3
      · exact Or.inl h3
      · exact Or.inr ⟨te, List.mem_cons_self _ _, h3⟩
    · exact Or.inr ⟨te', List.mem_cons_of_mem _ hte', hp⟩

theorem foldl_treeStep_entryTrees : ∀ (es : List TreeEntry)
    (tds : TreeDataAndStats) (cn : Oid × Nat),
    cn ∈ (es.foldl treeStep tds).entryTreesNameLen →
    cn ∈ tds.entryTreesNameLen ∨ ∃ te ∈ es, te.etype = ObjType.tree ∧
      te.eoid = cn.1 := by
  intro es
  induction es with
  | nil =>
    intro tds cn h
    exact Or.inl h
  | cons te rest ih =>
    intro tds cn h
    rw [List.foldl_cons] at h
    rcases ih (treeStep tds te) cn h with h2 | ⟨te', hte', hp⟩
    · rcases treeStep_entryTrees tds te cn h2 with h3 | h3
      · exact Or.inl h3
      · exact Or.inr ⟨te, List.mem_cons_self _ _, h3⟩
    · exact Or.inr ⟨te', List.mem_cons_of_mem _ hte', hp⟩

theorem thisTree_entryBlobs (entries : List TreeEntry) (b : Oid)
    (h : b ∈ (WorkerStoreOdbData.thisTreeDataAndStats entries).entryBlobs) :
    ∃ te ∈ entries, te.etype = ObjType.blob ∧ te.mode ≠ Filemode.link ∧
      te.eoid = b := by
  rw [thisTree_eq_foldl] at h
  rcases foldl_treeStep_entryBlobs entries {} b h with h2 | h2
  · simp at h2
  · exact h2

theorem thisTree_entryTrees (entries : List TreeEntry) (cn : Oid × Nat)
    (h : cn ∈ (WorkerStoreOdbData.thisTreeDataAndStats
      entries).entryTreesNameLen) :
    ∃ te ∈ entries, te.etype = ObjType.tree ∧ te.eoid = cn.1 := by
  rw [thisTree_eq_foldl] at h
  rcases foldl_treeStep_entryTrees entries {} cn h with h2 | h2
  · simp at h2
  · exact h2

/-- The component-wise maximum `calculateBiggestCheckouts` accumulates. -/
def maxStats (a s : TreeStatistics) : TreeStatistics :=
  { numDirectories := max a.numDirectories s.numDirectories,
    totalFileSize := max a.totalFileSize s.totalFileSize,
    maxPathDepth := max a.maxPathDepth s.maxPathDepth,
    numFiles := max a.numFiles s.numFiles,
    maxPathLength := max a.maxPathLength s.maxPathLength,
    numSymlinks := max a.numSymlinks s.numSymlinks,
    numSubmodules := max a.numSubmodules s.numSubmodules }

theorem calculateBiggestCheckouts_char (blobs : List (Oid × Nat))
    (t0 : List (Oid × TreeDataAndStats)) (rank : Oid → Nat)
    (hwf : TreesWF blobs t0 rank) :
    ∀ (cl : List (Oid × Oid)) (t : List (Oid × TreeDataAndStats))
      (acc : TreeStatistics),
      RollState blobs t0 t rank →
      (∀ pr ∈ cl, (lookupA t0 pr.2).isSome = true ∧
        rank pr.2 < t0.length + 1) →
      ∃ t', RepoAnalysis.calculateBiggestCheckouts blobs t0.length cl t acc =
          .ok (t', cl.foldl (fun a pr =>
            maxStats a (specRollUp blobs t0 (rank pr.2 + 1) pr.2)) acc) ∧
        RollState blobs t0 t' rank := by
  intro cl
  induction cl with
  | nil =>
    intro t acc hrs _
    exact ⟨t, rfl, hrs⟩
  | cons pr rest ih =>
    intro t acc hrs hcl
    obtain ⟨co, ct⟩ := pr
    obtain ⟨hm, hrk⟩ := hcl (co, ct) (List.mem_cons_self _ _)
    obtain ⟨t1, d1, hok, hrs1, _, _, hspec⟩ :=
      calculateTreeStatistics_char blobs t0 rank hwf (t0.length + 1) t ct
        hrs hm hrk
    obtain ⟨t2, hok2, hrs2⟩ :=
      ih t1 (maxStats acc (specRollUp blobs t0 (rank ct + 1) ct)) hrs1
        (fun x hx => hcl x (List.mem_cons_of_mem _ hx))
    refine ⟨t2, ?_, hrs2⟩
    simp only [RepoAnalysis.calculateBiggestCheckouts, hok, List.foldl_cons]
    rw [show ({ numDirectories := max acc.numDirectories
                  d1.stats.numDirectories,
                totalFileSize := max acc.totalFileSize
                  d1.stats.totalFileSize,
                maxPathDepth := max acc.maxPathDepth d1.stats.maxPathDepth,
                numFiles := max acc.numFiles d1.stats.numFiles,
                maxPathLength := max acc.maxPathLength
                  d1.stats.maxPathLength,
                numSymlinks := max acc.numSymlinks d1.stats.numSymlinks,
                numSubmodules := max acc.numSubmodules
                  d1.stats.numSubmodules } : TreeStatistics)
          = maxStats acc (specRollUp blobs t0 (rank ct + 1) ct) from by
        rw [← hspec]
        rfl]
    exact hok2

theorem foldl_maxStats_comp (F : (Oid × Oid) → TreeStatistics) :
    ∀ (cl : List (Oid × Oid)) (acc : TreeStatistics),
      cl.foldl (fun a pr => maxStats a (F pr)) acc =
        { numDirectories := (cl.map fun pr =>
            (F pr).numDirectories).foldl max acc.numDirectories,
          maxPathDepth := (cl.map fun pr =>
            (F pr).maxPathDepth).foldl max acc.maxPathDepth,
          maxPathLength := (cl.map fun pr =>
            (F pr).maxPathLength).foldl max acc.maxPathLength,
          numFiles := (cl.map fun pr =>
            (F pr).numFiles).foldl max acc.numFiles,
          totalFileSize := (cl.map fun pr =>
            (F pr).totalFileSize).foldl max acc.totalFileSize,
          numSymlinks := (cl.map fun pr =>
            (F pr).numSymlinks).foldl max acc.numSymlinks,
          numSubmodules := (cl.map fun pr =>
            (F pr).numSubmodules).foldl max acc.numSubmodules } := by
  intro cl
  induction cl with
  | nil => intro acc; rfl
  | cons pr rest ih =>
    intro acc
    rw [List.foldl_cons, ih]
    rfl

/-- The four category tables as functions of the deduplicated enumeration. -/
def commitsTab (odb : Odb) (dl : List Oid) : List (Oid × Oid) :=
  (dl.filter (isCommitB odb)).map fun o => (o, cTree odb o)

def commitsParTab (odb : Odb) (dl : List Oid) : List (Oid × List Oid) :=
  (dl.filter (isCommitB odb)).map fun o => (o, cParents odb o)

def treesTab (odb : Odb) (dl : List Oid) : List (Oid × TreeDataAndStats) :=
  (dl.filter (isTreeB odb)).map
    fun o => (o, WorkerStoreOdbData.thisTreeDataAndStats (tEntries odb o))

def blobsTab (odb : Odb) (dl : List Oid) : List (Oid × Nat) :=
  (dl.filter (isBlobB odb)).map fun o => (o, bSize odb o)

def tagsTab (odb : Odb) (dl : List Oid) : List (Oid × TagData) :=
  (dl.filter (isTagB odb)).map fun o => (o, tagTD odb o)

/-- The analysis results as functions of the tables. -/
def bcCanon (odb : Odb) (dl : List Oid) (rankT : Oid → Nat) : TreeStatistics :=
  (commitsTab odb dl).foldl
    (fun a pr => maxStats a
      (specRollUp (blobsTab odb dl) (treesTab odb dl) (rankT pr.2 + 1) pr.2))
    {}

def mtdCanon (odb : Odb) (dl : List Oid) (rankG : Oid → Nat) : Nat :=
  ((tagsTab odb dl).map Prod.fst).foldl
    (fun m k => max m (chainDepth (tagsTab odb dl) (rankG k + 1) k)) 0

/-- The whole report as a function of the deduplicated enumeration. -/
def reportCanon (odb : Odb) (dl : List Oid) (rankT rankG : Oid → Nat)
    (numRefs : Nat) : Statistics :=
  { commitsCount := (commitsTab odb dl).length,
    commitsSize := ((dl.filter (isCommitB odb)).map (cSize odb)).sum,
    treesCount := (treesTab odb dl).length,
    treesSize := ((dl.filter (isTreeB odb)).map (tSize odb)).sum,
    treesEntries := ((dl.filter (isTreeB odb)).map
      fun o => (tEntries odb o).length).sum,
    blobsCount := (blobsTab odb dl).length,
    blobsSize := ((dl.filter (isBlobB odb)).map (bSize odb)).sum,
    annotatedTagsCount := (tagsTab odb dl).length,
    referencesCount := numRefs,
    biggestCommitsMaxSize :=
      ((dl.filter (isCommitB odb)).map (cSize odb)).foldl max 0,
    biggestCommitsMaxParents := ((dl.filter (isCommitB odb)).map
      fun o => (cParents odb o).length).foldl max 0,
    biggestTreesMaxEntries := ((dl.filter (isTreeB odb)).map
      fun o => (tEntries odb o).length).foldl max 0,
    biggestBlobsMaxSize :=
      ((dl.filter (isBlobB odb)).map (bSize odb)).foldl max 0,
    maxDepth :=
      CommitsGraph.CalculateMaxDepth (buildGraph (commitsParTab odb dl)),
    maxTagDepth := mtdCanon odb dl rankG,
    biggestCheckouts := bcCanon odb dl rankT }

theorem map_fst_mapKeys {α : Type} (g : Oid → α) (ks : List Oid) :
    ((ks.map fun o => (o, g o)).map Prod.fst) = ks := by
  rw [List.map_map]
  show ks.map (fun o => o) = ks
  exact List.map_id' ks

theorem foldl_max_via_map (f : Oid → Nat) : ∀ (l : List Oid) (a : Nat),
    l.foldl (fun m k => max m (f k)) a = (l.map f).foldl max a := by
  intro l
  induction l with
  | nil => intro a; rfl
  | cons x r ih =>
    intro a
    rw [List.foldl_cons, List.map_cons, List.foldl_cons, ih]

theorem tagTD_depth (odb : Odb) (o : Oid) : (tagTD odb o).depth = 0 := by
  unfold tagTD
  cases odb o with
  | none => rfl
  | some od => cases od <;> rfl

theorem treesWF_canon (odb : Odb) (oids : List Oid) (rankT : Oid → Nat)
    (hTsub : ∀ o ∈ oids, isTreeB odb o = true →
      ∀ te ∈ tEntries odb o, te.etype = ObjType.tree →
        te.eoid ∈ oids ∧ isTreeB odb te.eoid = true ∧
        rankT te.eoid < rankT o)
    (hTblob : ∀ o ∈ oids, isTreeB odb o = true →
      ∀ te ∈ tEntries odb o, te.etype = ObjType.blob →
        te.mode ≠ Filemode.link →
        te.eoid ∈ oids ∧ isBlobB odb te.eoid = true) :
    TreesWF (blobsTab odb (dedupL oids)) (treesTab odb (dedupL oids))
      rankT := by
  intro e he
  unfold treesTab at he
  obtain ⟨o, ho, heq⟩ := List.mem_map.mp he
  have hof := List.mem_filter.mp ho
  have hoo : o ∈ oids := (dedupL_mem _ _).mp hof.1
  rw [← heq]
  dsimp only
  obtain ⟨hz1, hz2, hz3, hz4⟩ := thisTree_zero (tEntries odb o)
  refine ⟨hz1, hz2, hz3, hz4, ?_, ?_⟩
  · intro b hb
    obtain ⟨te, hte, hety, hmode, heoid⟩ :=
      thisTree_entryBlobs (tEntries odb o) b hb
    obtain ⟨hin, hisb⟩ := hTblob o hoo hof.2 te hte hety hmode
    have hin' : b ∈ oids := heoid ▸ hin
    have hisb' : isBlobB odb b = true := heoid ▸ hisb
    unfold blobsTab
    rw [lookupA_mapKeys,
      if_pos (List.mem_filter.mpr ⟨(dedupL_mem _ _).mpr hin', hisb'⟩)]
    rfl
  · intro cn hcn
    obtain ⟨te, hte, hety, heoid⟩ :=
      thisTree_entryTrees (tEntries odb o) cn hcn
    obtain ⟨hin, hist, hrk⟩ := hTsub o hoo hof.2 te hte hety
    have hin' : cn.1 ∈ oids := heoid ▸ hin
    have hist' : isTreeB odb cn.1 = true := heoid ▸ hist
    have hrk' : rankT cn.1 < rankT o := heoid ▸ hrk
    refine ⟨?_, hrk'⟩
    unfold treesTab
    rw [lookupA_mapKeys,
      if_pos (List.mem_filter.mpr ⟨(dedupL_mem _ _).mpr hin', hist'⟩)]
    rfl

theorem tagsWF_canon (odb : Odb) (oids : List Oid) (rankG : Oid → Nat)
    (hGtar : ∀ o ∈ oids, isTagB odb o = true →
      (tagTD odb o).typeTarget = ObjType.tag →
        (tagTD odb o).oidTarget ∈ oids ∧
        isTagB odb ((tagTD odb o).oidTarget) = true ∧
        rankG ((tagTD odb o).oidTarget) < rankG o) :
    TagsWF (tagsTab odb (dedupL oids)) rankG := by
  constructor
  · intro e he
    unfold tagsTab at he
    obtain ⟨o, _, heq⟩ := List.mem_map.mp he
    rw [← heq]
    exact tagTD_depth odb o
  · intro e he hty
    unfold tagsTab at he
    obtain ⟨o, ho, heq⟩ := List.mem_map.mp he
    have hof := List.mem_filter.mp ho
    have hoo : o ∈ oids := (dedupL_mem _ _).mp hof.1
    rw [← heq] at hty ⊢
    dsimp only at hty ⊢
    obtain ⟨hin, hist, hrk⟩ := hGtar o hoo hof.2 hty
    refine ⟨?_, hrk⟩
    unfold tagsTab
    rw [lookupA_mapKeys,
      if_pos (List.mem_filter.mpr ⟨(dedupL_mem _ _).mpr hin, hist⟩)]
    rfl

theorem canonOf_commitsInfo (odb : Odb) (dl : List Oid) :
    (canonOf odb dl).commitsInfo = commitsTab odb dl := rfl

theorem canonOf_treesInfo (odb : Odb) (dl : List Oid) :
    (canonOf odb dl).treesInfo = treesTab odb dl := rfl

theorem canonOf_blobsInfo (odb : Odb) (dl : List Oid) :
    (canonOf odb dl).blobsInfo = blobsTab odb dl := rfl

theorem canonOf_tagsInfo (odb : Odb) (dl : List Oid) :
    (canonOf odb dl).tagsInfo = tagsTab odb dl := rfl

theorem canonOf_graph (odb : Odb) (dl : List Oid) :
    (canonOf odb dl).graph = buildGraph (commitsParTab odb dl) := rfl

theorem statisticsModel_canon (odb : Odb) (oids : List Oid)
    (rankT rankG : Oid → Nat) (numRefs : Nat)
    (hTsub : ∀ o ∈ oids, isTreeB odb o = true →
      ∀ te ∈ tEntries odb o, te.etype = ObjType.tree →
        te.eoid ∈ oids ∧ isTreeB odb te.eoid = true ∧
        rankT te.eoid < rankT o)
    (hTblob : ∀ o ∈ oids, isTreeB odb o = true →
      ∀ te ∈ tEntries odb o, te.etype = ObjType.blob →
        te.mode ≠ Filemode.link →
        te.eoid ∈ oids ∧ isBlobB odb te.eoid = true)
    (hTrk : ∀ o ∈ oids, isTreeB odb o = true →
      rankT o < ((dedupL oids).filter (isTreeB odb)).length + 1)
    (hCroot : ∀ o ∈ oids, isCommitB odb o = true →
      cTree odb o ∈ oids ∧ isTreeB odb (cTree odb o) = true)
    (hGtar : ∀ o ∈ oids, isTagB odb o = true →
      (tagTD odb o).typeTarget = ObjType.tag →
        (tagTD odb o).oidTarget ∈ oids ∧
        isTagB odb ((tagTD odb o).oidTarget) = true ∧
        rankG ((tagTD odb o).oidTarget) < rankG o)
    (hGrb : ∀ o ∈ oids, isTagB odb o = true → rankG o + 2 < U32)
    (hGrle : ∀ o ∈ oids, isTagB odb o = true →
      rankG o ≤ ((dedupL oids).filter (isTagB odb)).length) :
    statisticsModel odb oids numRefs =
      .ok (reportCanon odb (dedupL oids) rankT rankG numRefs) := by
  have hwfT := treesWF_canon odb oids rankT hTsub hTblob
  have hwfG := tagsWF_canon odb oids rankG hGtar
  have hrs0 : RollState (blobsTab odb (dedupL oids))
      (treesTab odb (dedupL oids)) (treesTab odb (dedupL oids)) rankT := by
    refine ⟨rfl, ?_⟩
    intro o' d' hd'
    obtain ⟨hsd, _, _, _, _, _⟩ := hwfT (o', d') (lookupA_mem hd')
    exact ⟨d', hd', rfl, rfl, Or.inl ⟨hsd, rfl⟩⟩
  have hcl : ∀ pr ∈ commitsTab odb (dedupL oids),
      (lookupA (treesTab odb (dedupL oids)) pr.2).isSome = true ∧
      rankT pr.2 < (treesTab odb (dedupL oids)).length + 1 := by
    intro pr hpr
    unfold commitsTab at hpr
    obtain ⟨o, ho, heq⟩ := List.mem_map.mp hpr
    have hof := List.mem_filter.mp ho
    have hoo : o ∈ oids := (dedupL_mem _ _).mp hof.1
    obtain ⟨hrin, hrtree⟩ := hCroot o hoo hof.2
    rw [← heq]
    dsimp only
    constructor
    · unfold treesTab
      rw [lookupA_mapKeys, if_pos (List.mem_filter.mpr
        ⟨(dedupL_mem _ _).mpr hrin, hrtree⟩)]
      rfl
    · have hb := hTrk (cTree odb o) hrin hrtree
      unfold treesTab
      rw [List.length_map]
      exact hb
  obtain ⟨trees', hbcok, hrs'⟩ :=
    calculateBiggestCheckouts_char (blobsTab odb (dedupL oids))
      (treesTab odb (dedupL oids)) rankT hwfT
      (commitsTab odb (dedupL oids)) (treesTab odb (dedupL oids)) {} hrs0 hcl
  have hrb' : ∀ e ∈ tagsTab odb (dedupL oids), rankG e.1 + 2 < U32 := by
    intro e he
    unfold tagsTab at he
    obtain ⟨o, ho, heq⟩ := List.mem_map.mp he
    have hof := List.mem_filter.mp ho
    have hoo : o ∈ oids := (dedupL_mem _ _).mp hof.1
    rw [← heq]
    exact hGrb o hoo hof.2
  have hrle' : ∀ e ∈ tagsTab odb (dedupL oids),
      rankG e.1 ≤ (tagsTab odb (dedupL oids)).length := by
    intro e he
    unfold tagsTab at he
    obtain ⟨o, ho, heq⟩ := List.mem_map.mp he
    have hof := List.mem_filter.mp ho
    have hoo : o ∈ oids := (dedupL_mem _ _).mp hof.1
    rw [← heq]
    show rankG o ≤ _
    unfold tagsTab
    rw [List.length_map]
    exact hGrle o hoo hof.2
  obtain ⟨tags', hmtdok, htagkeys, _⟩ :=
    calculateMaxTagDepth_char (tagsTab odb (dedupL oids)) rankG hwfG
      hrb' hrle'
  have hbcok2 : RepoAnalysis.calculateBiggestCheckouts
      (canonOf odb (dedupL oids)).blobsInfo
      (canonOf odb (dedupL oids)).treesInfo.length
      (canonOf odb (dedupL oids)).commitsInfo
      (canonOf odb (dedupL oids)).treesInfo {} =
      .ok (trees', (commitsTab odb (dedupL oids)).foldl
        (fun a pr => maxStats a (specRollUp (blobsTab odb (dedupL oids))
          (treesTab odb (dedupL oids)) (rankT pr.2 + 1) pr.2)) {}) := hbcok
  have hmtdok2 : RepoAnalysis.calculateMaxTagDepth
      (canonOf odb (dedupL oids)).tagsInfo =
      .ok (tags', ((tagsTab odb (dedupL oids)).map Prod.fst).foldl
        (fun m k => max m (chainDepth (tagsTab odb (dedupL oids))
          (rankG k + 1) k)) 0) := hmtdok
  have htl : trees'.length = (treesTab odb (dedupL oids)).length := by
    have h := congrArg List.length hrs'.1
    rw [List.length_map, List.length_map] at h
    exact h
  have hgl : tags'.length = (tagsTab odb (dedupL oids)).length := by
    have h := congrArg List.length htagkeys
    rw [List.length_map, List.length_map] at h
    exact h
  have hao : RepoAnalysis.analyzeObjects odb oids = .ok
      ({ canonOf odb (dedupL oids) with
          treesInfo := trees', tagsInfo := tags' },
        (commitsTab odb (dedupL oids)).foldl
          (fun a pr => maxStats a (specRollUp (blobsTab odb (dedupL oids))
            (treesTab odb (dedupL oids)) (rankT pr.2 + 1) pr.2)) {},
        ((tagsTab odb (dedupL oids)).map Prod.fst).foldl
          (fun m k => max m (chainDepth (tagsTab odb (dedupL oids))
            (rankG k + 1) k)) 0,
        (canonOf odb (dedupL oids)).graph.CalculateMaxDepth) := by
    unfold RepoAnalysis.analyzeObjects
    rw [workerPhase_canon]
    dsimp only
    rw [hbcok2, hmtdok2]
  unfold statisticsModel RepoAnalysis.Analyze
  rw [hao]
  dsimp only
  rw [if_pos rfl]
  unfold RepoAnalysis.fillOutStatistics reportCanon
  dsimp only
  rw [htl, hgl]
  rfl

theorem reportCanon_perm (odb : Odb) (oids1 oids2 : List Oid)
    (rankC rankT rankG : Oid → Nat) (numRefs : Nat)
    (hperm : oids1.Perm oids2)
    (hCcl : ∀ o ∈ oids1, isCommitB odb o = true →
      ∀ p ∈ cParents odb o, p ∈ oids1 ∧ isCommitB odb p = true)
    (hCrk : ∀ o ∈ oids1, isCommitB odb o = true →
      ∀ p ∈ cParents odb o, rankC p < rankC o)
    (hPlt : ∀ o ∈ oids1, (cParents odb o).length < U32)
    (hOsz : oids1.length < U32) :
    reportCanon odb (dedupL oids1) rankT rankG numRefs =
      reportCanon odb (dedupL oids2) rankT rankG numRefs := by
  have hdl : (dedupL oids1).Perm (dedupL oids2) :=
    (List.perm_ext_iff_of_nodup (dedupL_nodup _) (dedupL_nodup _)).mpr
      (fun a => by rw [dedupL_mem, dedupL_mem]; exact hperm.mem_iff)
  have hpC := hdl.filter (isCommitB odb)
  have hpT := hdl.filter (isTreeB odb)
  have hpB := hdl.filter (isBlobB odb)
  have hpG := hdl.filter (isTagB odb)
  have hndC : ((dedupL oids1).filter (isCommitB odb)).Nodup :=
    (dedupL_nodup oids1).filter _
  have hndT : ((dedupL oids1).filter (isTreeB odb)).Nodup :=
    (dedupL_nodup oids1).filter _
  have hndG : ((dedupL oids1).filter (isTagB odb)).Nodup :=
    (dedupL_nodup oids1).filter _
  have hTlk : ∀ k, lookupA (treesTab odb (dedupL oids1)) k =
      lookupA (treesTab odb (dedupL oids2)) k := by
    apply lookupA_perm
    · exact hpT.map _
    · rw [show (treesTab odb (dedupL oids1)).map Prod.fst =
        (dedupL oids1).filter (isTreeB odb) from map_fst_mapKeys _ _]
      exact hndT
  have hBlk : ∀ k, lookupA (blobsTab odb (dedupL oids1)) k =
      lookupA (blobsTab odb (dedupL oids2)) k := by
    apply lookupA_perm
    · exact hpB.map _
    · rw [show (blobsTab odb (dedupL oids1)).map Prod.fst =
        (dedupL oids1).filter (isBlobB odb) from map_fst_mapKeys _ _]
      exact (dedupL_nodup oids1).filter _
  have hGlk : ∀ k, lookupA (tagsTab odb (dedupL oids1)) k =
      lookupA (tagsTab odb (dedupL oids2)) k := by
    apply lookupA_perm
    · exact hpG.map _
    · rw [show (tagsTab odb (dedupL oids1)).map Prod.fst =
        (dedupL oids1).filter (isTagB odb) from map_fst_mapKeys _ _]
      exact hndG
  -- max depth: both graphs compute the same height profile
  have hmd : CommitsGraph.CalculateMaxDepth
        (buildGraph (commitsParTab odb (dedupL oids1))) =
      CommitsGraph.CalculateMaxDepth
        (buildGraph (commitsParTab odb (dedupL oids2))) := by
    have hkeys1 : keysOf (commitsParTab odb (dedupL oids1)) =
        (dedupL oids1).filter (isCommitB odb) := map_fst_mapKeys _ _
    have hkeys2 : keysOf (commitsParTab odb (dedupL oids2)) =
        (dedupL oids2).filter (isCommitB odb) := map_fst_mapKeys _ _
    have hmemtab : ∀ (oids : List Oid) (pr : Oid × List Oid),
        pr ∈ commitsParTab odb (dedupL oids) →
        pr.1 ∈ oids ∧ isCommitB odb pr.1 = true ∧
          pr.2 = cParents odb pr.1 := by
      intro oids pr hpr
      unfold commitsParTab at hpr
      obtain ⟨o, ho, heq⟩ := List.mem_map.mp hpr
      have hof := List.mem_filter.mp ho
      rw [← heq]
      exact ⟨(dedupL_mem _ _).mp hof.1, hof.2, rfl⟩
    have h1 : CommitsGraph.CalculateMaxDepth
        (buildGraph (commitsParTab odb (dedupL oids1))) =
        maxHgt (commitsParTab odb (dedupL oids1)) rankC := by
      apply calc_eq_maxHgt
      · rw [hkeys1]; exact hndC
      · intro pr hpr p hp
        obtain ⟨ho, hc, hps⟩ := hmemtab oids1 pr hpr
        rw [hps] at hp
        obtain ⟨hp1, hp2⟩ := hCcl pr.1 ho hc p hp
        rw [hkeys1]
        exact List.mem_filter.mpr ⟨(dedupL_mem _ _).mpr hp1, hp2⟩
      · intro pr hpr p hp
        obtain ⟨ho, hc, hps⟩ := hmemtab oids1 pr hpr
        rw [hps] at hp
        exact hCrk pr.1 ho hc p hp
      · intro pr hpr
        obtain ⟨ho, _, hps⟩ := hmemtab oids1 pr hpr
        rw [hps]
        exact hPlt pr.1 ho
      · have hl1 : (commitsParTab odb (dedupL oids1)).length ≤
            oids1.length := by
          unfold commitsParTab
          rw [List.length_map]
          calc ((dedupL oids1).filter (isCommitB odb)).length
              ≤ (dedupL oids1).length := List.length_filter_le _ _
            _ ≤ oids1.length := dedupL_length_le oids1
        omega
    have h2 : CommitsGraph.CalculateMaxDepth
        (buildGraph (commitsParTab odb (dedupL oids2))) =
        maxHgt (commitsParTab odb (dedupL oids2)) rankC := by
      apply calc_eq_maxHgt
      · rw [hkeys2]
        exact (hpC.nodup_iff).mp hndC
      · intro pr hpr p hp
        obtain ⟨ho, hc, hps⟩ := hmemtab oids2 pr hpr
        rw [hps] at hp
        obtain ⟨hp1, hp2⟩ := hCcl pr.1 (hperm.mem_iff.mpr ho) hc p hp
        rw [hkeys2]
        exact List.mem_filter.mpr
          ⟨(dedupL_mem _ _).mpr (hperm.mem_iff.mp hp1), hp2⟩
      · intro pr hpr p hp
        obtain ⟨ho, hc, hps⟩ := hmemtab oids2 pr hpr
        rw [hps] at hp
        exact hCrk pr.1 (hperm.mem_iff.mpr ho) hc p hp
      · intro pr hpr
        obtain ⟨ho, _, hps⟩ := hmemtab oids2 pr hpr
        rw [hps]
        exact hPlt pr.1 (hperm.mem_iff.mpr ho)
      · have hl2 : (commitsParTab odb (dedupL oids2)).length ≤
            oids2.length := by
          unfold commitsParTab
          rw [List.length_map]
          calc ((dedupL oids2).filter (isCommitB odb)).length
              ≤ (dedupL oids2).length := List.length_filter_le _ _
            _ ≤ oids2.length := dedupL_length_le oids2
        have := hperm.length_eq
        omega
    rw [h1, h2]
    apply maxHgt_perm
    · exact hpC.map _
    · rw [hkeys1]
      exact hndC
  -- max tag depth
  have hmtd : mtdCanon odb (dedupL oids1) rankG =
      mtdCanon odb (dedupL oids2) rankG := by
    unfold mtdCanon
    conv_lhs => rw [foldl_max_via_map]
    conv_rhs => rw [foldl_max_via_map]
    rw [show (tagsTab odb (dedupL oids1)).map Prod.fst =
      (dedupL oids1).filter (isTagB odb) from map_fst_mapKeys _ _]
    rw [show (tagsTab odb (dedupL oids2)).map Prod.fst =
      (dedupL oids2).filter (isTagB odb) from map_fst_mapKeys _ _]
    have hmc : ((dedupL oids1).filter (isTagB odb)).map
        (fun k => chainDepth (tagsTab odb (dedupL oids1)) (rankG k + 1) k) =
        ((dedupL oids1).filter (isTagB odb)).map
        (fun k => chainDepth (tagsTab odb (dedupL oids2)) (rankG k + 1) k) :=
      List.map_congr_left fun k _ =>
        chainDepth_congr _ _ hGlk (rankG k + 1) k
    rw [hmc]
    exact foldl_max_perm _ _ (hpG.map _)
  -- biggest checkouts
  have hbc : bcCanon odb (dedupL oids1) rankT =
      bcCanon odb (dedupL oids2) rankT := by
    unfold bcCanon
    rw [foldl_maxStats_comp, foldl_maxStats_comp]
    have hcomp : ∀ (px : TreeStatistics → Nat),
        ((commitsTab odb (dedupL oids1)).map
          (fun pr => px (specRollUp (blobsTab odb (dedupL oids1))
            (treesTab odb (dedupL oids1)) (rankT pr.2 + 1) pr.2))).foldl
          max 0 =
        ((commitsTab odb (dedupL oids2)).map
          (fun pr => px (specRollUp (blobsTab odb (dedupL oids2))
            (treesTab odb (dedupL oids2)) (rankT pr.2 + 1) pr.2))).foldl
          max 0 := by
      intro px
      have hmc : ((commitsTab odb (dedupL oids1)).map
          (fun pr => px (specRollUp (blobsTab odb (dedupL oids1))
            (treesTab odb (dedupL oids1)) (rankT pr.2 + 1) pr.2))) =
          ((commitsTab odb (dedupL oids1)).map
          (fun pr => px (specRollUp (blobsTab odb (dedupL oids2))
            (treesTab odb (dedupL oids2)) (rankT pr.2 + 1) pr.2))) :=
        List.map_congr_left fun pr _ => by
          rw [specRollUp_congr _ _ _ _ hBlk hTlk (rankT pr.2 + 1) pr.2]
      rw [hmc]
      exact foldl_max_perm _ _ ((hpC.map _).map _)
    rw [TreeStatistics.mk.injEq]
    exact ⟨hcomp _, hcomp _, hcomp _, hcomp _, hcomp _, hcomp _, hcomp _⟩
  -- assemble all sixteen fields
  unfold reportCanon
  rw [Statistics.mk.injEq]
  refine ⟨?_, ?_, ?_, ?_, ?_, ?_, ?_, ?_, rfl, ?_, ?_, ?_, ?_, ?_, ?_, ?_⟩
  · unfold commitsTab
    rw [List.length_map, List.length_map]
    exact hpC.length_eq
  · exact (hpC.map (cSize odb)).sum_eq
  · unfold treesTab
    rw [List.length_map, List.length_map]
    exact hpT.length_eq
  · exact (hpT.map (tSize odb)).sum_eq
  · exact (hpT.map fun o => (tEntries odb o).length).sum_eq
  · unfold blobsTab
    rw [List.length_map, List.length_map]
    exact hpB.length_eq
  · exact (hpB.map (bSize odb)).sum_eq
  · unfold tagsTab
    rw [List.length_map, List.length_map]
    exact hpG.length_eq
  · exact foldl_max_perm _ _ (hpC.map (cSize odb))
  · exact foldl_max_perm _ _ (hpC.map fun o => (cParents odb o).length)
  · exact foldl_max_perm _ _ (hpT.map fun o => (tEntries odb o).length)
  · exact foldl_max_perm _ _ (hpB.map (bSize odb))
  · exact hmd
  · exact hmtd
  · exact hbc

/-- C7: the report only depends on the contents of the object database and
the enumeration as a set: two enumerations of the same oids (in any orders)
produce equal reports.  The hypotheses say the enumeration is a well-formed
closed repository: commit parents are enumerated commits with a rank
witnessing acyclicity and parent counts below 2^32; tree entries reference
enumerated non-empty trees (rank-decreasing) and enumerated blobs; commit
root trees are enumerated non-empty trees; tag chains stay among enumerated
tags with a rank witnessing acyclicity and depths below the uint32 range. -/
theorem c7_report_order_independent (odb : Odb) (oids1 oids2 : List Oid)
    (numRefs : Nat) (rankC rankT rankG : Oid → Nat)
    (hperm : oids1.Perm oids2)
    (hCcl : ∀ o ∈ oids1, isCommitB odb o = true →
      ∀ p ∈ cParents odb o, p ∈ oids1 ∧ isCommitB odb p = true)
    (hCrk : ∀ o ∈ oids1, isCommitB odb o = true →
      ∀ p ∈ cParents odb o, rankC p < rankC o)
    (hPlt : ∀ o ∈ oids1, (cParents odb o).length < U32)
    (hOsz : oids1.length < U32)
    (hTsub : ∀ o ∈ oids1, isTreeB odb o = true →
      ∀ te ∈ tEntries odb o, te.etype = ObjType.tree →
        te.eoid ∈ oids1 ∧ isTreeB odb te.eoid = true ∧
        rankT te.eoid < rankT o)
    (hTblob : ∀ o ∈ oids1, isTreeB odb o = true →
      ∀ te ∈ tEntries odb o, te.etype = ObjType.blob →
        te.mode ≠ Filemode.link →
        te.eoid ∈ oids1 ∧ isBlobB odb te.eoid = true)
    (hTrk : ∀ o ∈ oids1, isTreeB odb o = true →
      rankT o < ((dedupL oids1).filter (isTreeB odb)).length + 1)
    (hCroot : ∀ o ∈ oids1, isCommitB odb o = true →
      cTree odb o ∈ oids1 ∧ isTreeB odb (cTree odb o) = true)
    (hGtar : ∀ o ∈ oids1, isTagB odb o = true →
      (tagTD odb o).typeTarget = ObjType.tag →
        (tagTD odb o).oidTarget ∈ oids1 ∧
        isTagB odb ((tagTD odb o).oidTarget) = true ∧
        rankG ((tagTD odb o).oidTarget) < rankG o)
    (hGrb : ∀ o ∈ oids1, isTagB odb o = true → rankG o + 2 < U32)
    (hGrle : ∀ o ∈ oids1, isTagB odb o = true →
      rankG o ≤ ((dedupL oids1).filter (isTagB odb)).length) :
    statisticsModel odb oids1 numRefs = statisticsModel odb oids2 numRefs := by
  have hm : ∀ a, a ∈ oids1 ↔ a ∈ oids2 := fun a => hperm.mem_iff
  have hdl : (dedupL oids1).Perm (dedupL oids2) :=
    (List.perm_ext_iff_of_nodup (dedupL_nodup _) (dedupL_nodup _)).mpr
      (fun a => by rw [dedupL_mem, dedupL_mem]; exact hperm.mem_iff)
  have hTsub2 : ∀ o ∈ oids2, isTreeB odb o = true →
      ∀ te ∈ tEntries odb o, te.etype = ObjType.tree →
        te.eoid ∈ oids2 ∧ isTreeB odb te.eoid = true ∧
        rankT te.eoid < rankT o := by
    intro o ho ht te hte hety
    obtain ⟨h1, h2, h3⟩ := hTsub o ((hm o).mpr ho) ht te hte hety
    exact ⟨(hm te.eoid).mp h1, h2, h3⟩
  have hTblob2 : ∀ o ∈ oids2, isTreeB odb o = true →
      ∀ te ∈ tEntries odb o, te.etype = ObjType.blob →
        te.mode ≠ Filemode.link →
        te.eoid ∈ oids2 ∧ isBlobB odb te.eoid = true := by
    intro o ho ht te hte hety hmode
    obtain ⟨h1, h2⟩ := hTblob o ((hm o).mpr ho) ht te hte hety hmode
    exact ⟨(hm te.eoid).mp h1, h2⟩
  have hTrk2 : ∀ o ∈ oids2, isTreeB odb o = true →
      rankT o < ((dedupL oids2).filter (isTreeB odb)).length + 1 := by
    intro o ho ht
    have hb := hTrk o ((hm o).mpr ho) ht
    rw [← (hdl.filter (isTreeB odb)).length_eq]
    exact hb
  have hCroot2 : ∀ o ∈ oids2, isCommitB odb o = true →
      cTree odb o ∈ oids2 ∧ isTreeB odb (cTree odb o) = true := by
    intro o ho hc
    obtain ⟨h1, h2⟩ := hCroot o ((hm o).mpr ho) hc
    exact ⟨(hm (cTree odb o)).mp h1, h2⟩
  have hGtar2 : ∀ o ∈ oids2, isTagB odb o = true →
      (tagTD odb o).typeTarget = ObjType.tag →
        (tagTD odb o).oidTarget ∈ oids2 ∧
        isTagB odb ((tagTD odb o).oidTarget) = true ∧
        rankG ((tagTD odb o).oidTarget) < rankG o := by
    intro o ho ht hty
    obtain ⟨h1, h2, h3⟩ := hGtar o ((hm o).mpr ho) ht hty
    exact ⟨(hm _).mp h1, h2, h3⟩
  have hGrb2 : ∀ o ∈ oids2, isTagB odb o = true → rankG o + 2 < U32 :=
    fun o ho ht => hGrb o ((hm o).mpr ho) ht
  have hGrle2 : ∀ o ∈ oids2, isTagB odb o = true →
      rankG o ≤ ((dedupL oids2).filter (isTagB odb)).length := by
    intro o ho ht
    have hb := hGrle o ((hm o).mpr ho) ht
    rw [← (hdl.filter (isTagB odb)).length_eq]
    exact hb
  rw [statisticsModel_canon odb oids1 rankT rankG numRefs hTsub hTblob hTrk
    hCroot hGtar hGrb hGrle,
    statisticsModel_canon odb oids2 rankT rankG numRefs hTsub2 hTblob2 hTrk2
    hCroot2 hGtar2 hGrb2 hGrle2]
  exact congrArg Except.ok (reportCanon_perm odb oids1 oids2 rankC rankT
    rankG numRefs hperm hCcl hCrk hPlt hOsz)

/-- Witness repository: two commits (1 on top of 0) sharing root tree 100
with one blob entry 200, and annotated tag 300 on commit 0; two opposite
enumeration orders. -/
def c7Odb : Odb := fun o =>
  if o = 0 then some (ObjData.commit 10 100 [])
  else if o = 1 then some (ObjData.commit 12 100 [0])
  else if o = 100 then some (ObjData.tree 20
    [⟨4, Filemode.blobMode, ObjType.blob, 200⟩])
  else if o = 200 then some (ObjData.blob 7)
  else if o = 300 then some (ObjData.tag 0 ObjType.commit)
  else none

theorem c7_report_order_independent_witness :
    statisticsModel c7Odb [0, 1, 100, 200, 300] 2 =
      statisticsModel c7Odb [300, 200, 100, 1, 0] 2 :=
  c7_report_order_independent c7Odb [0, 1, 100, 200, 300] [300, 200, 100, 1, 0]
    2 (fun o => o) (fun _ => 0) (fun _ => 0)
    (by decide) (by decide) (by decide) (by decide) (by decide) (by decide)
    (by decide) (by decide) (by decide) (by decide) (by decide) (by decide)
